import Mathlib

/-!
Partitioned-convolution reverb (`Plugin_ConvolutionReverb.cpp`)

A shallow embedding of the impulse-response slot table, the impulse preparation
(`ResetData`, `irUpload_thread`) and the block processor (`ProcessCallback`), followed by
theorems about them.

Conventions of the embedding.
* C `int` values are unbounded integers (`Int`); no arithmetic here is meant to wrap.
* `float` and `double` values are elements of an arbitrary type `α` carrying exact
  arithmetic (a ring or an ordered field, as each definition needs).
* Raw sample arrays owned by the slot table live in an explicit heap, so that the identity of
  an allocation (its address) is visible. `delete[]` leaves the heap as it is and addresses
  are never reused.
* A read outside an array yields `0`, a write outside an array is dropped, and an array
  allocated with a negative size is empty; where a statement depends on such an access the
  access itself is reported (`none`) or the indices are stated.
* The mutexes are not modelled: every operation runs to completion on its own.
-/

set_option autoImplicit false

namespace ConvolutionReverb

/-! ## The impulse-response slot table -/

/-- Number of slots: `const int MAXSAMPLE = 16`. -/
def MAXSAMPLE : Int := 16

/-- The record `struct IRSample` (the mutex left out). `data` is the pointer to the sample
array: `none` is `NULL`, `some p` is the address `p` in the heap of the store. -/
structure IRSample where
  data : Option Nat
  numsamples : Int
  numchannels : Int
  samplerate : Int
  updatecount : Int
  allocated : Int
  impulse_upload_only : Bool
  name : String
deriving DecidableEq, Repr

/-- The all-zero record left by `memset(samples, 0, sizeof(samples))`. -/
def IRSample.zero : IRSample :=
  { data := none, numsamples := 0, numchannels := 0, samplerate := 0, updatecount := 0,
    allocated := 0, impulse_upload_only := false, name := "" }

/-- Address of the static array `dummydata[256 * 8]` of `irUpload_thread`. -/
def dummydataAddr : Nat := 0

/-- The static table `samples[MAXSAMPLE]` of `GetIRSample` together with the float arrays
that slot pointers can refer to. `heap[p]` is the array at address `p`; address
`dummydataAddr` holds the static `dummydata`, every other address is a `new float[...]`. -/
structure SampleStore (α : Type) where
  samples : Fin 16 → IRSample
  heap : List (List α)

/-- The store as first seen through `GetIRSample`: every slot zeroed, no array allocated,
the static `dummydata` zero-initialised. -/
def SampleStore.empty (α : Type) [Zero α] : SampleStore α :=
  { samples := fun _ => IRSample.zero, heap := [List.replicate (256 * 8) 0] }

/-- The access `samples[index]` of `GetIRSample`. The function itself performs no range check;
`none` stands for an access outside the 16-entry table. -/
def GetIRSample {α : Type} (st : SampleStore α) (index : Int) : Option IRSample :=
  if h : 0 ≤ index ∧ index < 16 then some (st.samples ⟨index.toNat, by omega⟩) else none

/-- The array a pointer refers to (`NULL` and dangling addresses give the empty array). -/
def deref {α : Type} (heap : List (List α)) (p : Option Nat) : List α :=
  match p with
  | none => []
  | some a => heap.getD a []

/-- The sample array a slot currently points to. -/
def SampleStore.buffer {α : Type} (st : SampleStore α) (s : IRSample) : List α :=
  deref st.heap s.data

/-- The call `strcpy_s(s.name, name)` into the field `char name[1024]`: the name is stored when
it fits with its terminator; otherwise the secure copy leaves the empty string. -/
def strcpy_s (name : String) : String :=
  if name.length < 1024 then name else ""

/-- The call `memcpy(dst, src, n * sizeof(float))`: the first `n` cells of the destination array
are replaced by the first `n` cells of `src`. A `NULL` destination is only met with `n ≤ 0`
and nothing is copied then. -/
def memcpy {α : Type} (heap : List (List α)) (dst : Option Nat) (src : List α) (n : Int) :
    List (List α) :=
  match dst with
  | none => heap
  | some a => heap.set a (src.take n.toNat ++ (heap.getD a []).drop n.toNat)

/-- The body of `ConvolutionReverb_UploadSample` after the range check, acting on the slot
record `s` (the reference `GetIRSample(index)`) and on the heap. -/
def uploadInto {α : Type} [Zero α] (heap : List (List α)) (s : IRSample) (data : List α)
    (numsamples numchannels samplerate : Int) (name : String) : IRSample × List (List α) :=
  -- fast track if no parameters have changed
  let fast := Decidable.decide (s.allocated ≠ 0) && Decidable.decide (s.numsamples = numsamples)
    && Decidable.decide (s.numchannels = numchannels)
    && Decidable.decide (s.samplerate = samplerate)
  let s := { s with impulse_upload_only := fast }
  if s.impulse_upload_only then
    ({ s with name := strcpy_s name, updatecount := 1 },
      memcpy heap s.data data (numsamples * numchannels))
  else
    let num := numsamples * numchannels
    let needs_resize := Decidable.decide (num ≠ s.numsamples * s.numchannels)
    -- (delete[] s.data when allocated and resizing: the heap keeps the old array)
    if num > 0 then
      if needs_resize then
        -- s.data = new float[num]
        ({ s with data := some heap.length, allocated := 1, name := strcpy_s name,
                  numsamples := numsamples, numchannels := numchannels,
                  samplerate := samplerate, updatecount := 1 },
          memcpy (heap ++ [List.replicate num.toNat 0]) (some heap.length) data num)
      else
        ({ s with name := strcpy_s name,
                  numsamples := numsamples, numchannels := numchannels,
                  samplerate := samplerate, updatecount := 1 },
          memcpy heap s.data data num)
    else
      -- no data has been given: the name is not copied on this path
      ({ s with data := none, allocated := 1,
                numsamples := numsamples, numchannels := numchannels,
                samplerate := samplerate, updatecount := 1 }, heap)

/-- The exported `ConvolutionReverb_UploadSample`: the returned flag and the store afterwards. -/
def ConvolutionReverb_UploadSample {α : Type} [Zero α] (st : SampleStore α) (index : Int)
    (data : List α) (numsamples numchannels samplerate : Int) (name : String) :
    Bool × SampleStore α :=
  if h : index < 0 ∨ index ≥ MAXSAMPLE then (false, st)
  else
    let i : Fin 16 := ⟨index.toNat, by unfold MAXSAMPLE at h; omega⟩
    let r := uploadInto st.heap (st.samples i) data numsamples numchannels samplerate name
    (true, { samples := Function.update st.samples i r.1, heap := r.2 })

/-- The exported `ConvolutionReverb_GetSampleName`. The only test before the table access is
`index < MAXSAMPLE`; `none` stands for a table access outside `samples[0..15]`. -/
def ConvolutionReverb_GetSampleName {α : Type} (st : SampleStore α) (index : Int) :
    Option String :=
  if index < MAXSAMPLE then
    match GetIRSample st index with
    | none => none
    | some s => if s.allocated = 0 then some "Not set" else some s.name
  else some "Not set"

/-- The size invariant of a slot: when the stored shape `numsamples * numchannels` is positive,
`data` points to an array with at least that many cells. It holds in the empty store and every
upload keeps it. -/
def SlotWF {α : Type} (st : SampleStore α) (s : IRSample) : Prop :=
  0 < s.numsamples * s.numchannels →
    ∃ a, s.data = some a ∧ a < st.heap.length ∧
      (s.numsamples * s.numchannels).toNat ≤ (st.heap.getD a []).length

/-! ## The engine state -/

/-- The record `UnityComplexNumber` of the plugin SDK: a complex number as a pair. -/
structure UnityComplexNumber (α : Type) where
  re : α
  im : α
deriving DecidableEq, Repr

/-- Modelled from the spec: `UnityComplexNumber::MulAdd(a, b, c, result)` of the SDK header
`AudioPluginUtil.h` (not part of the source file), the complex multiply-accumulate
`result = a * b + c` behind "accumulate `h[k] ⊙ x[..]` (elementwise complex multiply) into a
shared scratch accumulator". -/
def UnityComplexNumber.MulAdd {α : Type} [Ring α] (a b c : UnityComplexNumber α) :
    UnityComplexNumber α :=
  { re := a.re * b.re - a.im * b.im + c.re, im := a.re * b.im + a.im * b.re + c.im }

/-- Modelled from the spec: the numeric primitives the source calls and does not define,
taken as parameters. `Forward` and `Backward` are `FFT::Forward(buf, fftsize, false)` and
`FFT::Backward(buf, fftsize, false)` ("a given complex forward/inverse transform of a fixed
power-of-two size") acting on a whole `fftsize`-long array; `sqrtf` is the C square root. -/
structure Primitives (α : Type) where
  sqrtf : α → α
  Forward : List (UnityComplexNumber α) → List (UnityComplexNumber α)
  Backward : List (UnityComplexNumber α) → List (UnityComplexNumber α)

/-- The record `struct Channel`: impulse partitions `h`, input partitions `x`, the impulse
array and the ring buffer `s`. -/
structure Channel (α : Type) where
  h : List (List (UnityComplexNumber α))
  x : List (List (UnityComplexNumber α))
  impulse : List α
  s : List α
deriving DecidableEq, Repr

/-- The record `struct EffectData` (the mutex left out). `p` and `lastparams` are the
one-element float arrays indexed by `P_USESAMPLE`; `channels` is `none` for `NULL`. -/
structure EffectData (α : Type) where
  p : α
  numsamples_in : Int
  samplerate_in : Int
  numchannels : Int
  numpartitions : Int
  fftsize : Int
  hopsize : Int
  bufferindex : Int
  writeoffset : Int
  samplerate : Int
  lastparams : α
  tmpoutput : List (UnityComplexNumber α)
  channels : Option (List (Channel α))

/-- The state left by `memset(data, 0, sizeof(EffectData))` in `CreateCallback`, with the
parameter `p` as initialised from the parameter definition. -/
def EffectData.zero {α : Type} (p : α) [Zero α] : EffectData α :=
  { p := p, numsamples_in := 0, samplerate_in := 0, numchannels := 0, numpartitions := 0,
    fftsize := 0, hopsize := 0, bufferindex := 0, writeoffset := 0, samplerate := 0,
    lastparams := 0, tmpoutput := [], channels := none }

/-- The conversion `(int)x` of a float: truncation towards zero. -/
def truncInt {α : Type} [LinearOrderedField α] [FloorRing α] (x : α) : Int :=
  if 0 ≤ x then Int.floor x else Int.ceil x

/-- A read `buf[i]` with a C `int` index; an index outside the array yields `0`. -/
def readAt {α : Type} [Zero α] (buf : List α) (i : Int) : α :=
  if 0 ≤ i then buf.getD i.toNat 0 else 0

/-! ## `ResetData` -/

/-- The loop `while (numpartitions * hopsize < reallength) numpartitions++` of `ResetData`,
started at `np` and run for at most `fuel` tests of the condition; `none` when the loop is
still running after that. -/
def numpartitionsLoop (hopsize reallength : Int) : Nat → Int → Option Int
  | 0, _ => none
  | fuel + 1, np =>
    if np * hopsize < reallength then numpartitionsLoop hopsize reallength fuel (np + 1)
    else some np

/-- The impulse length in samples computed by `ResetData`: 256 for a source without frames,
otherwise `(int)ceilf(s.numsamples * (float)samplerate / (float)s.samplerate)`. -/
def reallength (α : Type) [LinearOrderedField α] [FloorRing α] (s : IRSample)
    (samplerate : Int) : Int :=
  if s.numsamples = 0 then 256
  else Int.ceil ((s.numsamples : α) * (samplerate : α) / (s.samplerate : α))

/-- The channel allocated and zeroed by `ResetData`. -/
def Channel.fresh {α : Type} [Zero α] (numpartitions fftsize impulsesamples : Int) :
    Channel α :=
  { impulse := List.replicate impulsesamples.toNat 0
    s := List.replicate fftsize.toNat 0
    h := List.replicate numpartitions.toNat (List.replicate fftsize.toNat ⟨0, 0⟩)
    x := List.replicate numpartitions.toNat (List.replicate fftsize.toNat ⟨0, 0⟩) }

/-- The function `ResetData`: the old buffers are released and every field but `p` is set
anew. `none` when the partition-count loop does not finish within `fuel` steps. -/
def ResetData {α : Type} [LinearOrderedField α] [FloorRing α] (fuel : Nat)
    (data : EffectData α) (s : IRSample) (numchannels blocksize samplerate : Int) :
    Option (EffectData α) :=
  match numpartitionsLoop blocksize (reallength α s samplerate) fuel 0 with
  | none => none
  | some np =>
    some { p := data.p
           lastparams := data.p
           bufferindex := 0
           writeoffset := 0
           samplerate_in := s.samplerate
           numsamples_in := s.numsamples
           numchannels := numchannels
           hopsize := blocksize
           fftsize := blocksize * 2
           tmpoutput := List.replicate (blocksize * 2).toNat ⟨0, 0⟩
           samplerate := samplerate
           numpartitions := np
           channels := some (List.replicate numchannels.toNat
             (Channel.fresh np (blocksize * 2) (np * blocksize))) }

/-! ## `irUpload_thread`: preparing the impulse -/

/-- The source channel read for target channel `i`:
`(i < s.numchannels) ? i : (s.numchannels - 1)`. -/
def sourceChannel (s : IRSample) (i : Int) : Int :=
  if i < s.numchannels then i else s.numchannels - 1

/-- The first frame index of the resampling loop: `(int)ceilf(fpos)`, replaced by
`s.numsamples - 1` when it is `>= s.numsamples`. -/
def ipos1 {α : Type} [LinearOrderedField α] [FloorRing α] (s : IRSample) (fpos : α) : Int :=
  if Int.ceil fpos ≥ s.numsamples then s.numsamples - 1 else Int.ceil fpos

/-- The second frame index: `ipos1 + 1`, replaced by `s.numsamples - 1` when it is
`>= s.numsamples`. -/
def ipos2 (s : IRSample) (i1 : Int) : Int :=
  if i1 + 1 ≥ s.numsamples then s.numsamples - 1 else i1 + 1

/-- One pass of the resampling loop: the value stored in `c.impulse[n]` for source channel
`channel`, read from the slot's array `buf`. -/
def resampleAt {α : Type} [LinearOrderedField α] [FloorRing α] (s : IRSample) (buf : List α)
    (samplerate : Int) (channel : Int) (n : Int) : α :=
  let speed : α := (s.samplerate : α) / (samplerate : α)
  let fpos : α := (n : α) * speed
  let i1 := ipos1 s fpos
  let i2 := ipos2 s i1
  let fpos := fpos - (i1 : α)
  let s1 := readAt buf (i1 * s.numchannels + channel)
  let s2 := readAt buf (i2 * s.numchannels + channel)
  s1 + (s2 - s1) * fpos

/-- The resampling loop over `n < impulsesamples` for target channel `i`. -/
def resampledImpulse {α : Type} [LinearOrderedField α] [FloorRing α] (s : IRSample)
    (buf : List α) (samplerate : Int) (i : Int) (impulsesamples : Int) : List α :=
  (List.range impulsesamples.toNat).map
    (fun (n : Nat) => resampleAt s buf samplerate (sourceChannel s i) (n : Int))

/-- The loop `power += c.impulse[n] * c.impulse[n]` started from `0`. -/
def power {α : Type} [Ring α] (impulse : List α) : α :=
  impulse.foldl (fun acc v => acc + v * v) 0

/-- The gain normalisation: `scale = 1.0f / sqrtf(power)` and `c.impulse[n] *= scale`. -/
def normalizeGain {α : Type} [Field α] (prim : Primitives α) (impulse : List α) : List α :=
  impulse.map (fun v => v * (1 / prim.sqrtf (power impulse)))

/-- The frame handed to `FFT::Forward` for partition `k`: the old contents `hk` of `c.h[k]`
with the real parts of its first `hopsize` entries overwritten by
`impulse[k * hopsize + n]` (`c.h[k][n].re = *src++`). -/
def partitionFrame {α : Type} [Zero α] (hk : List (UnityComplexNumber α)) (impulse : List α)
    (hopsize : Int) (k : Nat) : List (UnityComplexNumber α) :=
  (List.range hk.length).map (fun (n : Nat) =>
    if (n : Int) < hopsize then
      { re := readAt impulse ((k : Int) * hopsize + (n : Int)), im := (hk.getD n ⟨0, 0⟩).im }
    else hk.getD n ⟨0, 0⟩)

/-- The loop over `k < numpartitions` that fills and transforms the impulse partitions. -/
def transformPartitions {α : Type} [Zero α] (prim : Primitives α)
    (h : List (List (UnityComplexNumber α))) (impulse : List α) (numpartitions hopsize : Int) :
    List (List (UnityComplexNumber α)) :=
  (List.range h.length).map (fun (k : Nat) =>
    if (k : Int) < numpartitions then
      prim.Forward (partitionFrame (h.getD k []) impulse hopsize k)
    else h.getD k [])

/-- The peak-detection loop: `a = fabsf(v)`, `peak` is raised to `a` or decays to
`peak * 0.99f + 1.0e-9f`, `sum += peak`, and the running `sum` is stored. -/
def peakSumLoop {α : Type} [LinearOrderedField α] : List α → α → α → List α
  | [], _, _ => []
  | v :: rest, sum, peak =>
    let peak1 := if |v| > peak then |v| else peak * (99 / 100) + 1 / 1000000000
    (sum + peak1) :: peakSumLoop rest (sum + peak1) peak1

/-- The de-trending loop: `c.impulse[n] -= sum; sum -= dc`. -/
def detrendLoop {α : Type} [Ring α] : List α → α → α → List α
  | [], _, _ => []
  | v :: rest, sum, dc => (v - sum) :: detrendLoop rest (sum - dc) dc

/-- The envelope stored over the impulse array at the end of the channel pass: the running
sum of the peak-held magnitude with `dc = -sum / impulsesamples` taken out step by step. -/
def envelopeCurve {α : Type} [LinearOrderedField α] (impulse : List α) (impulsesamples : Int) :
    List α :=
  let acc := peakSumLoop impulse 0 0
  let sum := acc.getLastD 0
  detrendLoop acc 0 (-sum / (impulsesamples : α))

/-- The static record `dummysample` after its four assignments; its other fields keep their
static zero initialisation. -/
def dummysample (numchannels samplerate : Int) : IRSample :=
  { data := some dummydataAddr, numchannels := numchannels, numsamples := 256,
    samplerate := samplerate, updatecount := 0, allocated := 0, impulse_upload_only := false,
    name := "" }

/-- The loop `for (n < numchannels) dummydata[n] = 1.0f`. -/
def fillDummy {α : Type} [Zero α] [One α] (dummydata : List α) (numchannels : Int) : List α :=
  (List.range dummydata.length).map (fun (n : Nat) =>
    if (n : Int) < numchannels then 1 else dummydata.getD n 0)

/-- The part of the channel pass that may rewrite the slot: when the slot has no frames the
dummy array gets its leading ones and the slot record is overwritten by `dummysample`
(`s = dummysample` assigns through the reference into the slot table). -/
def substituteDummy {α : Type} [Zero α] [One α] (st : SampleStore α) (u : Fin 16)
    (numchannels samplerate : Int) : SampleStore α :=
  if (st.samples u).numsamples = 0 then
    { samples := Function.update st.samples u (dummysample numchannels samplerate)
      heap := st.heap.set dummydataAddr
        (fillDummy (st.heap.getD dummydataAddr []) numchannels) }
  else st

/-- The impulse of target channel `i` as it is partitioned and transformed: resampled from
the slot and gain-normalised. -/
def preparedImpulse {α : Type} [LinearOrderedField α] [FloorRing α] (prim : Primitives α)
    (st : SampleStore α) (u : Fin 16) (data : EffectData α) (samplerate : Int) (i : Nat) :
    List α :=
  normalizeGain prim
    (resampledImpulse (st.samples u) (st.buffer (st.samples u)) samplerate (i : Int)
      (data.numpartitions * data.hopsize))

/-- One pass of the channel loop of `irUpload_thread` for channel `i` with state `c`. -/
def prepareChannel {α : Type} [LinearOrderedField α] [FloorRing α] (prim : Primitives α)
    (st : SampleStore α) (u : Fin 16) (data : EffectData α) (numchannels samplerate : Int)
    (i : Nat) (c : Channel α) : SampleStore α × Channel α :=
  let st1 := substituteDummy st u numchannels samplerate
  let imp := preparedImpulse prim st1 u data samplerate i
  (st1, { c with
    h := transformPartitions prim c.h imp data.numpartitions data.hopsize
    impulse := envelopeCurve imp (data.numpartitions * data.hopsize) })

/-- The channel loop `for (i < n_ch)` over the indices `is`; `none` when `data->channels[i]`
lies outside the allocated array. -/
def prepareChannels {α : Type} [LinearOrderedField α] [FloorRing α] (prim : Primitives α)
    (u : Fin 16) (data : EffectData α) (numchannels samplerate : Int) :
    List Nat → SampleStore α × List (Channel α) → Option (SampleStore α × List (Channel α))
  | [], r => some r
  | i :: rest, (st, chans) =>
    match chans.get? i with
    | none => none
    | some c =>
      let r := prepareChannel prim st u data numchannels samplerate i c
      prepareChannels prim u data numchannels samplerate rest (r.1, chans.set i r.2)

/-- The test of `irUpload_thread` under which the buffers are kept. -/
def keepsBuffers {α : Type} (data : EffectData α) (s : IRSample) (blocksize : Int) : Bool :=
  Decidable.decide (s.numchannels = data.numchannels) &&
  Decidable.decide (data.hopsize = blocksize) &&
  Decidable.decide (data.samplerate_in = s.samplerate) &&
  Decidable.decide (data.numsamples_in = s.numsamples)

/-- The function `irUpload_thread`, run to completion. `none` when the selected slot index
lies outside the table, when `ResetData` does not finish within `fuel`, or when a channel
outside the allocated array is addressed. -/
def irUpload_thread {α : Type} [LinearOrderedField α] [FloorRing α] (fuel : Nat)
    (prim : Primitives α) (st : SampleStore α) (data : EffectData α)
    (numchannels blocksize samplerate : Int) : Option (SampleStore α × EffectData α) :=
  if hu : 0 ≤ truncInt data.p ∧ truncInt data.p < 16 then
    let u : Fin 16 := ⟨(truncInt data.p).toNat, by omega⟩
    let s := st.samples u
    match (if keepsBuffers data s blocksize then some data
           else ResetData fuel data s numchannels blocksize samplerate) with
    | none => none
    | some data1 =>
      match prepareChannels prim u data1 numchannels samplerate
          (List.range data1.numchannels.toNat) (st, data1.channels.getD []) with
      | none => none
      | some r =>
        some (r.1, { data1 with
          channels := if data1.channels.isSome then some r.2 else none })
  else none

/-- The function `SetupImpulse` called with `async = false`, as all its callers do. -/
def SetupImpulse {α : Type} [LinearOrderedField α] [FloorRing α] (fuel : Nat)
    (prim : Primitives α) (st : SampleStore α) (data : EffectData α)
    (numchannels blocksize samplerate : Int) : Option (SampleStore α × EffectData α) :=
  if hu : 0 ≤ truncInt data.p ∧ truncInt data.p < 16 then
    let u : Fin 16 := ⟨(truncInt data.p).toNat, by omega⟩
    if truncInt data.lastparams = truncInt data.p ∧ (st.samples u).updatecount = 0
        ∧ data.channels.isSome then
      some (st, data)
    else
      let s := st.samples u
      irUpload_thread fuel prim
        { st with samples := Function.update st.samples u { s with updatecount := 0 } }
        data numchannels blocksize samplerate
  else none

/-- The two indices into `s.data` that one pass of the resampling loop reads for destination
sample `n` and source channel `channel`: `ipos1 * s.numchannels + channel` and
`ipos2 * s.numchannels + channel`. -/
def resampleReads (α : Type) [LinearOrderedField α] [FloorRing α] (s : IRSample)
    (samplerate channel n : Int) : Int × Int :=
  let speed : α := (s.samplerate : α) / (samplerate : α)
  let fpos : α := (n : α) * speed
  let i1 := ipos1 s fpos
  let i2 := ipos2 s i1
  (i1 * s.numchannels + channel, i2 * s.numchannels + channel)

/-- The loop feeding the new samples into the ring buffer, over the sample indices `ns`:
`s[writeoffset] = inbuffer[n * inchannels + i]; writeoffset = (writeoffset + 1) & mask`.
The state is the ring buffer and the local `writeoffset`. -/
def feedInput {α : Type} [Zero α] (inbuffer : List α) (inchannels : Int) (i : Nat)
    (mask : Int) : List Nat → List α × Int → List α × Int
  | [], r => r
  | n :: rest, (s, writeoffset) =>
    feedInput inbuffer inchannels i mask rest
      (s.set writeoffset.toNat (readAt inbuffer ((n : Int) * inchannels + (i : Int))),
        Int.land (writeoffset + 1) mask)

/-- The loop copying `count` ring-buffer samples into the frame:
`x[n].Set(s[writeoffset], 0.0f); writeoffset = (writeoffset + 1) & mask`.
The result is the frame and the local `writeoffset` after the loop. -/
def readFrame {α : Type} [Zero α] (s : List α) (mask : Int) :
    Nat → Int → List (UnityComplexNumber α) × Int
  | 0, writeoffset => ([], writeoffset)
  | count + 1, writeoffset =>
    let r := readFrame s mask count (Int.land (writeoffset + 1) mask)
    ({ re := readAt s writeoffset, im := 0 } :: r.1, r.2)

/-- One pass of the inner loop `MulAdd(h[n], x[n], y[n], y[n])` over `n < fftsize`. -/
def mulAddFrame {α : Type} [Ring α] (fftsize : Int) (h x y : List (UnityComplexNumber α)) :
    List (UnityComplexNumber α) :=
  (List.range fftsize.toNat).map (fun (n : Nat) =>
    UnityComplexNumber.MulAdd (h.getD n ⟨0, 0⟩) (x.getD n ⟨0, 0⟩) (y.getD n ⟨0, 0⟩))

/-- The loop over the partitions `ks`, accumulating
`h[k] * x[(k + bufferindex) % numpartitions]` into `y`. -/
def accumulate {α : Type} [Ring α] (data : EffectData α) (c : Channel α) :
    List Nat → List (UnityComplexNumber α) → List (UnityComplexNumber α)
  | [], y => y
  | k :: rest, y =>
    accumulate data c rest
      (mulAddFrame data.fftsize (c.h.getD k [])
        (c.x.getD (Int.tmod ((k : Int) + data.bufferindex) data.numpartitions).toNat []) y)

/-- The result of one pass of the channel loop of `ProcessCallback`. -/
structure ChannelPass (α : Type) where
  channel : Channel α
  y : List (UnityComplexNumber α)
  writeoffset : Int

/-- One pass of the channel loop of `ProcessCallback` for channel `i` with state `c`: feed the
ring buffer, transform the frame into `x[bufferindex]`, accumulate over the partitions from a
zeroed `tmpoutput`, transform back. -/
def processChannel {α : Type} [Ring α] (prim : Primitives α) (data : EffectData α)
    (inbuffer : List α) (inchannels : Int) (i : Nat) (c : Channel α) : ChannelPass α :=
  let mask := data.fftsize - 1
  let fed := feedInput inbuffer inchannels i mask (List.range data.hopsize.toNat)
    (c.s, data.writeoffset)
  let fr := readFrame fed.1 mask data.fftsize.toNat data.writeoffset
  let c1 : Channel α :=
    { c with s := fed.1, x := c.x.set data.bufferindex.toNat (prim.Forward fr.1) }
  let y := accumulate data c1 (List.range data.numpartitions.toNat)
    (List.replicate data.fftsize.toNat ⟨0, 0⟩)
  { channel := c1, y := prim.Backward y, writeoffset := Int.land (fr.2 + data.hopsize) mask }

/-- The overlap-save readout `outbuffer[n * outchannels + i] = y[n].re` over the indices
`ns`. -/
def readout {α : Type} [Zero α] (y : List (UnityComplexNumber α)) (outchannels : Int)
    (i : Nat) : List Nat → List α → List α
  | [], outbuffer => outbuffer
  | n :: rest, outbuffer =>
    readout y outchannels i rest
      (outbuffer.set ((n : Int) * outchannels + (i : Int)).toNat (y.getD n ⟨0, 0⟩).re)

/-- The state carried through the channel loop of `ProcessCallback`: the channel array, the
shared `tmpoutput`, the output block and the local `writeoffset` (`none` while it is still
unassigned). -/
structure BlockState (α : Type) where
  channels : List (Channel α)
  tmpoutput : List (UnityComplexNumber α)
  outbuffer : List α
  writeoffset : Option Int

/-- The channel loop `for (i < inchannels)` over the indices `is`; `none` when
`data->channels[i]` lies outside the allocated array. -/
def processChannels {α : Type} [Ring α] (prim : Primitives α) (data : EffectData α)
    (inbuffer : List α) (inchannels outchannels : Int) :
    List Nat → BlockState α → Option (BlockState α)
  | [], b => some b
  | i :: rest, b =>
    match b.channels.get? i with
    | none => none
    | some c =>
      let r := processChannel prim data inbuffer inchannels i c
      processChannels prim data inbuffer inchannels outchannels rest
        { channels := b.channels.set i r.channel
          tmpoutput := r.y
          outbuffer := readout r.y outchannels i (List.range data.hopsize.toNat) b.outbuffer
          writeoffset := some r.writeoffset }

/-- The body of `ProcessCallback` after the call of `SetupImpulse`: the channel loop, the
step of `bufferindex` and the store of `writeoffset`. The result is the engine state and the
output block; `none` when a channel outside the allocated array is addressed or when the local
`writeoffset` is stored without ever having been assigned (no input channel). -/
def processBlock {α : Type} [Ring α] (prim : Primitives α) (data : EffectData α)
    (inbuffer outbuffer : List α) (inchannels outchannels : Int) :
    Option (EffectData α × List α) :=
  match processChannels prim data inbuffer inchannels outchannels
      (List.range inchannels.toNat)
      { channels := data.channels.getD [], tmpoutput := data.tmpoutput,
        outbuffer := outbuffer, writeoffset := none } with
  | none => none
  | some b =>
    match b.writeoffset with
    | none => none
    | some w =>
      some ({ data with
                channels := if data.channels.isSome then some b.channels else none
                tmpoutput := b.tmpoutput
                bufferindex :=
                  if data.bufferindex - 1 < 0 then data.numpartitions - 1
                  else data.bufferindex - 1
                writeoffset := w }, b.outbuffer)

/-- The function `ProcessCallback`: `SetupImpulse(data, outchannels, length, samplerate, false)`
followed by the block body. The result is the store, the engine state and the output block. -/
def ProcessCallback {α : Type} [LinearOrderedField α] [FloorRing α] (fuel : Nat)
    (prim : Primitives α) (st : SampleStore α) (data : EffectData α) (samplerate : Int)
    (inbuffer outbuffer : List α) (length inchannels outchannels : Int) :
    Option (SampleStore α × EffectData α × List α) :=
  match SetupImpulse fuel prim st data outchannels length samplerate with
  | none => none
  | some (st1, data1) =>
    match processBlock prim data1 inbuffer outbuffer inchannels outchannels with
    | none => none
    | some (data2, out) => some (st1, data2, out)

/-! ## The parameter and envelope callbacks -/

/-- The function `SetFloatParameterCallback` for the parameter indices the plugin has
(`P_NUM = 1`, so index `0` is `P_USESAMPLE`): an index `>= P_NUM` is refused (`none` stands
for `UNITY_AUDIODSP_ERR_UNSUPPORTED`), otherwise `data->p[index] = value`. -/
def SetFloatParameterCallback {α : Type} (data : EffectData α) (index : Int) (value : α) :
    Option (EffectData α) :=
  if index ≥ 1 then none else some { data with p := value }

/-- Modelled from the spec: `FastFloor` of the SDK header `AudioPluginUtil.h` (not part of the
source file), the floor of a float as an `int`. -/
def FastFloor {α : Type} [LinearOrderedField α] [FloorRing α] (x : α) : Int :=
  Int.floor x

/-- The loop of `GetFloatBufferCallback` over the output indices `ns`, resampling the stored
curve `src`: `next_time = n * scale`, `i = FastFloor(next_time)`, `next_val` the curve
interpolated at `next_time`, `buffer[n] = (next_val - prev_val) * time_scale`. The state is the
caller's buffer and `prev_val`. -/
def envelopeLoop {α : Type} [LinearOrderedField α] [FloorRing α] (src : List α)
    (scale time_scale : α) : List Nat → List α × α → List α × α
  | [], r => r
  | n :: rest, (buffer, prev_val) =>
    envelopeLoop src scale time_scale rest
      (buffer.set n
        ((readAt src (FastFloor ((n : α) * scale))
            + (readAt src (FastFloor ((n : α) * scale) + 1)
                - readAt src (FastFloor ((n : α) * scale)))
              * ((n : α) * scale - ((FastFloor ((n : α) * scale) : Int) : α))
          - prev_val) * time_scale),
       readAt src (FastFloor ((n : α) * scale))
         + (readAt src (FastFloor ((n : α) * scale) + 1)
             - readAt src (FastFloor ((n : α) * scale)))
           * ((n : α) * scale - ((FastFloor ((n : α) * scale) : Int) : α)))

/-- The channel selector of an envelope query: `name[7] - '0'` (the terminating zero byte
when the name has only seven characters). -/
def channelSelector (name : String) : Int :=
  ((name.data.getD 7 (Char.ofNat 0)).toNat : Int) - 48

/-- The function `GetFloatBufferCallback`: the store, the engine state and the caller's buffer
afterwards. Names that do not start with the seven characters `Impulse`
(`strncmp(name, "Impulse", 7) != 0`) do nothing. `none` when the embedded `SetupImpulse` does
not complete or when `data->channels[index]` lies outside the allocated array. -/
def GetFloatBufferCallback {α : Type} [LinearOrderedField α] [FloorRing α] (fuel : Nat)
    (prim : Primitives α) (st : SampleStore α) (data : EffectData α) (name : String)
    (buffer : List α) (numsamples : Int) : Option (SampleStore α × EffectData α × List α) :=
  if name.data.take 7 = "Impulse".data then
    match SetupImpulse fuel prim st data data.numchannels data.hopsize data.samplerate with
    | none => none
    | some (st1, data1) =>
      if channelSelector name ≥ data1.numchannels then some (st1, data1, buffer)
      else if channelSelector name < 0 then none
      else
        match (data1.channels.getD []).get? (channelSelector name).toNat with
        | none => none
        | some c =>
          some (st1, data1,
            (envelopeLoop c.impulse
              (((data1.hopsize * data1.numpartitions - 2 : Int) : α) / (numsamples : α))
              (1 / ((((data1.hopsize * data1.numpartitions - 2 : Int) : α))
                / (numsamples : α)))
              (List.range numsamples.toNat) (buffer, 0)).1)
  else some (st, data, buffer)

/-- The sequence of peak-hold values of the peak-detection loop of `irUpload_thread`, before
they are summed and de-trended: instant attack, release `peak * 0.99f + 1.0e-9f`. -/
def peakHold {α : Type} [LinearOrderedField α] : List α → α → List α
  | [], _ => []
  | v :: rest, peak =>
    (if |v| > peak then |v| else peak * (99 / 100) + 1 / 1000000000)
      :: peakHold rest (if |v| > peak then |v| else peak * (99 / 100) + 1 / 1000000000)

/-! ## Reference definitions taken from the specification -/

/-- The resampling rule in the words of the specification: with `p = n * sourceRate /
targetRate`, interpolate linearly between the two bounding source samples `i0 = min(⌊p⌋, last)`
and `i1 = min(⌊p⌋ + 1, last)` with weight `p - ⌊p⌋`, `last` being the final source frame. -/
def linearInterpolationSpec {α : Type} [LinearOrderedField α] [FloorRing α] (s : IRSample)
    (buf : List α) (samplerate : Int) (channel : Int) (n : Int) : α :=
  let p : α := (n : α) * ((s.samplerate : α) / (samplerate : α))
  let last : Int := s.numsamples - 1
  let i0 : Int := min (Int.floor p) last
  let i1 : Int := min (Int.floor p + 1) last
  readAt buf (i0 * s.numchannels + channel)
    + (readAt buf (i1 * s.numchannels + channel) - readAt buf (i0 * s.numchannels + channel))
      * (p - (Int.floor p : α))

/-- A real sequence as a complex frame with zero imaginary parts. -/
def realFrame {α : Type} [Zero α] (a : List α) : List (UnityComplexNumber α) :=
  a.map (fun v => { re := v, im := 0 })

/-- The frame of partition `k` in the words of the specification: `fftsize` entries, the
first `hopsize` of them the samples `k * hopsize ..` of the impulse, the rest zero. -/
def paddedBlock {α : Type} [Zero α] (impulse : List α) (hopsize : Int) (k : Nat)
    (fftsize : Nat) : List α :=
  (List.range fftsize).map (fun (n : Nat) =>
    if (n : Int) < hopsize then readAt impulse ((k : Int) * hopsize + (n : Int)) else 0)

/-- Pointwise sum of two real sequences of length `F`. -/
def addSeq {α : Type} [Ring α] (F : Nat) (a b : List α) : List α :=
  (List.range F).map (fun (n : Nat) => a.getD n 0 + b.getD n 0)

/-- Circular convolution of two real sequences of length `F`:
entry `n` is the sum over `m < F` of `a[m] * b[(n - m) mod F]`. -/
def circularConvolution {α : Type} [Ring α] (F : Nat) (a b : List α) : List α :=
  (List.range F).map (fun (n : Nat) =>
    ((List.range F).map (fun (m : Nat) => a.getD m 0 * b.getD ((n + F - m) % F) 0)).sum)

/-- Elementwise complex product of two frames of length `F`. -/
def mulFrame {α : Type} [Ring α] (F : Nat) (a b : List (UnityComplexNumber α)) :
    List (UnityComplexNumber α) :=
  (List.range F).map (fun (n : Nat) =>
    { re := (a.getD n ⟨0, 0⟩).re * (b.getD n ⟨0, 0⟩).re
        - (a.getD n ⟨0, 0⟩).im * (b.getD n ⟨0, 0⟩).im
      im := (a.getD n ⟨0, 0⟩).re * (b.getD n ⟨0, 0⟩).im
        + (a.getD n ⟨0, 0⟩).im * (b.getD n ⟨0, 0⟩).re })

/-- Elementwise complex sum of two frames of length `F`. -/
def addFrame {α : Type} [Ring α] (F : Nat) (a b : List (UnityComplexNumber α)) :
    List (UnityComplexNumber α) :=
  (List.range F).map (fun (n : Nat) =>
    { re := (a.getD n ⟨0, 0⟩).re + (b.getD n ⟨0, 0⟩).re
      im := (a.getD n ⟨0, 0⟩).im + (b.getD n ⟨0, 0⟩).im })

/-- An exact transform pair of size `F`, stated on the transforms of real sequences of length
`F` (the only frames the engine transforms): `Backward` undoes `Forward`, the elementwise
product of two transforms is the transform of the circular convolution, and the transform is
additive. -/
structure ExactTransform {α : Type} [Ring α] (prim : Primitives α) (F : Nat) : Prop where
  inverse : ∀ a : List α, a.length = F →
    prim.Backward (prim.Forward (realFrame a)) = realFrame a
  convolution : ∀ a b : List α, a.length = F → b.length = F →
    mulFrame F (prim.Forward (realFrame a)) (prim.Forward (realFrame b))
      = prim.Forward (realFrame (circularConvolution F a b))
  additive : ∀ a b : List α, a.length = F → b.length = F →
    prim.Forward (realFrame (addSeq F a b))
      = addFrame F (prim.Forward (realFrame a)) (prim.Forward (realFrame b))

/-- The time-domain sum the accumulate loop stands for: after `j` partitions, the sum of the
circular convolutions of `G k` with `X k` for `k < j`, added in loop order. -/
def sumConv {α : Type} [Ring α] (F : Nat) (G X : Nat → List α) : Nat → List α
  | 0 => List.replicate F 0
  | j + 1 => addSeq F (circularConvolution F (G j) (X j)) (sumConv F G X j)

/-- The `h` samples of channel `i` in an interleaved input block of `N` channels. -/
def chanBlock {α : Type} [Zero α] (blk : List α) (N i h : Nat) : List α :=
  (List.range h).map (fun (n : Nat) => readAt blk ((n : Int) * (N : Int) + (i : Int)))

/-- Channel `i` of input block number `j`; blocks before the first are silent. -/
def blockAt {α : Type} [Zero α] (blocks : List (List α)) (N i h : Nat) (j : Int) : List α :=
  if j < 0 then List.replicate h 0 else chanBlock (blocks.getD j.toNat []) N i h

/-- The overlap-save frame of block `j`: the block followed by the block before it. -/
def frameAt {α : Type} [Zero α] (blocks : List (List α)) (N i h : Nat) (j : Int) : List α :=
  blockAt blocks N i h j ++ blockAt blocks N i h (j - 1)

/-- The input signal of channel `i` at sample time `q`, counted from the start of block 0;
it is zero before that. -/
def inputAt {α : Type} [Zero α] (blocks : List (List α)) (N i h : Nat) (q : Int) : α :=
  if q < 0 then 0
  else readAt (blocks.getD (q / (h : Int)).toNat []) ((q % (h : Int)) * (N : Int) + (i : Int))

/-- The engine as `ResetData` and the channel loop of `irUpload_thread` leave it for a hop size
`h`, `P` partitions and the prepared impulses `g i`: counters at zero, ring buffers and input
partitions zero, impulse partition `k` of channel `i` the transform of the padded block `k` of
`g i`. -/
def Rebuilt {α : Type} [Ring α] (prim : Primitives α) (data : EffectData α)
    (h P : Nat) (g : Nat → List α) : Prop :=
  data.hopsize = (h : Int) ∧ data.fftsize = 2 * (h : Int) ∧ data.numpartitions = (P : Int) ∧
  data.bufferindex = 0 ∧ data.writeoffset = 0 ∧ data.channels.isSome = true ∧
  (data.channels.getD []).map (fun c => c.s)
    = (data.channels.getD []).map (fun _ => List.replicate (2 * h) 0) ∧
  (data.channels.getD []).map (fun c => c.x)
    = (data.channels.getD []).map
        (fun _ => List.replicate P (List.replicate (2 * h) ⟨0, 0⟩)) ∧
  (data.channels.getD []).map (fun c => c.h)
    = (List.range (data.channels.getD []).length).map (fun (i : Nat) =>
        (List.range P).map (fun (k : Nat) =>
          prim.Forward (realFrame (paddedBlock (g i) (h : Int) k (2 * h)))))

/-- The condition under which `SetupImpulse` returns at once: the selected slot is in the table,
it is the one last prepared, no update is pending and channel state exists. -/
def Steady {α : Type} [LinearOrderedField α] [FloorRing α] (st : SampleStore α)
    (data : EffectData α) : Prop :=
  ∃ s, GetIRSample st (truncInt data.p) = some s ∧
    truncInt data.lastparams = truncInt data.p ∧ s.updatecount = 0 ∧
    data.channels.isSome = true

/-- The state of channel `i` before block number `T` of the input `blocks` is processed, for
hop size `2 ^ e`, `P` partitions, partition index `b`, write offset `w` and impulse `g`:
the impulse partitions are the transforms of the padded blocks of `g`; the input partition
`(k + b) mod P` holds the transform of the frame of block `T - k` for `1 ≤ k < P`; the half of
the ring buffer away from `w` holds block `T - 1`. -/
def ChannelInv {α : Type} [Ring α] (prim : Primitives α) (e P : Nat) (g : List α)
    (blocks : List (List α)) (N i T b w : Nat) (c : Channel α) : Prop :=
  c.x.length = P ∧
  (∀ k, k < P → c.h.getD k []
    = prim.Forward (realFrame (paddedBlock g ((2 ^ e : Nat) : Int) k (2 * 2 ^ e)))) ∧
  (∀ k, 1 ≤ k → k < P → c.x.getD ((k + b) % P) []
    = prim.Forward (realFrame (frameAt blocks N i (2 ^ e) ((T : Int) - (k : Int))))) ∧
  ∃ o : List α, o.length = 2 ^ e ∧
    ((w = 0 ∧ c.s = o ++ blockAt blocks N i (2 ^ e) ((T : Int) - 1)) ∨
     (w = 2 ^ e ∧ c.s = blockAt blocks N i (2 ^ e) ((T : Int) - 1) ++ o))

/-- The state of the engine before block number `T` is processed: the sizes, a partition index
`b` with `b + T` a multiple of `P`, a write offset `w`, and the first `N` channels in the state
`ChannelInv`. -/
def EngineInv {α : Type} [Ring α] (prim : Primitives α) (e P : Nat) (g : Nat → List α)
    (blocks : List (List α)) (N T : Nat) (data : EffectData α) : Prop :=
  data.hopsize = ((2 ^ e : Nat) : Int) ∧ data.fftsize = ((2 ^ (e + 1) : Nat) : Int) ∧
  data.numpartitions = (P : Int) ∧ data.channels.isSome = true ∧
  N ≤ (data.channels.getD []).length ∧
  ∃ b w : Nat, data.bufferindex = (b : Int) ∧ b < P ∧ (b + T) % P = 0 ∧
    data.writeoffset = (w : Int) ∧
    ∀ i c, i < N → (data.channels.getD []).get? i = some c →
      ChannelInv prim e P (g i) blocks N i T b w c

/-- A run of `ProcessCallback` over consecutive input blocks, each call with an output block
of `length * M` zeros to fill; the result is the final store and engine state and the list of
the output blocks. -/
def runBlocks {α : Type} [LinearOrderedField α] [FloorRing α] (fuel : Nat)
    (prim : Primitives α) (samplerate length N M : Int) :
    List (List α) → SampleStore α × EffectData α →
      Option (SampleStore α × EffectData α × List (List α))
  | [], (st, data) => some (st, data, [])
  | blk :: rest, (st, data) =>
    match ProcessCallback fuel prim st data samplerate blk
        (List.replicate (length * M).toNat 0) length N M with
    | none => none
    | some (st1, data1, out) =>
      match runBlocks fuel prim samplerate length N M rest (st1, data1) with
      | none => none
      | some (st2, data2, outs) => some (st2, data2, out :: outs)

/-- The contents the specification gives the input partition `k` steps behind block `T`, for
channel `i` and hop size `h`: the forward transform of the frame formed at block `T - k`, and
zeros when `k > T`. -/
def partitionAt {α : Type} [Zero α] (prim : Primitives α) (blocks : List (List α))
    (N i h T k : Nat) : List (UnityComplexNumber α) :=
  if k ≤ T then prim.Forward (realFrame (frameAt blocks N i h ((T : Int) - (k : Int))))
  else List.replicate (2 * h) ⟨0, 0⟩

/-- The input side of channel `i` before block number `T` is processed, for hop size `2 ^ e`,
`P` partitions, partition index `b` and write offset `w`: the input partition `(k + b) mod P`
holds what `partitionAt` says for `1 ≤ k < P`, and the half of the ring buffer away from `w`
holds block `T - 1`. -/
def RingInv {α : Type} [Zero α] (prim : Primitives α) (e P : Nat) (blocks : List (List α))
    (N i T b w : Nat) (c : Channel α) : Prop :=
  c.x.length = P ∧
  (∀ k, 1 ≤ k → k < P → c.x.getD ((k + b) % P) [] = partitionAt prim blocks N i (2 ^ e) T k) ∧
  ∃ o : List α, o.length = 2 ^ e ∧
    ((w = 0 ∧ c.s = o ++ blockAt blocks N i (2 ^ e) ((T : Int) - 1)) ∨
     (w = 2 ^ e ∧ c.s = blockAt blocks N i (2 ^ e) ((T : Int) - 1) ++ o))

/-- The input side of the engine before block number `T` is processed: the sizes, a partition
index `b` with `b + T` a multiple of `P`, a write offset `w`, and the first `N` channels in the
state `RingInv`. -/
def EngineRingInv {α : Type} [Zero α] (prim : Primitives α) (e P : Nat)
    (blocks : List (List α)) (N T : Nat) (data : EffectData α) : Prop :=
  data.hopsize = ((2 ^ e : Nat) : Int) ∧ data.fftsize = ((2 ^ (e + 1) : Nat) : Int) ∧
  data.numpartitions = (P : Int) ∧ data.channels.isSome = true ∧
  N ≤ (data.channels.getD []).length ∧
  ∃ b w : Nat, data.bufferindex = (b : Int) ∧ b < P ∧ (b + T) % P = 0 ∧
    data.writeoffset = (w : Int) ∧
    ∀ i c, i < N → (data.channels.getD []).get? i = some c →
      RingInv prim e P blocks N i T b w c

/-- The sizes of an engine that has been given a hop size: channel state exists for each of
its channels, and when it was last rebuilt from a source without frames its partition count is
the one for the 256-sample placeholder. It holds of the zeroed record and every operation on
the engine keeps it. -/
def EngineSized {α : Type} (data : EffectData α) : Prop :=
  1 ≤ data.hopsize →
    data.channels.isSome = true ∧
    data.numchannels.toNat ≤ (data.channels.getD []).length ∧
    (data.numsamples_in = 0 →
      256 ≤ data.numpartitions * data.hopsize ∧
      (data.numpartitions - 1) * data.hopsize < 256)

/-! ## A concrete exact transform of size four over the rationals -/

/-- The natural number whose square is `n`, found by search (`0` when there is none). -/
def natRoot (n : Nat) : Nat :=
  ((List.range (n + 1)).find? (fun r => r * r == n)).getD 0

/-- A square root on the rationals, exact on the squares of rationals. -/
def sqrtRat (q : ℚ) : ℚ := (natRoot q.num.toNat : ℚ) / (natRoot q.den : ℚ)

/-- Complex sum. -/
def cadd (a b : UnityComplexNumber ℚ) : UnityComplexNumber ℚ :=
  { re := a.re + b.re, im := a.im + b.im }

/-- Complex difference. -/
def csub (a b : UnityComplexNumber ℚ) : UnityComplexNumber ℚ :=
  { re := a.re - b.re, im := a.im - b.im }

/-- Multiplication by the imaginary unit. -/
def cmulI (a : UnityComplexNumber ℚ) : UnityComplexNumber ℚ :=
  { re := -a.im, im := a.re }

/-- Multiplication by a rational. -/
def cscale (r : ℚ) (a : UnityComplexNumber ℚ) : UnityComplexNumber ℚ :=
  { re := r * a.re, im := r * a.im }

/-- The discrete Fourier transform of four points (kernel `exp(-2πi kn/4)`), unnormalised. -/
def dft4 : List (UnityComplexNumber ℚ) → List (UnityComplexNumber ℚ)
  | [a, b, c, d] =>
    [cadd (cadd a b) (cadd c d),
     cadd (csub a c) (cmulI (csub d b)),
     cadd (csub a b) (csub c d),
     cadd (csub a c) (cmulI (csub b d))]
  | l => l

/-- The inverse transform of four points, scaled by `1/4`. -/
def idft4 : List (UnityComplexNumber ℚ) → List (UnityComplexNumber ℚ)
  | [a, b, c, d] =>
    [cscale (1 / 4) (cadd (cadd a b) (cadd c d)),
     cscale (1 / 4) (cadd (csub a c) (cmulI (csub b d))),
     cscale (1 / 4) (cadd (csub a b) (csub c d)),
     cscale (1 / 4) (cadd (csub a c) (cmulI (csub d b)))]
  | l => l

/-- Concrete primitives for blocks of two samples (`fftsize = 4`). -/
def primRat : Primitives ℚ :=
  { sqrtf := sqrtRat, Forward := dft4, Backward := idft4 }

/-- Arrays of the heap only grow: no address disappears and no array gets shorter. -/
def HeapLe {α : Type} (h1 h2 : List (List α)) : Prop :=
  h1.length ≤ h2.length ∧ ∀ a, a < h1.length → (h1.getD a []).length ≤ (h2.getD a []).length

/-! ### Concrete states used as witnesses -/

/-- A store with one allocated slot: slot 3 holds two stereo frames. -/
def storeWithRoom : SampleStore ℤ :=
  (ConvolutionReverb_UploadSample (SampleStore.empty ℤ) 3 [5, 6, 7, 8] 2 2 48000 "room").2

/-- The record of slot 3 in `storeWithRoom`. -/
def roomSlot : IRSample :=
  { data := some 1, numsamples := 2, numchannels := 2, samplerate := 48000, updatecount := 1,
    allocated := 1, impulse_upload_only := false, name := "room" }

/-- A mono slot of three frames recorded at half the engine rate. -/
def halfRateSlot : IRSample :=
  { data := some 1, numsamples := 3, numchannels := 1, samplerate := 24000, updatecount := 1,
    allocated := 1, impulse_upload_only := false, name := "ir" }

/-- A store whose slot 0 holds the mono impulse `[3, 0, 4, 0]` at 48000 Hz. -/
def storeThreeFour : SampleStore ℚ :=
  (ConvolutionReverb_UploadSample (SampleStore.empty ℚ) 0 [3, 0, 4, 0] 4 1 48000 "ir").2

/-- An engine record with two partitions of two samples. -/
def engineTwoByTwo : EffectData ℚ :=
  { EffectData.zero (0 : ℚ) with numpartitions := 2, hopsize := 2 }

/-- A store whose slot 0 holds the mono unit impulse `[1, 0, 0, 0]` at 48000 Hz. -/
def storeUnit : SampleStore ℚ :=
  (ConvolutionReverb_UploadSample (SampleStore.empty ℚ) 0 [1, 0, 0, 0] 4 1 48000 "ir").2

/-- The first preparation: one channel, blocks of two samples, 48000 Hz, from the zeroed engine
record. -/
def firstRun : Option (SampleStore ℚ × EffectData ℚ) :=
  SetupImpulse 100 primRat storeUnit (EffectData.zero 0) 1 2 48000

/-- The store and engine after the first preparation. -/
def preparedUnit : SampleStore ℚ × EffectData ℚ :=
  firstRun.getD (storeUnit, EffectData.zero 0)

/-- A second preparation after re-uploading an impulse of the same shape, `[0, 0, 1, 0]`. -/
def secondRun : Option (SampleStore ℚ × EffectData ℚ) :=
  SetupImpulse 100 primRat
    (ConvolutionReverb_UploadSample preparedUnit.1 0 [0, 0, 1, 0] 4 1 48000 "ir").2
    preparedUnit.2 1 2 48000

/-- The prepared engine asked for two channels after a re-upload of the same shape. -/
def stereoRequestRun : Option (SampleStore ℚ × EffectData ℚ) :=
  SetupImpulse 100 primRat
    (ConvolutionReverb_UploadSample preparedUnit.1 0 [0, 0, 1, 0] 4 1 48000 "ir").2
    preparedUnit.2 2 2 48000

/-- The store of `preparedUnit` with a second impulse of the same shape in slot 1. -/
def storeTwoSlots : SampleStore ℚ :=
  (ConvolutionReverb_UploadSample preparedUnit.1 1 [0, 0, 1, 0] 4 1 48000 "ir2").2

/-- The prepared engine with slot 1 selected. -/
def engineSlotOne : EffectData ℚ :=
  (SetFloatParameterCallback preparedUnit.2 0 1).getD preparedUnit.2

/-- The first preparation check after selecting slot 1. -/
def slotOneFirst : Option (SampleStore ℚ × EffectData ℚ) :=
  SetupImpulse 100 primRat storeTwoSlots engineSlotOne 1 2 48000

/-- The preparation check repeated on the result of `slotOneFirst`. -/
def slotOneSecond : Option (SampleStore ℚ × EffectData ℚ) :=
  slotOneFirst.bind (fun r => SetupImpulse 100 primRat r.1 r.2 1 2 48000)

/-- A store whose slot 5 was uploaded twice without frames, under the name `hall`. -/
def storeNoFrames : SampleStore ℚ :=
  (ConvolutionReverb_UploadSample
    (ConvolutionReverb_UploadSample (SampleStore.empty ℚ) 5 [] 0 1 48000 "hall").2
    5 [] 0 1 48000 "hall").2

/-- A preparation with slot 5 of `storeNoFrames` selected: one channel, blocks of two. -/
def noFramesRun : Option (SampleStore ℚ × EffectData ℚ) :=
  SetupImpulse 300 primRat storeNoFrames (EffectData.zero 5) 1 2 48000

/-- The store with the mono impulse `[1, 1, 1, 1]` at 48000 Hz in slot 0. -/
def storeFlat : SampleStore ℚ :=
  (ConvolutionReverb_UploadSample (SampleStore.empty ℚ) 0 [1, 1, 1, 1] 4 1 48000 "flat").2

/-- The store and engine after preparing `storeFlat` for one channel and blocks of two
samples: two partitions, the normalised impulse `[1/2, 1/2, 1/2, 1/2]`. -/
def preparedFlat : SampleStore ℚ × EffectData ℚ :=
  (SetupImpulse 100 primRat storeFlat (EffectData.zero 0) 1 2 48000).getD
    (storeFlat, EffectData.zero 0)

section SlotTable

variable {α : Type}

theorem getD_set_self (heap : List (List α)) (a : Nat) (v : List α) (h : a < heap.length) :
    (heap.set a v).getD a [] = v := by
  simp [List.getD, List.getElem?_set, h]

theorem take_memcpy_cell (src cells : List α) (n : Nat) (h : src.length = n) :
    (src.take n ++ cells.drop n).take n = src := by
  subst h
  simp

theorem HeapLe.refl (h : List (List α)) : HeapLe h h := ⟨le_refl _, fun _ _ => le_refl _⟩

theorem HeapLe.trans {h1 h2 h3 : List (List α)} (a : HeapLe h1 h2) (b : HeapLe h2 h3) :
    HeapLe h1 h3 :=
  ⟨le_trans a.1 b.1, fun x hx => le_trans (a.2 x hx) (b.2 x (lt_of_lt_of_le hx a.1))⟩

theorem HeapLe_append (h : List (List α)) (v : List α) : HeapLe h (h ++ [v]) := by
  refine ⟨by simp, fun a ha => ?_⟩
  simp [List.getD, List.getElem?_append_left ha]

theorem HeapLe_memcpy (h : List (List α)) (dst : Option Nat) (src : List α) (n : Int)
    (hsrc : (src.length : Int) = n) : HeapLe h (memcpy h dst src n) := by
  cases dst with
  | none => exact HeapLe.refl h
  | some a =>
    refine ⟨by simp [memcpy], fun b hb => ?_⟩
    have hn : n.toNat = src.length := by omega
    by_cases hab : a = b
    · subst hab
      simp only [memcpy]
      rw [getD_set_self _ _ _ hb]
      simp [hn]
      omega
    · simp [memcpy, List.getD, List.getElem?_set, hab]

/-- An upload never shrinks the heap. -/
theorem uploadInto_HeapLe [Zero α] (heap : List (List α)) (s : IRSample) (data : List α)
    (numsamples numchannels samplerate : Int) (name : String)
    (hdata : (data.length : Int) = numsamples * numchannels) :
    HeapLe heap (uploadInto heap s data numsamples numchannels samplerate name).2 := by
  simp only [uploadInto]
  split
  · exact HeapLe_memcpy _ _ _ _ hdata
  · split
    · split
      · exact HeapLe.trans
          (HeapLe_append heap (List.replicate (numsamples * numchannels).toNat 0))
          (HeapLe_memcpy _ (some heap.length) _ _ hdata)
      · exact HeapLe_memcpy _ _ _ _ hdata
    · exact HeapLe.refl _

/-- What the upload body leaves in the slot record and in the array it points to. -/
theorem uploadInto_spec [Zero α] (heap : List (List α)) (s : IRSample) (data : List α)
    (numsamples numchannels samplerate : Int) (name : String)
    (hwf : 0 < s.numsamples * s.numchannels →
      ∃ a, s.data = some a ∧ a < heap.length ∧
        (s.numsamples * s.numchannels).toNat ≤ (heap.getD a []).length)
    (hdata : (data.length : Int) = numsamples * numchannels) :
    (uploadInto heap s data numsamples numchannels samplerate name).1.updatecount = 1 ∧
    (uploadInto heap s data numsamples numchannels samplerate name).1.numsamples = numsamples ∧
    (uploadInto heap s data numsamples numchannels samplerate name).1.numchannels
      = numchannels ∧
    (uploadInto heap s data numsamples numchannels samplerate name).1.samplerate = samplerate ∧
    (0 < numsamples * numchannels →
      ∃ a, (uploadInto heap s data numsamples numchannels samplerate name).1.data = some a ∧
        a < (uploadInto heap s data numsamples numchannels samplerate name).2.length ∧
        ((uploadInto heap s data numsamples numchannels samplerate name).2.getD a []).take
          (numsamples * numchannels).toNat = data) := by
  have hlen : data.length = (numsamples * numchannels).toNat := by omega
  obtain ⟨d, ns0, nc0, sr0, uc, al, iuo, nm⟩ := s
  simp only [uploadInto]
  split
  · rename_i hfast
    simp only [Bool.and_eq_true, decide_eq_true_eq] at hfast
    obtain ⟨⟨⟨hal, hns⟩, hnc⟩, hsr⟩ := hfast
    subst hns hnc hsr
    refine ⟨rfl, rfl, rfl, rfl, ?_⟩
    intro hpos
    obtain ⟨a, ha, halt, hsz⟩ := hwf hpos
    simp only at ha
    subst ha
    refine ⟨a, rfl, by simpa [memcpy] using halt, ?_⟩
    simp only [memcpy]
    rw [getD_set_self _ _ _ halt]
    exact take_memcpy_cell _ _ _ hlen
  · split
    · split
      · refine ⟨rfl, rfl, rfl, rfl, ?_⟩
        intro _
        refine ⟨heap.length, rfl, by simp [memcpy], ?_⟩
        simp only [memcpy]
        rw [getD_set_self _ _ _ (by simp)]
        exact take_memcpy_cell _ _ _ hlen
      · rename_i hrs
        simp only [ne_eq, decide_not, Bool.not_eq_true', decide_eq_false_iff_not, not_not] at hrs
        refine ⟨rfl, rfl, rfl, rfl, ?_⟩
        intro hpos2
        rw [← hrs] at hwf
        obtain ⟨a, ha, halt, hsz⟩ := hwf hpos2
        simp only at ha
        subst ha
        refine ⟨a, rfl, by simpa [memcpy] using halt, ?_⟩
        simp only [memcpy]
        rw [getD_set_self _ _ _ halt]
        exact take_memcpy_cell _ _ _ hlen
    · rename_i hpos
      refine ⟨rfl, rfl, rfl, rfl, ?_⟩
      intro h; exact absurd h hpos

theorem SlotWF_mono (st st2 : SampleStore α) (s : IRSample) (hle : HeapLe st.heap st2.heap)
    (h : SlotWF st s) : SlotWF st2 s := by
  intro hpos
  obtain ⟨a, ha, halt, hsz⟩ := h hpos
  exact ⟨a, ha, lt_of_lt_of_le halt hle.1, le_trans hsz (hle.2 a halt)⟩

/-- The size invariant holds for every slot of the empty store. -/
theorem SlotWF_empty [Zero α] (j : Fin 16) :
    SlotWF (SampleStore.empty α) ((SampleStore.empty α).samples j) := by
  intro hpos
  have h0 : (0 : Int) < 0 * 0 := hpos
  omega

/-- Every upload of a `numsamples * numchannels` long array keeps the size invariant of every
slot. -/
theorem UploadSample_keeps_SlotWF [Zero α] (st : SampleStore α) (index : Int) (data : List α)
    (numsamples numchannels samplerate : Int) (name : String)
    (hdata : (data.length : Int) = numsamples * numchannels)
    (hall : ∀ j, SlotWF st (st.samples j)) (j : Fin 16) :
    SlotWF (ConvolutionReverb_UploadSample st index data numsamples numchannels samplerate name).2
      ((ConvolutionReverb_UploadSample st index data numsamples numchannels samplerate
        name).2.samples j) := by
  unfold ConvolutionReverb_UploadSample
  split
  · exact hall j
  · rename_i hin
    have hi : index.toNat < 16 := by unfold MAXSAMPLE at hin; omega
    have hle := uploadInto_HeapLe st.heap (st.samples ⟨index.toNat, hi⟩) data numsamples
      numchannels samplerate name hdata
    by_cases hj : j = ⟨index.toNat, hi⟩
    · subst hj
      simp only [Function.update_same]
      obtain ⟨_, hns, hnc, _, hbuf⟩ := uploadInto_spec st.heap (st.samples ⟨index.toNat, hi⟩)
        data numsamples numchannels samplerate name (hall _) hdata
      intro hpos
      rw [hns, hnc] at hpos
      obtain ⟨a, ha, halt, htake⟩ := hbuf hpos
      have hl := congrArg List.length htake
      simp only [List.length_take] at hl
      have hd : data.length = (numsamples * numchannels).toNat := by omega
      have hl2 : (numsamples * numchannels).toNat ≤
          ((uploadInto st.heap (st.samples ⟨index.toNat, hi⟩) data numsamples numchannels
            samplerate name).2.getD a []).length := by omega
      refine ⟨a, ha, halt, ?_⟩
      rw [hns, hnc]
      exact hl2
    · simp only [Function.update_noteq hj]
      exact SlotWF_mono st _ _ hle (hall j)

/-- C4. An upload whose slot index is negative or at least `MAXSAMPLE` (16) returns `false`
and leaves the whole store (every slot and every sample array) as it was. -/
theorem UploadSample_out_of_range [Zero α] (st : SampleStore α) (index : Int) (data : List α)
    (numsamples numchannels samplerate : Int) (name : String)
    (h : index < 0 ∨ index ≥ MAXSAMPLE) :
    ConvolutionReverb_UploadSample st index data numsamples numchannels samplerate name
      = (false, st) := by
  unfold ConvolutionReverb_UploadSample
  rw [dif_pos h]

theorem UploadSample_out_of_range_witness :
    ((-1 : Int) < 0 ∨ (-1 : Int) ≥ MAXSAMPLE) ∧
    ConvolutionReverb_UploadSample (SampleStore.empty ℤ) (-1) [1, 2] 2 1 48000 "hall"
      = (false, SampleStore.empty ℤ) :=
  ⟨by decide, UploadSample_out_of_range (SampleStore.empty ℤ) (-1) [1, 2] 2 1 48000 "hall"
    (by decide)⟩

/-- C3. For a slot index in `[0, 16)`, a slot satisfying the size invariant and an array
`data` of `numsamples * numchannels` samples, the upload returns `true`; afterwards the slot has
`updatecount = 1` (update pending), its frame count, channel count and sample rate are the
arguments, and when `numsamples * numchannels > 0` the first `numsamples * numchannels` cells of
its array are exactly the uploaded samples. -/
theorem UploadSample_stores [Zero α] (st : SampleStore α) (index : Int) (data : List α)
    (numsamples numchannels samplerate : Int) (name : String)
    (hidx : 0 ≤ index ∧ index < MAXSAMPLE)
    (hwf : ∀ s, GetIRSample st index = some s → SlotWF st s)
    (hdata : (data.length : Int) = numsamples * numchannels) :
    (ConvolutionReverb_UploadSample st index data numsamples numchannels samplerate name).1 = true ∧
    ∃ s, GetIRSample
        (ConvolutionReverb_UploadSample st index data numsamples numchannels samplerate name).2
        index = some s ∧
      s.updatecount = 1 ∧ s.numsamples = numsamples ∧ s.numchannels = numchannels ∧
      s.samplerate = samplerate ∧
      (0 < numsamples * numchannels →
        (SampleStore.buffer
          (ConvolutionReverb_UploadSample st index data numsamples numchannels samplerate name).2
          s).take (numsamples * numchannels).toNat = data) := by
  have hidx16 : 0 ≤ index ∧ index < 16 := hidx
  have hnot : ¬ (index < 0 ∨ index ≥ MAXSAMPLE) := by unfold MAXSAMPLE; omega
  have hget : GetIRSample st index = some (st.samples ⟨index.toNat, by omega⟩) := by
    unfold GetIRSample; rw [dif_pos hidx16]
  have hwf0 := hwf _ hget
  obtain ⟨h1, h2, h3, h4, h5⟩ := uploadInto_spec st.heap (st.samples ⟨index.toNat, by omega⟩)
    data numsamples numchannels samplerate name hwf0 hdata
  unfold ConvolutionReverb_UploadSample
  rw [dif_neg hnot]
  refine ⟨rfl, ?_⟩
  simp only [GetIRSample, dif_pos hidx16, Function.update_same, Option.some.injEq,
    exists_eq_left', SampleStore.buffer]
  refine ⟨h1, h2, h3, h4, fun hpos => ?_⟩
  obtain ⟨a, ha, _, htake⟩ := h5 hpos
  rw [ha]
  exact htake

theorem UploadSample_stores_witness :
    (0 ≤ (3 : Int) ∧ (3 : Int) < MAXSAMPLE) ∧
    (ConvolutionReverb_UploadSample (SampleStore.empty ℤ) 3 [5, 6, 7, 8] 2 2 48000 "room").1
      = true ∧
    ∃ s, GetIRSample
        (ConvolutionReverb_UploadSample (SampleStore.empty ℤ) 3 [5, 6, 7, 8] 2 2 48000 "room").2
        3 = some s ∧
      s.updatecount = 1 ∧ s.numsamples = 2 ∧ s.numchannels = 2 ∧ s.samplerate = 48000 ∧
      ((0 : Int) < 2 * 2 →
        (SampleStore.buffer
          (ConvolutionReverb_UploadSample (SampleStore.empty ℤ) 3 [5, 6, 7, 8] 2 2 48000
            "room").2 s).take ((2 : Int) * 2).toNat = [5, 6, 7, 8]) :=
  ⟨by decide, UploadSample_stores (SampleStore.empty ℤ) 3 [5, 6, 7, 8] 2 2 48000 "room"
    (by decide)
    (fun s hs => by
      have : s = IRSample.zero := by
        have h2 : GetIRSample (SampleStore.empty ℤ) 3 = some IRSample.zero := by decide
        rw [h2] at hs
        exact (Option.some.inj hs).symm
      subst this
      intro hpos
      exact absurd hpos (by decide))
    (by decide)⟩

/-- C7. Re-uploading to an allocated slot with the frame count, channel count and sample
rate it already stores takes the fast track: the slot record afterwards is the old record with
only the name, `updatecount` and the scratch flag `impulse_upload_only` rewritten, so the `data`
pointer (the identity of the allocation), the frame count, the channel count, the sample rate
and the `allocated` flag are those of before; no array is allocated and no other slot
changes. -/
theorem UploadSample_same_shape [Zero α] (st : SampleStore α) (index : Int) (data : List α)
    (name : String) (s : IRSample)
    (hget : GetIRSample st index = some s) (halloc : s.allocated ≠ 0) :
    GetIRSample
      (ConvolutionReverb_UploadSample st index data s.numsamples s.numchannels s.samplerate
        name).2 index
      = some { s with name := strcpy_s name, updatecount := 1, impulse_upload_only := true } ∧
    (ConvolutionReverb_UploadSample st index data s.numsamples s.numchannels s.samplerate
        name).2.heap.length = st.heap.length ∧
    ∀ j : Int, j ≠ index →
      GetIRSample
        (ConvolutionReverb_UploadSample st index data s.numsamples s.numchannels s.samplerate
          name).2 j = GetIRSample st j := by
  unfold GetIRSample at hget
  split at hget
  · rename_i hidx
    have hnot : ¬ (index < 0 ∨ index ≥ MAXSAMPLE) := by unfold MAXSAMPLE; omega
    have hs := Option.some.inj hget
    have hup : uploadInto st.heap s data s.numsamples s.numchannels s.samplerate name
        = ({ s with name := strcpy_s name, updatecount := 1, impulse_upload_only := true },
            memcpy st.heap s.data data (s.numsamples * s.numchannels)) := by
      simp [uploadInto, halloc]
    unfold ConvolutionReverb_UploadSample
    rw [dif_neg hnot]
    simp only [hs, hup]
    refine ⟨?_, ?_, ?_⟩
    · simp only [GetIRSample, dif_pos hidx, Function.update_same]
    · cases hd : s.data <;> simp [memcpy]
    · intro j hj
      unfold GetIRSample
      split
      · rename_i hjr
        have hne : (⟨j.toNat, by omega⟩ : Fin 16) ≠ ⟨index.toNat, by omega⟩ := by
          intro h
          have := congrArg Fin.val h
          simp only at this
          omega
        simp only [Function.update_noteq hne]
      · rfl
  · exact absurd hget (by simp)


theorem UploadSample_same_shape_witness :
    GetIRSample storeWithRoom 3 = some roomSlot ∧ roomSlot.allocated ≠ 0 ∧
    (GetIRSample
      (ConvolutionReverb_UploadSample storeWithRoom 3 [9, 10, 11, 12] roomSlot.numsamples
        roomSlot.numchannels roomSlot.samplerate "hall").2 3
      = some { roomSlot with name := strcpy_s "hall", updatecount := 1,
                             impulse_upload_only := true } ∧
    (ConvolutionReverb_UploadSample storeWithRoom 3 [9, 10, 11, 12] roomSlot.numsamples
        roomSlot.numchannels roomSlot.samplerate "hall").2.heap.length
      = storeWithRoom.heap.length ∧
    ∀ j : Int, j ≠ 3 →
      GetIRSample
        (ConvolutionReverb_UploadSample storeWithRoom 3 [9, 10, 11, 12] roomSlot.numsamples
          roomSlot.numchannels roomSlot.samplerate "hall").2 j = GetIRSample storeWithRoom j) :=
  ⟨by decide, by decide,
    UploadSample_same_shape storeWithRoom 3 [9, 10, 11, 12] "hall" roomSlot (by decide)
      (by decide)⟩

/-- For a non-negative index the name query does what its callers expect: the sentinel for an
index of 16 or more and for an unallocated slot, the stored name otherwise. -/
theorem GetSampleName_nonneg (st : SampleStore α) (index : Int) (h0 : 0 ≤ index) :
    ConvolutionReverb_GetSampleName st index =
      if h : index < 16 then
        (if (st.samples ⟨index.toNat, by omega⟩).allocated = 0 then some "Not set"
         else some (st.samples ⟨index.toNat, by omega⟩).name)
      else some "Not set" := by
  unfold ConvolutionReverb_GetSampleName MAXSAMPLE
  by_cases h : index < 16
  · have hr : 0 ≤ index ∧ index < 16 := ⟨h0, h⟩
    rw [if_pos h, dif_pos h]
    simp only [GetIRSample, dif_pos hr]
  · rw [if_neg h, dif_neg h]

/-- C5 (defect in the code). In the empty store, uploading to slot 5 with zero frames and
the name `"hall"` succeeds, and the name query on slot 5 then returns the empty string, not
`"hall"`: the branch taken when `numsamples * numchannels` is not positive never copies the
name. -/
theorem GetSampleName_after_empty_upload :
    (ConvolutionReverb_UploadSample (SampleStore.empty ℤ) 5 [] 0 1 48000 "hall").1 = true ∧
    ConvolutionReverb_GetSampleName
      (ConvolutionReverb_UploadSample (SampleStore.empty ℤ) 5 [] 0 1 48000 "hall").2 5
      = some "" ∧
    ConvolutionReverb_GetSampleName
      (ConvolutionReverb_UploadSample (SampleStore.empty ℤ) 5 [] 0 1 48000 "hall").2 5
      ≠ some "hall" := by
  decide

/-- C6 (defect in the code). For the index `-1` the name query passes its only test
(`index < MAXSAMPLE`) and goes on to the table access `samples[-1]`, outside the 16-entry
table, instead of returning the sentinel. -/
theorem GetSampleName_negative_index :
    GetIRSample (SampleStore.empty ℤ) (-1) = none ∧
    ConvolutionReverb_GetSampleName (SampleStore.empty ℤ) (-1) = none ∧
    ConvolutionReverb_GetSampleName (SampleStore.empty ℤ) (-1) ≠ some "Not set" := by
  decide

end SlotTable

/-! ## Theorems: `ResetData` -/

section Reset

/-- The partition-count loop started at `np` finishes as soon as the fuel exceeds the
distance `reallength - np * hopsize`, at the first count whose product reaches the length. -/
theorem numpartitionsLoop_run (h L : Int) (hh : 1 ≤ h) :
    ∀ (fuel : Nat) (np : Int), (L - np * h).toNat < fuel → (np = 0 ∨ (np - 1) * h < L) →
      ∃ r, numpartitionsLoop h L fuel np = some r ∧ L ≤ r * h ∧ (r = 0 ∨ (r - 1) * h < L)
        ∧ np ≤ r := by
  intro fuel
  induction fuel with
  | zero => intro np hf; omega
  | succ fuel ih =>
    intro np hf hinv
    unfold numpartitionsLoop
    by_cases hc : np * h < L
    · rw [if_pos hc]
      have hlt : (L - (np + 1) * h).toNat < fuel := by
        have e : (np + 1) * h = np * h + h := by ring
        rw [e]
        omega
      obtain ⟨r, hr, h1, h2, h3⟩ := ih (np + 1) hlt (Or.inr (by simpa using hc))
      exact ⟨r, hr, h1, h2, by omega⟩
    · rw [if_neg hc]
      exact ⟨np, rfl, by omega, hinv, le_refl _⟩

/-- C8. For a target length `L ≥ 1` and a hop size `h ≥ 1` the partition-count loop of
`ResetData` terminates (every fuel above `L` is enough) with one and the same count `np`, and
`np * h ≥ L`, `(np - 1) * h < L`, `np ≥ 1`, that is `np = ⌈L / h⌉`. -/
theorem numpartitions_is_ceil (L h : Int) (hL : 1 ≤ L) (hh : 1 ≤ h) :
    ∃ np : Int, (∀ fuel : Nat, L.toNat < fuel → numpartitionsLoop h L fuel 0 = some np) ∧
      L ≤ np * h ∧ (np - 1) * h < L ∧ 1 ≤ np ∧ np = Int.ceil ((L : ℚ) / (h : ℚ)) := by
  obtain ⟨r, hr, h1, h2, _⟩ := numpartitionsLoop_run h L hh (L.toNat + 1) 0 (by simp) (Or.inl rfl)
  have hr1 : 1 ≤ r := by
    by_contra hc
    have : r * h ≤ 0 := by nlinarith
    omega
  have h2' : (r - 1) * h < L := by
    rcases h2 with h2 | h2
    · omega
    · exact h2
  refine ⟨r, ?_, h1, h2', hr1, ?_⟩
  · intro fuel hf
    obtain ⟨r', hr', h1', h2'', _⟩ := numpartitionsLoop_run h L hh fuel 0 (by simpa using hf) (Or.inl rfl)
    rw [hr']
    congr 1
    -- uniqueness of the ceiling
    have h2s : (r' - 1) * h < L := by
      rcases h2'' with h2'' | h2''
      · subst h2''; omega
      · exact h2''
    by_contra hne
    rcases lt_or_gt_of_ne hne with hlt | hgt
    · have : r' * h ≤ (r - 1) * h := by nlinarith
      omega
    · have : r * h ≤ (r' - 1) * h := by nlinarith
      omega
  · symm
    rw [Int.ceil_eq_iff]
    have hq : (0 : ℚ) < (h : ℚ) := by exact_mod_cast (by omega : (0 : Int) < h)
    constructor
    · rw [lt_div_iff₀ hq]
      exact_mod_cast h2'
    · rw [div_le_iff₀ hq]
      exact_mod_cast h1

theorem numpartitions_is_ceil_witness :
    (1 : Int) ≤ 5 ∧ (1 : Int) ≤ 2 ∧
    ∃ np : Int, (∀ fuel : Nat, (5 : Int).toNat < fuel → numpartitionsLoop 2 5 fuel 0 = some np) ∧
      5 ≤ np * 2 ∧ (np - 1) * 2 < 5 ∧ 1 ≤ np ∧ np = Int.ceil (((5 : Int) : ℚ) / ((2 : Int) : ℚ)) :=
  ⟨by decide, by decide, numpartitions_is_ceil 5 2 (by decide) (by decide)⟩

end Reset

/-! ## Theorems: impulse preparation -/

section Preparation

/-- C9 (defect in the code). A mono source `[0, 1, 0]` at 24000 Hz resampled to 48000 Hz:
destination sample 1 sits at source position `1/2`. The loop takes the ceiling of the
position as its first index, so it reads the samples at 1 and 2 with the weight `-1/2` and
stores `3/2`, which is neither the interpolated value `1/2` of the specification nor a value
between the bounding samples `0` and `1`. -/
theorem resampleAt_half_position :
    resampleAt (α := ℚ) halfRateSlot [0, 1, 0] 48000 (sourceChannel halfRateSlot 0) 1 = 3 / 2 ∧
    linearInterpolationSpec (α := ℚ) halfRateSlot [0, 1, 0] 48000
      (sourceChannel halfRateSlot 0) 1 = 1 / 2 ∧
    resampledImpulse (α := ℚ) halfRateSlot [0, 1, 0] 48000 0 6 = [0, 3 / 2, 1, 0, 0, 0] := by
  decide!

/-- At an integer source position (equal rates, for instance) the resampling loop stores what
the specification asks for: the source sample at that position, clamped to the last frame. -/
theorem resampleAt_integer_position {α : Type} [LinearOrderedField α] [FloorRing α] (s : IRSample)
    (buf : List α) (samplerate channel n m : Int)
    (hpos : (n : α) * ((s.samplerate : α) / (samplerate : α)) = (m : α)) :
    resampleAt s buf samplerate channel n = linearInterpolationSpec s buf samplerate channel n ∧
    resampleAt s buf samplerate channel n
      = readAt buf (min m (s.numsamples - 1) * s.numchannels + channel) := by
  have hspec : linearInterpolationSpec s buf samplerate channel n
      = readAt buf (min m (s.numsamples - 1) * s.numchannels + channel) := by
    simp only [linearInterpolationSpec, hpos, Int.floor_intCast, sub_self, mul_zero, add_zero]
  have hcode : resampleAt s buf samplerate channel n
      = readAt buf (min m (s.numsamples - 1) * s.numchannels + channel) := by
    simp only [resampleAt, hpos, ipos1, Int.ceil_intCast]
    by_cases hge : m ≥ s.numsamples
    · have hmin : min m (s.numsamples - 1) = s.numsamples - 1 := by
        apply min_eq_right; omega
      have h2 : ipos2 s (s.numsamples - 1) = s.numsamples - 1 := by
        unfold ipos2; rw [if_pos (by omega)]
      rw [if_pos hge, h2, hmin, sub_self, zero_mul, add_zero]
    · have hmin : min m (s.numsamples - 1) = m := by
        apply min_eq_left; omega
      rw [if_neg hge, hmin, sub_self, mul_zero, add_zero]
  exact ⟨hcode.trans hspec.symm, hcode⟩

theorem foldl_power_scale {α : Type} [CommRing α] (c : α) (l : List α) (a : α) :
    List.foldl (fun acc v => acc + v * v) (c * c * a) (l.map (fun v => v * c))
      = c * c * List.foldl (fun acc v => acc + v * v) a l := by
  induction l generalizing a with
  | nil => rfl
  | cons v rest ih =>
    simp only [List.map_cons, List.foldl_cons]
    have e : c * c * a + v * c * (v * c) = c * c * (a + v * v) := by ring
    rw [e, ih]

theorem power_map_scale {α : Type} [CommRing α] (c : α) (l : List α) :
    power (l.map (fun v => v * c)) = c * c * power l := by
  have h := foldl_power_scale c l 0
  simpa [power] using h

theorem power_normalizeGain {α : Type} [Field α] (prim : Primitives α) (impulse : List α)
    (hne : power impulse ≠ 0)
    (hsqrt : prim.sqrtf (power impulse) * prim.sqrtf (power impulse) = power impulse) :
    power (normalizeGain prim impulse) = 1 := by
  unfold normalizeGain
  rw [power_map_scale]
  have hs : prim.sqrtf (power impulse) ≠ 0 := by
    intro h0
    rw [h0, mul_zero] at hsqrt
    exact hne hsqrt.symm
  field_simp
  exact hsqrt.symm

theorem power_nonneg {α : Type} [LinearOrderedField α] (l : List α) : 0 ≤ power l := by
  have h : ∀ (l : List α) (a : α), 0 ≤ a → 0 ≤ List.foldl (fun acc v => acc + v * v) a l := by
    intro l
    induction l with
    | nil => intro a ha; exact ha
    | cons v rest ih =>
      intro a ha
      exact ih _ (add_nonneg ha (mul_self_nonneg v))
  exact h l 0 (le_refl 0)

/-- C10. When the resampled impulse of a channel has non-zero energy and `sqrtf` is exact
at that energy (its square is the energy, as for the real square root), the impulse that is
partitioned and transformed, i.e. the array after the normalisation loop, has sum of squares
equal to `1`. -/
theorem preparedImpulse_unit_energy {α : Type} [LinearOrderedField α] [FloorRing α]
    (prim : Primitives α) (st : SampleStore α) (u : Fin 16) (data : EffectData α)
    (samplerate : Int) (i : Nat)
    (hne : power (resampledImpulse (st.samples u) (st.buffer (st.samples u)) samplerate
      (i : Int) (data.numpartitions * data.hopsize)) ≠ 0)
    (hsqrt : prim.sqrtf (power (resampledImpulse (st.samples u) (st.buffer (st.samples u))
        samplerate (i : Int) (data.numpartitions * data.hopsize)))
      * prim.sqrtf (power (resampledImpulse (st.samples u) (st.buffer (st.samples u))
        samplerate (i : Int) (data.numpartitions * data.hopsize)))
      = power (resampledImpulse (st.samples u) (st.buffer (st.samples u)) samplerate
        (i : Int) (data.numpartitions * data.hopsize))) :
    power (preparedImpulse prim st u data samplerate i) = 1 := by
  unfold preparedImpulse
  exact power_normalizeGain prim _ hne hsqrt

/-- The same over the real numbers with the real square root: non-zero energy is the only
condition. -/
theorem unit_energy_with_real_sqrt (prim : Primitives ℝ) (hprim : prim.sqrtf = Real.sqrt)
    (st : SampleStore ℝ) (u : Fin 16) (data : EffectData ℝ) (samplerate : Int) (i : Nat)
    (hne : power (resampledImpulse (st.samples u) (st.buffer (st.samples u)) samplerate
      (i : Int) (data.numpartitions * data.hopsize)) ≠ 0) :
    power (preparedImpulse prim st u data samplerate i) = 1 := by
  unfold preparedImpulse
  refine power_normalizeGain prim _ hne ?_
  rw [hprim]
  exact Real.mul_self_sqrt (power_nonneg _)


theorem preparedImpulse_unit_energy_witness :
    power (resampledImpulse (storeThreeFour.samples 0)
      (storeThreeFour.buffer (storeThreeFour.samples 0)) 48000 ((0 : Nat) : Int)
      (engineTwoByTwo.numpartitions * engineTwoByTwo.hopsize)) ≠ 0 ∧
    power (preparedImpulse primRat storeThreeFour 0 engineTwoByTwo 48000 0) = 1 :=
  ⟨by decide!,
    preparedImpulse_unit_energy primRat storeThreeFour 0 engineTwoByTwo 48000 0 (by decide!)
      (by decide!)⟩

end Preparation

/-! ## Theorems: block processing -/

section Processing

variable {α : Type}

theorem land_mask (e w : Nat) :
    Int.land ((w : Int) + 1) (((2 ^ (e + 1) : Nat) : Int) - 1)
      = (((w + 1) % 2 ^ (e + 1) : Nat) : Int) := by
  have h1 : ((w : Int) + 1) = ((w + 1 : Nat) : Int) := by push_cast; rfl
  have hpos : 1 ≤ 2 ^ (e + 1) := Nat.one_le_two_pow
  have h2 : (((2 ^ (e + 1) : Nat) : Int) - 1) = ((2 ^ (e + 1) - 1 : Nat) : Int) := by
    omega
  rw [h1, h2]
  show ((((w + 1) &&& (2 ^ (e + 1) - 1) : Nat)) : Int) = _
  rw [Nat.and_pow_two_sub_one_eq_mod]

theorem land_mask_add (e w k : Nat) :
    Int.land ((w : Int) + (k : Int)) (((2 ^ (e + 1) : Nat) : Int) - 1)
      = (((w + k) % 2 ^ (e + 1) : Nat) : Int) := by
  have h1 : ((w : Int) + (k : Int)) = ((w + k : Nat) : Int) := by push_cast; rfl
  have hpos : 1 ≤ 2 ^ (e + 1) := Nat.one_le_two_pow
  have h2 : (((2 ^ (e + 1) : Nat) : Int) - 1) = ((2 ^ (e + 1) - 1 : Nat) : Int) := by
    omega
  rw [h1, h2]
  show ((((w + k) &&& (2 ^ (e + 1) - 1) : Nat)) : Int) = _
  rw [Nat.and_pow_two_sub_one_eq_mod]

/-- Feeding `k` samples into a stretch of the ring buffer that does not wrap rewrites exactly
that stretch. -/
theorem feedInput_stretch [Zero α] (e : Nat) (inbuffer : List α) (inchannels : Int) (i : Nat) :
    ∀ (k a : Nat) (pre mid post : List α), mid.length = k →
      pre.length + k ≤ 2 ^ (e + 1) → pre.length < 2 ^ (e + 1) →
      feedInput inbuffer inchannels i (((2 ^ (e + 1) : Nat) : Int) - 1) (List.range' a k)
          (pre ++ mid ++ post, (pre.length : Int))
        = (pre ++ (List.range' a k).map
              (fun (n : Nat) => readAt inbuffer ((n : Int) * inchannels + (i : Int))) ++ post,
            (((pre.length + k) % 2 ^ (e + 1) : Nat) : Int)) := by
  intro k
  induction k with
  | zero =>
    intro a pre mid post hmid _ hlt
    have : mid = [] := List.length_eq_zero.mp hmid
    subst this
    simp [feedInput, Nat.mod_eq_of_lt hlt]
  | succ k ih =>
    intro a pre mid post hmid hle hlt
    obtain ⟨v, mid', rfl⟩ := List.exists_cons_of_length_eq_add_one hmid
    have hmid' : mid'.length = k := by simpa using hmid
    simp only [List.range'_succ, feedInput, List.map_cons]
    rw [land_mask]
    have hset : (pre ++ v :: mid' ++ post).set (pre.length : Int).toNat
        (readAt inbuffer ((a : Int) * inchannels + (i : Int)))
        = (pre ++ [readAt inbuffer ((a : Int) * inchannels + (i : Int))]) ++ mid' ++ post := by
      simp [List.set_append]
    rw [hset]
    by_cases hk : k = 0
    · subst hk
      have : mid' = [] := List.length_eq_zero.mp hmid'
      subst this
      simp [feedInput]
    · have hlt' : pre.length + 1 < 2 ^ (e + 1) := by omega
      rw [Nat.mod_eq_of_lt hlt']
      have hl : (pre ++ [readAt inbuffer ((a : Int) * inchannels + (i : Int))]).length
          = pre.length + 1 := by simp
      have key := ih (a + 1) (pre ++ [readAt inbuffer ((a : Int) * inchannels + (i : Int))])
        mid' post hmid' (by rw [hl]; omega) (by rw [hl]; exact hlt')
      rw [hl] at key
      push_cast at key ⊢
      rw [key]
      have e2 : ((pre.length : Int) + 1 + (k : Int)) = ((pre.length : Int) + ((k : Int) + 1)) := by
        ring
      simp [e2]


theorem readFrame_spec [Zero α] (e : Nat) (s : List α) :
    ∀ (count w : Nat), w < 2 ^ (e + 1) →
      readFrame s (((2 ^ (e + 1) : Nat) : Int) - 1) count (w : Int)
        = ((List.range count).map (fun (j : Nat) =>
              ({ re := readAt s ((((w + j) % 2 ^ (e + 1) : Nat)) : Int), im := 0 } :
                UnityComplexNumber α)),
            (((w + count) % 2 ^ (e + 1) : Nat) : Int)) := by
  intro count
  induction count with
  | zero =>
    intro w hw
    simp [readFrame, Nat.mod_eq_of_lt hw]
  | succ count ih =>
    intro w hw
    have hw' : (w + 1) % 2 ^ (e + 1) < 2 ^ (e + 1) := Nat.mod_lt _ (Nat.two_pow_pos _)
    simp only [readFrame]
    rw [land_mask, ih _ hw']
    rw [List.range_succ_eq_map]
    simp only [List.map_cons, List.map_map, Nat.add_zero, Nat.mod_eq_of_lt hw]
    refine Prod.ext ?_ ?_
    · simp only
      congr 1
      apply List.map_congr_left
      intro j _
      simp only [Function.comp]
      rw [Nat.mod_add_mod]
      have e1 : w + 1 + j = w + j.succ := by omega
      rw [e1]
    · simp only
      rw [Nat.mod_add_mod]
      have e1 : w + 1 + count = w + (count + 1) := by omega
      rw [e1]

theorem map_getD_range (l : List α) (d : α) :
    (List.range l.length).map (fun (j : Nat) => l.getD j d) = l := by
  apply List.ext_getElem
  · simp
  · intro n h1 h2
    simp [List.getD, List.getElem?_eq_getElem h2]


theorem readAt_natCast [Zero α] (l : List α) (n : Nat) : readAt l (n : Int) = l.getD n 0 := by
  simp [readAt]

theorem frame_from_zero [Zero α] (F : Nat) (s : List α) (hs : s.length = F) :
    (List.range F).map (fun (j : Nat) =>
        ({ re := readAt s ((((0 + j) % F : Nat)) : Int), im := 0 } : UnityComplexNumber α))
      = realFrame s := by
  apply List.ext_getElem
  · simp [realFrame, hs]
  · intro n h1 h2
    have hn : n < F := by simpa using h1
    have hn' : n < s.length := by omega
    simp only [List.getElem_map, List.getElem_range, realFrame, Nat.zero_add,
      Nat.mod_eq_of_lt hn, readAt_natCast]
    simp [List.getD, List.getElem?_eq_getElem hn']

theorem frame_from_half [Zero α] (h : Nat) (A B : List α) (hA : A.length = h)
    (hB : B.length = h) :
    (List.range (2 * h)).map (fun (j : Nat) =>
        ({ re := readAt (A ++ B) ((((h + j) % (2 * h) : Nat)) : Int), im := 0 } :
          UnityComplexNumber α))
      = realFrame (B ++ A) := by
  apply List.ext_getElem
  · simp [realFrame, hA, hB]; omega
  · intro n h1 h2
    have hn : n < 2 * h := by simpa using h1
    simp only [List.getElem_map, List.getElem_range, realFrame, readAt_natCast]
    congr 1
    by_cases hlt : n < h
    · have e1 : (h + n) % (2 * h) = h + n := Nat.mod_eq_of_lt (by omega)
      rw [e1]
      rw [List.getElem_append_left (by omega)]
      simp [List.getD, List.getElem?_append_right, hA, List.getElem?_eq_getElem (show n < B.length by omega)]
    · have e1 : (h + n) % (2 * h) = n - h := by
        have : h + n = (n - h) + 2 * h := by omega
        rw [this, Nat.add_mod_right]
        exact Nat.mod_eq_of_lt (by omega)
      rw [e1]
      rw [List.getElem_append_right (by omega)]
      have hlt2 : n - h < A.length := by omega
      simp [List.getD, List.getElem?_append_left, hlt2, hB, List.getElem?_eq_getElem hlt2]


theorem getD_map_range {β : Type} (F : Nat) (f : Nat → β) (d : β) (n : Nat) (hn : n < F) :
    ((List.range F).map f).getD n d = f n := by
  simp [List.getD, List.getElem?_eq_getElem, hn]

theorem sumConv_length [Ring α] (F : Nat) (G X : Nat → List α) (j : Nat) :
    (sumConv F G X j).length = F := by
  cases j <;> simp [sumConv, addSeq]

theorem circularConvolution_length [Ring α] (F : Nat) (a b : List α) :
    (circularConvolution F a b).length = F := by
  simp [circularConvolution]

theorem mulAddFrame_eq [Ring α] (F : Nat) (h x y : List (UnityComplexNumber α)) :
    mulAddFrame (F : Int) h x y = addFrame F (mulFrame F h x) y := by
  simp only [mulAddFrame, addFrame, Int.toNat_ofNat]
  apply List.map_congr_left
  intro n hn
  have hn' : n < F := List.mem_range.mp hn
  simp only [mulFrame, getD_map_range F _ _ n hn', UnityComplexNumber.MulAdd]

theorem addSeq_zero [Ring α] (F : Nat) :
    addSeq F (List.replicate F (0 : α)) (List.replicate F 0) = List.replicate F 0 := by
  apply List.ext_getElem
  · simp [addSeq]
  · intro n h1 h2
    have hn : n < F := by simpa [addSeq] using h1
    simp [addSeq, List.getD, List.getElem?_replicate, hn]

theorem forward_zero [Ring α] (prim : Primitives α) (F : Nat) (hx : ExactTransform prim F) :
    prim.Forward (realFrame (List.replicate F (0 : α))) = List.replicate F ⟨0, 0⟩ := by
  have h := hx.additive (List.replicate F 0) (List.replicate F 0) (by simp) (by simp)
  rw [addSeq_zero] at h
  generalize prim.Forward (realFrame (List.replicate F (0 : α))) = Z at h
  have hlen : Z.length = F := by rw [h]; simp [addFrame]
  apply List.ext_getElem
  · simp [hlen]
  · intro n h1 h2
    have hn : n < F := by omega
    have hz := congrArg (fun l => l.getD n ⟨0, 0⟩) h
    simp only [addFrame, getD_map_range F _ _ n hn] at hz
    have hget : Z.getD n ⟨0, 0⟩ = Z[n] := by
      simp [List.getD, List.getElem?_eq_getElem h1]
    rw [hget] at hz
    have hre : Z[n].re = 0 := by
      have := congrArg UnityComplexNumber.re hz
      simp only at this
      have h0 : Z[n].re + Z[n].re = Z[n].re + 0 := by rw [add_zero]; exact this.symm
      exact add_left_cancel h0
    have him : Z[n].im = 0 := by
      have := congrArg UnityComplexNumber.im hz
      simp only at this
      have h0 : Z[n].im + Z[n].im = Z[n].im + 0 := by rw [add_zero]; exact this.symm
      exact add_left_cancel h0
    rw [List.getElem_replicate]
    cases hzn : Z[n] with
    | mk re im =>
      rw [hzn] at hre him
      simp only at hre him
      rw [hre, him]

theorem accumulate_eq_foldl [Ring α] (data : EffectData α) (c : Channel α) (ks : List Nat)
    (y : List (UnityComplexNumber α)) :
    accumulate data c ks y = ks.foldl (fun y k =>
      mulAddFrame data.fftsize (c.h.getD k [])
        (c.x.getD (Int.tmod ((k : Int) + data.bufferindex) data.numpartitions).toNat []) y) y := by
  induction ks generalizing y with
  | nil => rfl
  | cons k rest ih => simp only [accumulate, List.foldl_cons, ih]

theorem accumulate_spec [Ring α] (prim : Primitives α) (F P b : Nat)
    (hx : ExactTransform prim F) (data : EffectData α) (c : Channel α)
    (hF : data.fftsize = (F : Int)) (hP : data.numpartitions = (P : Int))
    (hb : data.bufferindex = (b : Int))
    (G X : Nat → List α)
    (hG : ∀ k, k < P → (G k).length = F ∧ c.h.getD k [] = prim.Forward (realFrame (G k)))
    (hX : ∀ k, k < P → (X k).length = F ∧
      c.x.getD ((k + b) % P) [] = prim.Forward (realFrame (X k))) :
    accumulate data c (List.range P) (List.replicate data.fftsize.toNat ⟨0, 0⟩)
      = prim.Forward (realFrame (sumConv F G X P)) := by
  rw [accumulate_eq_foldl, hF, hP, hb, Int.toNat_ofNat]
  have key : ∀ j, j ≤ P →
      (List.range j).foldl (fun y k =>
        mulAddFrame (F : Int) (c.h.getD k [])
          (c.x.getD (Int.tmod ((k : Int) + (b : Int)) (P : Int)).toNat []) y)
        (List.replicate F ⟨0, 0⟩) = prim.Forward (realFrame (sumConv F G X j)) := by
    intro j
    induction j with
    | zero => intro _; simp [sumConv, forward_zero prim F hx]
    | succ j ih =>
      intro hj
      rw [List.range_succ, List.foldl_append, ih (by omega)]
      simp only [List.foldl_cons, List.foldl_nil]
      have ht : (Int.tmod ((j : Int) + (b : Int)) (P : Int)).toNat = (j + b) % P := by
        have h1 : Int.tmod ((j : Int) + (b : Int)) (P : Int) = (((j + b) % P : Nat) : Int) := by
          rw [Int.tmod_eq_emod (by omega) (by omega)]
          push_cast
          rfl
        rw [h1]
        exact Int.toNat_ofNat _
      rw [ht, (hG j (by omega)).2, (hX j (by omega)).2, mulAddFrame_eq,
        hx.convolution _ _ (hG j (by omega)).1 (hX j (by omega)).1,
        ← hx.additive _ _ (circularConvolution_length _ _ _) (sumConv_length _ _ _ _)]
      rfl
  exact key P (le_refl P)


theorem chanBlock_length [Zero α] (blk : List α) (N i h : Nat) :
    (chanBlock blk N i h).length = h := by
  simp [chanBlock]

theorem getD_set_other {β : Type} (l : List β) (a b : Nat) (v d : β) (h : a ≠ b) :
    (l.set a v).getD b d = l.getD b d := by
  simp [List.getD, List.getElem?_set, h]

theorem getD_set_same {β : Type} (l : List β) (a : Nat) (v d : β) (h : a < l.length) :
    (l.set a v).getD a d = v := by
  simp [List.getD, List.getElem?_set, h]

theorem processChannel_spec [Ring α] (prim : Primitives α) (e P b w N i : Nat)
    (hx : ExactTransform prim (2 ^ (e + 1))) (data : EffectData α) (c : Channel α)
    (inbuffer : List α)
    (hhop : data.hopsize = ((2 ^ e : Nat) : Int))
    (hF : data.fftsize = ((2 ^ (e + 1) : Nat) : Int))
    (hP : data.numpartitions = (P : Int))
    (hb : data.bufferindex = (b : Int)) (hbP : b < P)
    (hw : data.writeoffset = (w : Int))
    (hxlen : c.x.length = P)
    (G X : Nat → List α)
    (hG : ∀ k, k < P →
      (G k).length = 2 ^ (e + 1) ∧ c.h.getD k [] = prim.Forward (realFrame (G k)))
    (hX : ∀ k, 1 ≤ k → k < P →
      (X k).length = 2 ^ (e + 1) ∧ c.x.getD ((k + b) % P) [] = prim.Forward (realFrame (X k)))
    (o prev : List α) (ho : o.length = 2 ^ e) (hprev : prev.length = 2 ^ e)
    (hring : (w = 0 ∧ c.s = o ++ prev) ∨ (w = 2 ^ e ∧ c.s = prev ++ o)) :
    (processChannel prim data inbuffer (N : Int) i c).channel.s
        = (if w = 0 then chanBlock inbuffer N i (2 ^ e) ++ prev
           else prev ++ chanBlock inbuffer N i (2 ^ e)) ∧
    (processChannel prim data inbuffer (N : Int) i c).channel.x
        = c.x.set b (prim.Forward (realFrame (chanBlock inbuffer N i (2 ^ e) ++ prev))) ∧
    (processChannel prim data inbuffer (N : Int) i c).channel.h = c.h ∧
    (processChannel prim data inbuffer (N : Int) i c).y
        = realFrame (sumConv (2 ^ (e + 1)) G
            (fun k => if k = 0 then chanBlock inbuffer N i (2 ^ e) ++ prev else X k) P) ∧
    (processChannel prim data inbuffer (N : Int) i c).writeoffset
        = (((w + 2 ^ e) % 2 ^ (e + 1) : Nat) : Int) := by
  have h2 : 2 ^ (e + 1) = 2 * 2 ^ e := by rw [pow_succ]; ring
  have hpos : 0 < 2 ^ e := Nat.two_pow_pos e
  have hcur : (chanBlock inbuffer N i (2 ^ e)).length = 2 ^ e := chanBlock_length _ _ _ _
  -- the ring buffer after feeding and the frame read from it
  have hfed : feedInput inbuffer (N : Int) i (data.fftsize - 1)
      (List.range data.hopsize.toNat) (c.s, data.writeoffset)
      = ((if w = 0 then chanBlock inbuffer N i (2 ^ e) ++ prev
          else prev ++ chanBlock inbuffer N i (2 ^ e)),
         (((w + 2 ^ e) % 2 ^ (e + 1) : Nat) : Int)) := by
    rw [hF, hhop, hw, Int.toNat_ofNat, List.range_eq_range']
    rcases hring with ⟨hw0, hs⟩ | ⟨hwh, hs⟩
    · subst hw0
      rw [hs]
      have key := feedInput_stretch e inbuffer (N : Int) i (2 ^ e) 0 [] o prev ho
        (by simp; omega) (by simp)
      simp only [List.nil_append, List.length_nil, Nat.zero_add] at key
      refine Eq.trans key ?_
      simp [chanBlock, List.range_eq_range']
    · subst hwh
      rw [hs]
      have key := feedInput_stretch e inbuffer (N : Int) i (2 ^ e) 0 prev o [] ho
        (by rw [hprev]; omega) (by rw [hprev]; omega)
      simp only [List.append_nil, hprev] at key
      refine Eq.trans key ?_
      simp [chanBlock, List.range_eq_range', Nat.ne_of_gt hpos]
  have hwlt : w < 2 ^ (e + 1) := by
    rcases hring with ⟨hw0, _⟩ | ⟨hwh, _⟩ <;> omega
  have hframe : readFrame (if w = 0 then chanBlock inbuffer N i (2 ^ e) ++ prev
          else prev ++ chanBlock inbuffer N i (2 ^ e)) (data.fftsize - 1)
        data.fftsize.toNat data.writeoffset
      = (realFrame (chanBlock inbuffer N i (2 ^ e) ++ prev), (w : Int)) := by
    rw [hF, hw, Int.toNat_ofNat, readFrame_spec e _ _ _ hwlt]
    refine Prod.ext ?_ ?_
    · simp only
      rcases hring with ⟨hw0, _⟩ | ⟨hwh, _⟩
      · subst hw0
        simp only [if_true]
        exact frame_from_zero _ _ (by simp [hcur, hprev]; omega)
      · subst hwh
        simp only [Nat.ne_of_gt hpos, if_false]
        rw [h2]
        exact frame_from_half (2 ^ e) prev _ hprev hcur
    · simp only
      rw [Nat.add_mod_right, Nat.mod_eq_of_lt hwlt]
  refine ⟨?_, ?_, ?_, ?_, ?_⟩
  · simp only [processChannel, hfed]
  · simp only [processChannel, hfed, hframe, hb, Int.toNat_ofNat]
  · simp only [processChannel]
  · simp only [processChannel, hfed, hframe, hb, Int.toNat_ofNat]
    have hPn : data.numpartitions.toNat = P := by rw [hP]; exact Int.toNat_ofNat _
    rw [hPn]
    rw [accumulate_spec prim (2 ^ (e + 1)) P b hx data _ hF hP hb G
      (fun k => if k = 0 then chanBlock inbuffer N i (2 ^ e) ++ prev else X k)]
    · exact hx.inverse _ (sumConv_length _ _ _ _)
    · intro k hk
      exact hG k hk
    · intro k hk
      by_cases hk0 : k = 0
      · subst hk0
        simp only [if_true, Nat.zero_add, Nat.mod_eq_of_lt hbP]
        refine ⟨by simp [hcur, hprev]; omega, ?_⟩
        exact getD_set_same _ _ _ _ (by rw [hxlen]; exact hbP)
      · simp only [hk0, if_false]
        refine ⟨(hX k (by omega) hk).1, ?_⟩
        rw [getD_set_other _ _ _ _ _ ?_]
        · exact (hX k (by omega) hk).2
        · intro heq
          have hmod : (k + b) % P = b := heq.symm
          have hle : k + b < P ∨ k + b ≥ P := by omega
          rcases hle with hlt | hge
          · rw [Nat.mod_eq_of_lt hlt] at hmod
            omega
          · have : (k + b) % P = k + b - P := by
              rw [Nat.mod_eq_sub_mod hge]
              exact Nat.mod_eq_of_lt (by omega)
            omega
  · simp only [processChannel, hfed, hframe]
    rw [hF, hhop]
    exact land_mask_add e w (2 ^ e)

theorem list_sum_map_range [Ring α] (n : Nat) (f : Nat → α) :
    ((List.range n).map f).sum = ∑ m in Finset.range n, f m := by
  induction n with
  | zero => simp
  | succ n ih =>
    rw [List.range_succ, List.map_append, List.sum_append, ih, Finset.sum_range_succ]
    simp

theorem sumConv_getD [Ring α] (F : Nat) (G X : Nat → List α) (j n : Nat) (hn : n < F) :
    (sumConv F G X j).getD n 0
      = ∑ k in Finset.range j, (circularConvolution F (G k) (X k)).getD n 0 := by
  induction j with
  | zero => simp [sumConv, List.getD, List.getElem?_replicate, hn]
  | succ j ih =>
    rw [Finset.sum_range_succ, ← ih]
    simp only [sumConv, addSeq, getD_map_range F _ _ n hn]
    rw [add_comm]

theorem circularConvolution_getD [Ring α] (F : Nat) (a b : List α) (n : Nat) (hn : n < F) :
    (circularConvolution F a b).getD n 0
      = ∑ m in Finset.range F, a.getD m 0 * b.getD ((n + F - m) % F) 0 := by
  simp only [circularConvolution, getD_map_range F _ _ n hn, list_sum_map_range]

theorem blockAt_length [Zero α] (blocks : List (List α)) (N i h : Nat) (j : Int) :
    (blockAt blocks N i h j).length = h := by
  unfold blockAt
  split <;> simp [chanBlock]

theorem blockAt_getD [Zero α] (blocks : List (List α)) (N i h : Nat) (j : Int) (r : Nat)
    (hr : r < h) :
    (blockAt blocks N i h j).getD r 0 = inputAt blocks N i h (j * (h : Int) + (r : Int)) := by
  unfold blockAt inputAt
  by_cases hj : j < 0
  · have hq : j * (h : Int) + (r : Int) < 0 := by nlinarith
    rw [if_pos hj, if_pos hq]
    simp [List.getD, List.getElem?_replicate, hr]
  · have hj0 : 0 ≤ j := by omega
    have hq : ¬ (j * (h : Int) + (r : Int) < 0) := by
      have : 0 ≤ j * (h : Int) := mul_nonneg hj0 (by omega)
      omega
    rw [if_neg hj, if_neg hq]
    have hh : (0 : Int) < (h : Int) := by omega
    have hdiv : (j * (h : Int) + (r : Int)) / (h : Int) = j := by
      rw [add_comm, Int.add_mul_ediv_right _ _ (by omega)]
      rw [Int.ediv_eq_zero_of_lt (by omega) (by omega)]
      simp
    have hmod : (j * (h : Int) + (r : Int)) % (h : Int) = (r : Int) := by
      rw [add_comm, Int.add_mul_emod_self]
      exact Int.emod_eq_of_lt (by omega) (by omega)
    rw [hdiv, hmod]
    simp only [chanBlock, getD_map_range h _ _ r hr]

theorem paddedBlock_getD [Zero α] (g : List α) (h k F m : Nat) (hm : m < F) :
    (paddedBlock g (h : Int) k F).getD m 0 = if m < h then g.getD (k * h + m) 0 else 0 := by
  simp only [paddedBlock, getD_map_range F _ _ m hm]
  by_cases hlt : m < h
  · have : ((m : Int) < (h : Int)) := by omega
    rw [if_pos this, if_pos hlt]
    have e : ((k : Int) * (h : Int) + (m : Int)) = ((k * h + m : Nat) : Int) := by push_cast; rfl
    rw [e, readAt_natCast]
  · have : ¬ ((m : Int) < (h : Int)) := by omega
    rw [if_neg this, if_neg hlt]

theorem frameAt_getD [Zero α] (blocks : List (List α)) (N i h : Nat) (j : Int) (n m : Nat)
    (hn : n < h) (hm : m < h) :
    (frameAt blocks N i h j).getD ((n + 2 * h - m) % (2 * h)) 0
      = inputAt blocks N i h (j * (h : Int) + (n : Int) - (m : Int)) := by
  unfold frameAt
  have hl := blockAt_length blocks N i h j
  have hl' := blockAt_length blocks N i h (j - 1)
  by_cases hmn : m ≤ n
  · have e1 : (n + 2 * h - m) % (2 * h) = n - m := by
      have : n + 2 * h - m = (n - m) + 2 * h := by omega
      rw [this, Nat.add_mod_right]
      exact Nat.mod_eq_of_lt (by omega)
    rw [e1]
    have hlt : n - m < (blockAt blocks N i h j).length := by omega
    have : (blockAt blocks N i h j ++ blockAt blocks N i h (j - 1)).getD (n - m) 0
        = (blockAt blocks N i h j).getD (n - m) 0 := by
      simp [List.getD, List.getElem?_append_left hlt]
    rw [this, blockAt_getD _ _ _ _ _ _ (by omega)]
    congr 1
    omega
  · have e1 : (n + 2 * h - m) % (2 * h) = n + 2 * h - m := Nat.mod_eq_of_lt (by omega)
    rw [e1]
    have hge : (blockAt blocks N i h j).length ≤ n + 2 * h - m := by omega
    have : (blockAt blocks N i h j ++ blockAt blocks N i h (j - 1)).getD (n + 2 * h - m) 0
        = (blockAt blocks N i h (j - 1)).getD (n + h - m) 0 := by
      have e2 : n + 2 * h - m - (blockAt blocks N i h j).length = n + h - m := by
        rw [hl]; omega
      simp only [List.getD, List.get?_eq_getElem?, List.getElem?_append_right hge, e2]
    rw [this, blockAt_getD _ _ _ _ _ _ (by omega)]
    congr 1
    have : ((n + h - m : Nat) : Int) = (n : Int) + (h : Int) - (m : Int) := by omega
    rw [this]
    ring

theorem sum_range_mul [Ring α] (P h : Nat) (f : Nat → α) :
    ∑ k in Finset.range P, ∑ m in Finset.range h, f (k * h + m)
      = ∑ m in Finset.range (P * h), f m := by
  induction P with
  | zero => simp
  | succ P ih =>
    rw [Finset.sum_range_succ, ih, Nat.succ_mul, Finset.sum_range_add]

/-- The partitioned overlap-save sum is the linear convolution of the impulse with the input. -/
theorem sumConv_linear [Ring α] (g : List α) (blocks : List (List α)) (N i h P T n : Nat)
    (hh : 0 < h) (hn : n < h) :
    (sumConv (2 * h) (fun k => paddedBlock g (h : Int) k (2 * h))
        (fun k => frameAt blocks N i h ((T : Int) - (k : Int))) P).getD n 0
      = ∑ m in Finset.range (P * h),
          g.getD m 0 * inputAt blocks N i h ((T : Int) * (h : Int) + (n : Int) - (m : Int)) := by
  rw [sumConv_getD _ _ _ _ _ (by omega)]
  rw [← sum_range_mul P h
    (fun m => g.getD m 0 * inputAt blocks N i h ((T : Int) * (h : Int) + (n : Int) - (m : Int)))]
  apply Finset.sum_congr rfl
  intro k _
  rw [circularConvolution_getD _ _ _ _ (by omega)]
  have hsub : Finset.range h ⊆ Finset.range (2 * h) :=
    Finset.range_subset.mpr (by omega)
  rw [← Finset.sum_subset hsub]
  · apply Finset.sum_congr rfl
    intro m hm
    have hm' : m < h := Finset.mem_range.mp hm
    rw [paddedBlock_getD _ _ _ _ _ (by omega), if_pos hm', frameAt_getD _ _ _ _ _ _ _ hn hm']
    congr 2
    push_cast
    ring
  · intro m hm1 hm2
    have hm' : ¬ m < h := fun hlt => hm2 (Finset.mem_range.mpr hlt)
    have hm'' : m < 2 * h := Finset.mem_range.mp hm1
    rw [paddedBlock_getD _ _ _ _ _ hm'', if_neg hm', zero_mul]

theorem readout_eq_foldl [Zero α] (y : List (UnityComplexNumber α)) (outchannels : Int)
    (i : Nat) (ns : List Nat) (out : List α) :
    readout y outchannels i ns out = ns.foldl (fun out (n : Nat) =>
      out.set ((n : Int) * outchannels + (i : Int)).toNat (y.getD n ⟨0, 0⟩).re) out := by
  induction ns generalizing out with
  | nil => rfl
  | cons n rest ih => simp only [readout, List.foldl_cons, ih]

theorem interleave_inj (M n i n0 i0 : Nat) (hi : i < M) (hi0 : i0 < M)
    (h : n * M + i = n0 * M + i0) : n = n0 ∧ i = i0 := by
  have hn : n = n0 := by
    by_contra hne
    rcases Nat.lt_or_gt_of_ne hne with hlt | hgt
    · have : (n + 1) * M ≤ n0 * M := Nat.mul_le_mul_right M hlt
      rw [Nat.succ_mul] at this
      omega
    · have : (n0 + 1) * M ≤ n * M := Nat.mul_le_mul_right M hgt
      rw [Nat.succ_mul] at this
      omega
  subst hn
  exact ⟨rfl, by omega⟩

theorem readout_length [Zero α] (y : List (UnityComplexNumber α)) (M i h : Nat) (out : List α) :
    (readout y (M : Int) i (List.range h) out).length = out.length := by
  rw [readout_eq_foldl]
  induction h with
  | zero => rfl
  | succ h ih =>
    rw [List.range_succ, List.foldl_append]
    simp only [List.foldl_cons, List.foldl_nil, List.length_set]
    exact ih

theorem readout_miss [Zero α] (y : List (UnityComplexNumber α)) (M i h : Nat) (out : List α)
    (q : Nat) (hq : ∀ n, n < h → q ≠ n * M + i) :
    (readout y (M : Int) i (List.range h) out).getD q 0 = out.getD q 0 := by
  rw [readout_eq_foldl]
  induction h with
  | zero => rfl
  | succ h ih =>
    rw [List.range_succ, List.foldl_append]
    simp only [List.foldl_cons, List.foldl_nil]
    have e : ((h : Int) * (M : Int) + (i : Int)).toNat = h * M + i := by
      have : ((h : Int) * (M : Int) + (i : Int)) = ((h * M + i : Nat) : Int) := by
        push_cast; rfl
      rw [this]; exact Int.toNat_ofNat _
    rw [e, getD_set_other _ _ _ _ _ (Ne.symm (hq h (by omega)))]
    exact ih (fun n hn => hq n (by omega))

theorem readout_hit [Zero α] (y : List (UnityComplexNumber α)) (M i h : Nat) (out : List α)
    (hi : i < M) (n0 : Nat) (hn0 : n0 < h) (hlen : n0 * M + i < out.length) :
    (readout y (M : Int) i (List.range h) out).getD (n0 * M + i) 0 = (y.getD n0 ⟨0, 0⟩).re := by
  have key : ∀ h, n0 < h →
      ((List.range h).foldl (fun out (n : Nat) =>
        out.set ((n : Int) * (M : Int) + (i : Int)).toNat (y.getD n ⟨0, 0⟩).re) out).getD
          (n0 * M + i) 0 = (y.getD n0 ⟨0, 0⟩).re := by
    intro h
    induction h with
    | zero => intro hc; omega
    | succ h ih =>
      intro hlt
      rw [List.range_succ, List.foldl_append]
      simp only [List.foldl_cons, List.foldl_nil]
      have e : ((h : Int) * (M : Int) + (i : Int)).toNat = h * M + i := by
        have : ((h : Int) * (M : Int) + (i : Int)) = ((h * M + i : Nat) : Int) := by
          push_cast; rfl
        rw [this]; exact Int.toNat_ofNat _
      rw [e]
      by_cases hEq : n0 = h
      · subst hEq
        apply getD_set_same
        rw [← readout_eq_foldl, readout_length]
        exact hlen
      · rw [getD_set_other]
        · exact ih (by omega)
        · intro hc
          exact hEq (interleave_inj M h i n0 i hi hi hc).1.symm
  rw [readout_eq_foldl]
  exact key h hn0


theorem cast_mul_add_toNat (n M i : Nat) :
    ((n : Int) * (M : Int) + (i : Int)).toNat = n * M + i := by
  have : ((n : Int) * (M : Int) + (i : Int)) = ((n * M + i : Nat) : Int) := by
    push_cast; rfl
  rw [this]; exact Int.toNat_ofNat _

theorem processChannels_run [Ring α] (prim : Primitives α) (data : EffectData α)
    (inb : List α) (N M h : Nat) (hh : data.hopsize = (h : Int)) :
    ∀ (k a : Nat) (b : BlockState α), a + k ≤ b.channels.length → a + k ≤ M →
      b.outbuffer.length = h * M →
      ∃ b', processChannels prim data inb (N : Int) (M : Int) (List.range' a k) b = some b' ∧
        b'.channels.length = b.channels.length ∧
        b'.outbuffer.length = b.outbuffer.length ∧
        (∀ i c, a ≤ i → i < a + k → b.channels.get? i = some c →
          b'.channels.get? i = some (processChannel prim data inb (N : Int) i c).channel ∧
          ∀ n, n < h → b'.outbuffer.getD (n * M + i) 0
            = ((processChannel prim data inb (N : Int) i c).y.getD n ⟨0, 0⟩).re) ∧
        (1 ≤ k → ∃ j c, a ≤ j ∧ j < a + k ∧ b.channels.get? j = some c ∧
          b'.writeoffset = some (processChannel prim data inb (N : Int) j c).writeoffset) ∧
        (∀ i, i < a ∨ a + k ≤ i → b'.channels.get? i = b.channels.get? i) ∧
        (∀ q, (∀ i n, a ≤ i → i < a + k → n < h → q ≠ n * M + i) →
          b'.outbuffer.getD q 0 = b.outbuffer.getD q 0) := by
  have hhn : data.hopsize.toNat = h := by rw [hh]; exact Int.toNat_ofNat _
  intro k
  induction k with
  | zero =>
    intro a b _ _ _
    refine ⟨b, rfl, rfl, rfl, ?_, ?_, ?_, ?_⟩
    · intro i c h1 h2; omega
    · intro h1; omega
    · intro i _; rfl
    · intro q _; rfl
  | succ k ih =>
    intro a b hlen hM hout
    have ha : a < b.channels.length := by omega
    obtain ⟨c0, hc0⟩ : ∃ c0, b.channels.get? a = some c0 :=
      ⟨b.channels[a], by simp [List.getElem?_eq_getElem ha]⟩
    have hout1 : (readout (processChannel prim data inb (N : Int) a c0).y (M : Int) a
        (List.range h) b.outbuffer).length = h * M := by
      rw [readout_length]; exact hout
    obtain ⟨b', hrun, hl1, hl2, hin, hwo, hout', hmiss⟩ :=
      ih (a + 1)
        { channels := b.channels.set a (processChannel prim data inb (N : Int) a c0).channel
          tmpoutput := (processChannel prim data inb (N : Int) a c0).y
          outbuffer := readout (processChannel prim data inb (N : Int) a c0).y (M : Int) a
            (List.range h) b.outbuffer
          writeoffset := some (processChannel prim data inb (N : Int) a c0).writeoffset }
        (by simp only [List.length_set]; omega) (by omega) hout1
    simp only [List.length_set] at hl1
    rw [readout_length] at hl2
    refine ⟨b', ?_, hl1, hl2, ?_, ?_, ?_, ?_⟩
    · simp only [List.range'_succ, processChannels, hc0, hhn]
      exact hrun
    · intro i c h1 h2 hc
      by_cases hia : i = a
      · subst hia
        have hcc : c = c0 := by rw [hc0] at hc; exact (Option.some.inj hc).symm
        subst hcc
        refine ⟨?_, ?_⟩
        · rw [hout' i (Or.inl (by omega))]
          simp [List.getElem?_set, ha]
        · intro n hn
          rw [hmiss (n * M + i)]
          · simp only
            apply readout_hit _ _ _ _ _ (by omega) n hn
            have : (n + 1) * M ≤ h * M := Nat.mul_le_mul_right M hn
            rw [Nat.succ_mul] at this
            omega
          · intro i' n' h1' h2' _ hc'
            have := (interleave_inj M n i n' i' (by omega) (by omega) hc').2
            omega
      · have hc1 : (b.channels.set a (processChannel prim data inb (N : Int) a c0).channel).get? i
            = some c := by
          rw [← hc]
          simp [List.getElem?_set, Ne.symm hia]
        exact hin i c (by omega) (by omega) hc1
    · intro _
      by_cases hk : 1 ≤ k
      · obtain ⟨j, c, hj1, hj2, hjc, hjw⟩ := hwo hk
        refine ⟨j, c, by omega, by omega, ?_, hjw⟩
        rw [← hjc]
        have : a ≠ j := by omega
        simp [List.getElem?_set, this]
      · have hk0 : k = 0 := by omega
        subst hk0
        simp only [List.range'_zero, processChannels, Option.some.injEq] at hrun
        refine ⟨a, c0, le_refl _, by omega, hc0, ?_⟩
        rw [← hrun]
    · intro i hi
      rw [hout' i (by omega)]
      have : a ≠ i := by omega
      simp [List.getElem?_set, this]
    · intro q hq
      rw [hmiss q (fun i n h1 h2 hn => hq i n (by omega) (by omega) hn)]
      simp only
      exact readout_miss _ _ _ _ _ _ (fun n hn => hq a n (le_refl _) (by omega) hn)

theorem realFrame_getD_re [Zero α] (l : List α) (n : Nat) :
    ((realFrame l).getD n ⟨0, 0⟩).re = l.getD n 0 := by
  simp only [realFrame, List.getD, List.get?_eq_getElem?, List.getElem?_map]
  cases l[n]? <;> rfl

theorem blockAt_current [Zero α] (blocks : List (List α)) (N i h T : Nat) :
    blockAt blocks N i h (T : Int) = chanBlock (blocks.getD T []) N i h := by
  unfold blockAt
  rw [if_neg (by omega), Int.toNat_ofNat]

theorem frameAt_length [Zero α] (blocks : List (List α)) (N i h : Nat) (j : Int) :
    (frameAt blocks N i h j).length = 2 * h := by
  simp [frameAt, blockAt_length]; omega

theorem paddedBlock_length [Zero α] (g : List α) (h : Int) (k F : Nat) :
    (paddedBlock g h k F).length = F := by
  simp [paddedBlock]

theorem channel_step [Ring α] (prim : Primitives α) (e P N i T b w : Nat) (g : List α)
    (blocks : List (List α)) (hx : ExactTransform prim (2 ^ (e + 1)))
    (data : EffectData α) (c : Channel α)
    (hhop : data.hopsize = ((2 ^ e : Nat) : Int))
    (hF : data.fftsize = ((2 ^ (e + 1) : Nat) : Int))
    (hP : data.numpartitions = (P : Int))
    (hb : data.bufferindex = (b : Int)) (hbP : b < P)
    (hw : data.writeoffset = (w : Int))
    (hinv : ChannelInv prim e P g blocks N i T b w c) :
    ChannelInv prim e P g blocks N i (T + 1) ((b + P - 1) % P) ((w + 2 ^ e) % 2 ^ (e + 1))
      (processChannel prim data (blocks.getD T []) (N : Int) i c).channel ∧
    (processChannel prim data (blocks.getD T []) (N : Int) i c).writeoffset
      = (((w + 2 ^ e) % 2 ^ (e + 1) : Nat) : Int) ∧
    ∀ n, n < 2 ^ e →
      ((processChannel prim data (blocks.getD T []) (N : Int) i c).y.getD n ⟨0, 0⟩).re
        = ∑ m in Finset.range (P * 2 ^ e), g.getD m 0 *
            inputAt blocks N i (2 ^ e)
              ((T : Int) * ((2 ^ e : Nat) : Int) + (n : Int) - (m : Int)) := by
  have h2 : 2 ^ (e + 1) = 2 * 2 ^ e := by rw [pow_succ]; ring
  have hpos : 0 < 2 ^ e := Nat.two_pow_pos e
  obtain ⟨hxlen, hG, hX, o, ho, hring⟩ := hinv
  have hprev := blockAt_length blocks N i (2 ^ e) ((T : Int) - 1)
  have hcur := blockAt_current blocks N i (2 ^ e) T
  obtain ⟨hs, hxs, hhs, hy, hwo⟩ := processChannel_spec prim e P b w N i hx data c
    (blocks.getD T []) hhop hF hP hb hbP hw hxlen
    (fun k => paddedBlock g ((2 ^ e : Nat) : Int) k (2 * 2 ^ e))
    (fun k => frameAt blocks N i (2 ^ e) ((T : Int) - (k : Int)))
    (fun k hk => ⟨by rw [paddedBlock_length, h2], hG k hk⟩)
    (fun k hk1 hk => ⟨by rw [frameAt_length, h2], hX k hk1 hk⟩)
    o (blockAt blocks N i (2 ^ e) ((T : Int) - 1)) ho hprev hring
  have hfun : (fun (k : Nat) => if k = 0 then chanBlock (blocks.getD T []) N i (2 ^ e)
        ++ blockAt blocks N i (2 ^ e) ((T : Int) - 1)
      else frameAt blocks N i (2 ^ e) ((T : Int) - (k : Int)))
      = (fun (k : Nat) => frameAt blocks N i (2 ^ e) ((T : Int) - (k : Int))) := by
    funext k
    by_cases hk : k = 0
    · subst hk
      simp only [if_true, frameAt, Nat.cast_zero, sub_zero, hcur]
    · simp only [hk, if_false]
  rw [hfun] at hy
  refine ⟨⟨?_, ?_, ?_, ?_⟩, hwo, ?_⟩
  · rw [hxs, List.length_set]; exact hxlen
  · intro k hk
    rw [hhs]; exact hG k hk
  · intro k hk1 hk
    rw [hxs]
    have hidx : (k + (b + P - 1) % P) % P = (k - 1 + b) % P := by
      rw [Nat.add_mod_mod]
      have : k + (b + P - 1) = (k - 1 + b) + P := by omega
      rw [this, Nat.add_mod_right]
    rw [hidx]
    by_cases hk1' : k = 1
    · subst hk1'
      simp only [Nat.sub_self, Nat.zero_add, Nat.mod_eq_of_lt hbP]
      rw [getD_set_same _ _ _ _ (by rw [hxlen]; exact hbP)]
      have : ((T + 1 : Nat) : Int) - ((1 : Nat) : Int) = (T : Int) := by push_cast; ring
      rw [this]
      simp only [frameAt, hcur]
    · have hne : b ≠ (k - 1 + b) % P := by
        intro heq
        have hle : k - 1 + b < P ∨ k - 1 + b ≥ P := by omega
        rcases hle with hlt | hge
        · rw [Nat.mod_eq_of_lt hlt] at heq
          omega
        · have : (k - 1 + b) % P = k - 1 + b - P := by
            rw [Nat.mod_eq_sub_mod hge]
            exact Nat.mod_eq_of_lt (by omega)
          omega
      rw [getD_set_other _ _ _ _ _ hne]
      have := hX (k - 1) (by omega) (by omega)
      rw [this]
      have e1 : ((T : Int) - ((k - 1 : Nat) : Int)) = (((T + 1 : Nat) : Int) - (k : Int)) := by
        omega
      rw [e1]
  · have e1 : (((T + 1 : Nat) : Int) - 1) = (T : Int) := by push_cast; ring
    rw [e1, hcur, hs]
    rcases hring with ⟨hw0, _⟩ | ⟨hwh, _⟩
    · subst hw0
      refine ⟨blockAt blocks N i (2 ^ e) ((T : Int) - 1), hprev, Or.inr ⟨?_, ?_⟩⟩
      · rw [Nat.zero_add]; exact Nat.mod_eq_of_lt (by omega)
      · simp
    · subst hwh
      refine ⟨blockAt blocks N i (2 ^ e) ((T : Int) - 1), hprev, Or.inl ⟨?_, ?_⟩⟩
      · rw [h2]
        have : 2 ^ e + 2 ^ e = 2 * 2 ^ e := by ring
        rw [this, Nat.mod_self]
      · simp [Nat.ne_of_gt hpos]
  · intro n hn
    rw [hy, realFrame_getD_re, h2]
    exact sumConv_linear g blocks N i (2 ^ e) P T n hpos hn

theorem SetupImpulse_steady [LinearOrderedField α] [FloorRing α] (fuel : Nat)
    (prim : Primitives α) (st : SampleStore α) (data : EffectData α)
    (numchannels blocksize samplerate : Int) (hst : Steady st data) :
    SetupImpulse fuel prim st data numchannels blocksize samplerate = some (st, data) := by
  obtain ⟨s, hget, hlast, hupd, hch⟩ := hst
  unfold GetIRSample at hget
  split at hget
  · rename_i hu
    have hs := Option.some.inj hget
    unfold SetupImpulse
    rw [dif_pos hu]
    simp only
    rw [if_pos ⟨hlast, by rw [hs]; exact hupd, hch⟩]
  · exact absurd hget (by simp)

theorem processBlock_step [Ring α] (prim : Primitives α) (e P N M T : Nat)
    (g : Nat → List α) (blocks : List (List α)) (hx : ExactTransform prim (2 ^ (e + 1)))
    (data : EffectData α) (outbuffer : List α)
    (hN : 1 ≤ N) (hNM : N ≤ M) (hout : outbuffer.length = 2 ^ e * M)
    (hinv : EngineInv prim e P g blocks N T data) :
    ∃ data1 out, processBlock prim data (blocks.getD T []) outbuffer (N : Int) (M : Int)
        = some (data1, out) ∧
      EngineInv prim e P g blocks N (T + 1) data1 ∧
      data1.p = data.p ∧ data1.lastparams = data.lastparams ∧
      (∀ i n, i < N → n < 2 ^ e → out.getD (n * M + i) 0
        = ∑ m in Finset.range (P * 2 ^ e), (g i).getD m 0 *
            inputAt blocks N i (2 ^ e)
              ((T : Int) * ((2 ^ e : Nat) : Int) + (n : Int) - (m : Int))) := by
  obtain ⟨hhop, hF, hP, hsome, hNc, b, w, hb, hbP, hbT, hw, hchan⟩ := hinv
  obtain ⟨b', hrun, hl1, hl2, hin, hwo, hout', _⟩ :=
    processChannels_run prim data (blocks.getD T []) N M (2 ^ e) hhop N 0
      { channels := data.channels.getD [], tmpoutput := data.tmpoutput,
        outbuffer := outbuffer, writeoffset := none }
      (by simpa using hNc) (by omega) hout
  simp only [Nat.zero_add] at hin hwo hout'
  obtain ⟨j, cj, _, hjN, hjc, hjw⟩ := hwo hN
  have hstepj := channel_step prim e P N j T b w (g j) blocks hx data cj hhop hF hP hb hbP hw
    (hchan j cj hjN hjc)
  have hNn : (N : Int).toNat = N := Int.toNat_ofNat _
  refine ⟨{ data with
      channels := if data.channels.isSome then some b'.channels else none
      tmpoutput := b'.tmpoutput
      bufferindex := if data.bufferindex - 1 < 0 then data.numpartitions - 1
        else data.bufferindex - 1
      writeoffset := (processChannel prim data (blocks.getD T []) (N : Int) j cj).writeoffset },
    b'.outbuffer, ?_, ?_, rfl, rfl, ?_⟩
  · unfold processBlock
    rw [hNn, List.range_eq_range', hrun]
    simp only [hjw]
  · refine ⟨hhop, hF, hP, ?_, ?_, (b + P - 1) % P, (w + 2 ^ e) % 2 ^ (e + 1), ?_, ?_, ?_, ?_, ?_⟩
    · simp only [hsome, if_true, Option.isSome_some]
    · simp only [hsome, if_true, Option.getD_some]
      rw [hl1]; exact hNc
    · simp only [hb, hP]
      by_cases hb0 : b = 0
      · subst hb0
        have : ((0 : Nat) : Int) - 1 < 0 := by simp
        rw [if_pos this]
        have : (0 + P - 1) % P = P - 1 := by
          rw [Nat.zero_add]; exact Nat.mod_eq_of_lt (by omega)
        rw [this]
        omega
      · have : ¬ ((b : Int) - 1 < 0) := by omega
        rw [if_neg this]
        have : (b + P - 1) % P = b - 1 := by
          have : b + P - 1 = (b - 1) + P := by omega
          rw [this, Nat.add_mod_right]
          exact Nat.mod_eq_of_lt (by omega)
        rw [this]
        omega
    · exact Nat.mod_lt _ (by omega)
    · rw [Nat.mod_add_mod]
      have : b + P - 1 + (T + 1) = (b + T) + P := by omega
      rw [this, Nat.add_mod_right]
      exact hbT
    · simp only
      exact hstepj.2.1
    · intro i c hi hc
      simp only [hsome, if_true, Option.getD_some] at hc
      have hi' : i < (data.channels.getD []).length := by omega
      obtain ⟨c0, hc0⟩ : ∃ c0, (data.channels.getD []).get? i = some c0 :=
        ⟨(data.channels.getD [])[i], by simp [List.getElem?_eq_getElem hi']⟩
      have hci := (hin i c0 (by omega) hi hc0).1
      rw [hci] at hc
      rw [← Option.some.inj hc]
      exact (channel_step prim e P N i T b w (g i) blocks hx data c0 hhop hF hP hb hbP hw
        (hchan i c0 hi hc0)).1
  · intro i n hi hn
    have hi' : i < (data.channels.getD []).length := by omega
    obtain ⟨c0, hc0⟩ : ∃ c0, (data.channels.getD []).get? i = some c0 :=
      ⟨(data.channels.getD [])[i], by simp [List.getElem?_eq_getElem hi']⟩
    rw [(hin i c0 (by omega) hi hc0).2 n hn]
    exact (channel_step prim e P N i T b w (g i) blocks hx data c0 hhop hF hP hb hbP hw
      (hchan i c0 hi hc0)).2.2 n hn

theorem ProcessCallback_step [LinearOrderedField α] [FloorRing α] (fuel : Nat)
    (prim : Primitives α) (e P N M T : Nat) (g : Nat → List α) (blocks : List (List α))
    (hx : ExactTransform prim (2 ^ (e + 1))) (st : SampleStore α) (data : EffectData α)
    (samplerate length : Int) (hN : 1 ≤ N) (hNM : N ≤ M)
    (hlen : length = ((2 ^ e : Nat) : Int))
    (hinv : EngineInv prim e P g blocks N T data) (hst : Steady st data) :
    ∃ data1 out, ProcessCallback fuel prim st data samplerate (blocks.getD T [])
        (List.replicate (length * (M : Int)).toNat 0) length (N : Int) (M : Int)
        = some (st, data1, out) ∧
      EngineInv prim e P g blocks N (T + 1) data1 ∧ Steady st data1 ∧
      (∀ i n, i < N → n < 2 ^ e → out.getD (n * M + i) 0
        = ∑ m in Finset.range (P * 2 ^ e), (g i).getD m 0 *
            inputAt blocks N i (2 ^ e)
              ((T : Int) * ((2 ^ e : Nat) : Int) + (n : Int) - (m : Int))) := by
  have hout : (List.replicate (length * (M : Int)).toNat (0 : α)).length = 2 ^ e * M := by
    rw [List.length_replicate, hlen]
    have : (((2 ^ e : Nat) : Int) * (M : Int)) = ((2 ^ e * M : Nat) : Int) := by push_cast; rfl
    rw [this]; exact Int.toNat_ofNat _
  obtain ⟨data1, out, hpb, hinv1, hp, hlp, hy⟩ :=
    processBlock_step prim e P N M T g blocks hx data _ hN hNM hout hinv
  refine ⟨data1, out, ?_, hinv1, ?_, hy⟩
  · unfold ProcessCallback
    rw [SetupImpulse_steady fuel prim st data _ _ _ hst]
    simp only [hpb]
  · obtain ⟨s, hget, hlast, hupd, _⟩ := hst
    exact ⟨s, by rw [hp]; exact hget, by rw [hp, hlp]; exact hlast, hupd, hinv1.2.2.2.1⟩

theorem runBlocks_from [LinearOrderedField α] [FloorRing α] (fuel : Nat)
    (prim : Primitives α) (e P N M : Nat) (g : Nat → List α) (blocks : List (List α))
    (hx : ExactTransform prim (2 ^ (e + 1))) (st : SampleStore α)
    (samplerate length : Int) (hN : 1 ≤ N) (hNM : N ≤ M)
    (hlen : length = ((2 ^ e : Nat) : Int)) :
    ∀ (k T : Nat) (data : EffectData α), T + k = blocks.length →
      EngineInv prim e P g blocks N T data → Steady st data →
      ∃ data1 outs, runBlocks fuel prim samplerate length (N : Int) (M : Int)
          (blocks.drop T) (st, data) = some (st, data1, outs) ∧
        outs.length = k ∧
        ∀ t i n, t < k → i < N → n < 2 ^ e → (outs.getD t []).getD (n * M + i) 0
          = ∑ m in Finset.range (P * 2 ^ e), (g i).getD m 0 *
              inputAt blocks N i (2 ^ e)
                (((T + t : Nat) : Int) * ((2 ^ e : Nat) : Int) + (n : Int) - (m : Int)) := by
  intro k
  induction k with
  | zero =>
    intro T data hT _ _
    have : blocks.drop T = [] := List.drop_eq_nil_of_le (by omega)
    rw [this]
    exact ⟨data, [], rfl, rfl, fun t i n ht => by omega⟩
  | succ k ih =>
    intro T data hT hinv hst
    have hTlt : T < blocks.length := by omega
    have hdrop : blocks.drop T = blocks.getD T [] :: blocks.drop (T + 1) := by
      rw [List.drop_eq_getElem_cons hTlt]
      simp [List.getD, List.getElem?_eq_getElem hTlt]
    obtain ⟨data1, out, hpc, hinv1, hst1, hy⟩ :=
      ProcessCallback_step fuel prim e P N M T g blocks hx st data samplerate length hN hNM
        hlen hinv hst
    obtain ⟨data2, outs, hrun, hl, hys⟩ := ih (T + 1) data1 (by omega) hinv1 hst1
    refine ⟨data2, out :: outs, ?_, by simp [hl], ?_⟩
    · rw [hdrop]
      simp only [runBlocks, hpc, hrun]
    · intro t i n ht hi hn
      cases t with
      | zero =>
        simp only [List.getD_cons_zero, Nat.add_zero]
        exact hy i n hi hn
      | succ t =>
        simp only [List.getD_cons_succ]
        have := hys t i n (by omega) hi hn
        rw [this]
        have e1 : T + 1 + t = T + (t + 1) := by omega
        rw [e1]

theorem get?_of_map_eq {β γ : Type} (l : List β) (f f' : β → γ) (h : l.map f = l.map f')
    (i : Nat) (c : β) (hc : l.get? i = some c) : f c = f' c := by
  have := congrArg (fun m => m.get? i) h
  simp only [List.get?_eq_getElem?, List.getElem?_map] at this hc
  rw [hc] at this
  simpa using this

theorem EngineInv_of_Rebuilt [Ring α] (prim : Primitives α) (e P N : Nat)
    (g : Nat → List α) (blocks : List (List α)) (hx : ExactTransform prim (2 ^ (e + 1)))
    (data : EffectData α) (hP : 1 ≤ P) (hNc : N ≤ (data.channels.getD []).length)
    (hre : Rebuilt prim data (2 ^ e) P g) :
    EngineInv prim e P g blocks N 0 data := by
  have h2 : 2 ^ (e + 1) = 2 * 2 ^ e := by rw [pow_succ]; ring
  obtain ⟨hhop, hF, hPn, hb, hw, hsome, hs, hxz, hh⟩ := hre
  refine ⟨hhop, ?_, hPn, hsome, hNc, 0, 0, by simpa using hb, by omega, by simp,
    by simpa using hw, ?_⟩
  · rw [hF, h2]; push_cast; rfl
  · intro i c hi hc
    have hcs := get?_of_map_eq _ _ _ hs i c hc
    have hcx := get?_of_map_eq _ _ _ hxz i c hc
    have hch : c.h = (List.range P).map (fun (k : Nat) =>
        prim.Forward (realFrame (paddedBlock (g i) ((2 ^ e : Nat) : Int) k (2 * 2 ^ e)))) := by
      have := congrArg (fun m => m.get? i) hh
      simp only [List.get?_eq_getElem?, List.getElem?_map] at this hc
      rw [hc] at this
      have hi' : i < (data.channels.getD []).length := by omega
      simp only [Option.map_some', List.getElem?_range hi'] at this
      exact Option.some.inj this
    simp only at hcs hcx
    refine ⟨by rw [hcx]; simp, ?_, ?_, List.replicate (2 ^ e) 0, by simp, Or.inl ⟨rfl, ?_⟩⟩
    · intro k hk
      rw [hch, getD_map_range P _ _ k hk]
    · intro k hk1 hk
      rw [hcx, Nat.add_zero, Nat.mod_eq_of_lt hk]
      have hz : frameAt blocks N i (2 ^ e) (((0 : Nat) : Int) - (k : Int))
          = List.replicate (2 ^ (e + 1)) 0 := by
        unfold frameAt blockAt
        rw [if_pos (by omega), if_pos (by omega), h2]
        simp [two_mul]
      rw [hz, forward_zero prim _ hx, h2]
      simp [List.getD, List.getElem?_replicate, hk]
    · rw [hcs]
      unfold blockAt
      rw [if_pos (by omega)]
      simp [two_mul]

theorem length_four {β : Type} (l : List β) (h : l.length = 4) :
    ∃ a b c d, l = [a, b, c, d] := by
  match l, h with
  | [a, b, c, d], _ => exact ⟨a, b, c, d, rfl⟩

/-- The four-point transform pair over the rationals is an exact transform pair. -/
theorem exactTransform_primRat : ExactTransform primRat 4 := by
  refine ⟨?_, ?_, ?_⟩
  · intro a ha
    obtain ⟨a0, a1, a2, a3, rfl⟩ := length_four a ha
    simp only [primRat, realFrame, List.map, dft4, idft4, cadd, csub, cmulI, cscale]
    simp only [List.cons.injEq, UnityComplexNumber.mk.injEq, and_true]
    refine ⟨⟨?_, ?_⟩, ⟨?_, ?_⟩, ⟨?_, ?_⟩, ⟨?_, ?_⟩⟩ <;> ring
  · intro a b ha hb
    obtain ⟨a0, a1, a2, a3, rfl⟩ := length_four a ha
    obtain ⟨b0, b1, b2, b3, rfl⟩ := length_four b hb
    simp only [primRat, realFrame, List.map, dft4, cadd, csub, cmulI, mulFrame,
      circularConvolution]
    simp [List.range_succ, List.getD]
    repeat' constructor
    all_goals ring
  · intro a b ha hb
    obtain ⟨a0, a1, a2, a3, rfl⟩ := length_four a ha
    obtain ⟨b0, b1, b2, b3, rfl⟩ := length_four b hb
    simp only [primRat, realFrame, List.map, dft4, cadd, csub, cmulI, addFrame, addSeq]
    simp [List.range_succ, List.getD]
    repeat' constructor
    all_goals ring


/-- C1. Block processing computes the linear convolution with the prepared impulse. For an
exact transform pair of size `2 * 2 ^ e`, an engine freshly rebuilt for hop size `2 ^ e`, `P ≥ 1`
partitions and impulses `g i` (ring buffers and input partitions zero, impulse partitions the
transforms of the padded blocks of `g i`), with no preparation pending, `1 ≤ N ≤ M` channels
and `N` channel states: running `ProcessCallback` over any list of input blocks succeeds, and
sample `n` of channel `i` in output block `t` is the sum over `m < P * 2 ^ e` of
`g i [m] * input i [t * 2 ^ e + n - m]`, the input being zero before block 0. -/
theorem ProcessCallback_linear_convolution [LinearOrderedField α] [FloorRing α] (fuel : Nat)
    (prim : Primitives α) (e P N M : Nat) (g : Nat → List α) (blocks : List (List α))
    (st : SampleStore α) (data : EffectData α) (samplerate : Int)
    (hx : ExactTransform prim (2 * 2 ^ e)) (hre : Rebuilt prim data (2 ^ e) P g)
    (hst : Steady st data) (hP : 1 ≤ P) (hN : 1 ≤ N) (hNM : N ≤ M)
    (hNc : N ≤ (data.channels.getD []).length) :
    ∃ data1 outs, runBlocks fuel prim samplerate ((2 ^ e : Nat) : Int) (N : Int) (M : Int)
        blocks (st, data) = some (st, data1, outs) ∧
      outs.length = blocks.length ∧
      ∀ t i n, t < blocks.length → i < N → n < 2 ^ e →
        (outs.getD t []).getD (n * M + i) 0
          = ∑ m in Finset.range (P * 2 ^ e), (g i).getD m 0 *
              inputAt blocks N i (2 ^ e)
                ((t : Int) * ((2 ^ e : Nat) : Int) + (n : Int) - (m : Int)) := by
  have h2 : 2 ^ (e + 1) = 2 * 2 ^ e := by rw [pow_succ]; ring
  have hx' : ExactTransform prim (2 ^ (e + 1)) := by rw [h2]; exact hx
  have hinv := EngineInv_of_Rebuilt prim e P N g blocks hx' data hP hNc hre
  obtain ⟨data1, outs, hrun, hl, hy⟩ :=
    runBlocks_from fuel prim e P N M g blocks hx' st samplerate _ hN hNM rfl
      blocks.length 0 data (by omega) hinv hst
  refine ⟨data1, outs, ?_, hl, ?_⟩
  · simpa using hrun
  · intro t i n ht hi hn
    have := hy t i n ht hi hn
    simpa using this

theorem ProcessCallback_linear_convolution_witness :
    ExactTransform primRat (2 * 2 ^ 1) ∧
    Rebuilt primRat preparedUnit.2 (2 ^ 1) 2 (fun _ => [1, 0, 0, 0]) ∧
    Steady preparedUnit.1 preparedUnit.2 ∧
    (∃ data1 outs, runBlocks 100 primRat 48000 ((2 ^ 1 : Nat) : Int) ((1 : Nat) : Int)
        ((1 : Nat) : Int) [[1, 0], [0, 0]] (preparedUnit.1, preparedUnit.2)
          = some (preparedUnit.1, data1, outs) ∧
      outs.length = [[(1 : ℚ), 0], [0, 0]].length ∧
      ∀ t i n, t < [[(1 : ℚ), 0], [0, 0]].length → i < 1 → n < 2 ^ 1 →
        (outs.getD t []).getD (n * 1 + i) 0
          = ∑ m in Finset.range (2 * 2 ^ 1), ((fun _ => [1, 0, 0, 0]) i : List ℚ).getD m 0 *
              inputAt [[1, 0], [0, 0]] 1 i (2 ^ 1)
                ((t : Int) * ((2 ^ 1 : Nat) : Int) + (n : Int) - (m : Int))) ∧
    (runBlocks 100 primRat 48000 2 1 1 [[1, 0], [0, 0]] (preparedUnit.1, preparedUnit.2)).map
        (fun r => r.2.2) = some [[1, 0], [0, 0]] :=
  ⟨exactTransform_primRat, by unfold Rebuilt; decide!,
    ⟨preparedUnit.1.samples 0, by decide!, by decide!, by decide!, by decide!⟩,
    ProcessCallback_linear_convolution 100 primRat 1 2 1 1 (fun _ => [1, 0, 0, 0])
      [[1, 0], [0, 0]] preparedUnit.1 preparedUnit.2 48000 exactTransform_primRat
      (by unfold Rebuilt; decide!)
      ⟨preparedUnit.1.samples 0, by decide!, by decide!, by decide!, by decide!⟩
      (by decide) (by decide) (by decide) (by decide!),
    by decide!⟩

end Processing

/-! ## Theorems: the impulse partitions left by a preparation run -/

section Partitions

variable {α : Type}

theorem substituteDummy_idem [Zero α] [One α] (st : SampleStore α) (u : Fin 16)
    (numchannels samplerate : Int) :
    substituteDummy (substituteDummy st u numchannels samplerate) u numchannels samplerate
      = substituteDummy st u numchannels samplerate := by
  by_cases h0 : (st.samples u).numsamples = 0
  · have h1 : substituteDummy st u numchannels samplerate
        = { samples := Function.update st.samples u (dummysample numchannels samplerate)
            heap := st.heap.set dummydataAddr
              (fillDummy (st.heap.getD dummydataAddr []) numchannels) } := by
      unfold substituteDummy; rw [if_pos h0]
    rw [h1]
    unfold substituteDummy
    rw [if_neg]
    simp [dummysample]
  · have h1 : substituteDummy st u numchannels samplerate = st := by
      unfold substituteDummy; rw [if_neg h0]
    rw [h1, h1]

theorem prepareChannel_substituted [LinearOrderedField α] [FloorRing α] (prim : Primitives α)
    (st : SampleStore α) (u : Fin 16) (data : EffectData α) (numchannels samplerate : Int)
    (i : Nat) (c : Channel α) :
    prepareChannel prim (substituteDummy st u numchannels samplerate) u data numchannels
        samplerate i c
      = prepareChannel prim st u data numchannels samplerate i c := by
  unfold prepareChannel
  simp only [substituteDummy_idem]

theorem prepareChannel_store [LinearOrderedField α] [FloorRing α] (prim : Primitives α)
    (st : SampleStore α) (u : Fin 16) (data : EffectData α) (numchannels samplerate : Int)
    (i : Nat) (c : Channel α) :
    (prepareChannel prim st u data numchannels samplerate i c).1
      = substituteDummy st u numchannels samplerate := rfl

/-- The channel loop of the preparation over the channels `a, …, a + k - 1`: it succeeds when
they exist, leaves the store with the dummy substituted (once) and rewrites exactly these
channels, each from the same store. -/
theorem prepareChannels_run [LinearOrderedField α] [FloorRing α] (prim : Primitives α)
    (u : Fin 16) (data : EffectData α) (numchannels samplerate : Int) :
    ∀ (k a : Nat) (st : SampleStore α) (chans : List (Channel α)), a + k ≤ chans.length →
      ∃ r, prepareChannels prim u data numchannels samplerate (List.range' a k) (st, chans)
          = some r ∧
        r.1 = (if k = 0 then st else substituteDummy st u numchannels samplerate) ∧
        r.2.length = chans.length ∧
        (∀ i c, a ≤ i → i < a + k → chans.get? i = some c →
          r.2.get? i = some (prepareChannel prim st u data numchannels samplerate i c).2) ∧
        (∀ i, i < a ∨ a + k ≤ i → r.2.get? i = chans.get? i) := by
  intro k
  induction k with
  | zero =>
    intro a st chans _
    exact ⟨(st, chans), rfl, rfl, rfl, fun i c h1 h2 => by omega, fun i _ => rfl⟩
  | succ k ih =>
    intro a st chans hlen
    have ha : a < chans.length := by omega
    obtain ⟨c0, hc0⟩ : ∃ c0, chans.get? a = some c0 :=
      ⟨chans[a], by simp [List.getElem?_eq_getElem ha]⟩
    obtain ⟨r, hrun, hst, hl, hin, hout⟩ :=
      ih (a + 1) (prepareChannel prim st u data numchannels samplerate a c0).1
        (chans.set a (prepareChannel prim st u data numchannels samplerate a c0).2)
        (by simp only [List.length_set]; omega)
    simp only [List.length_set] at hl
    refine ⟨r, ?_, ?_, hl, ?_, ?_⟩
    · simp only [List.range'_succ, prepareChannels, hc0]
      exact hrun
    · rw [hst, prepareChannel_store]
      simp only [Nat.succ_ne_zero, if_false]
      split
      · rfl
      · exact substituteDummy_idem st u numchannels samplerate
    · intro i c h1 h2 hc
      by_cases hia : i = a
      · subst hia
        have hcc : c = c0 := by rw [hc0] at hc; exact (Option.some.inj hc).symm
        subst hcc
        rw [hout i (Or.inl (by omega))]
        simp [List.getElem?_set, ha]
      · have hc1 : (chans.set a
            (prepareChannel prim st u data numchannels samplerate a c0).2).get? i = some c := by
          rw [← hc]
          simp [List.getElem?_set, Ne.symm hia]
        rw [hin i c (by omega) (by omega) hc1, prepareChannel_store,
          prepareChannel_substituted]
    · intro i hi
      rw [hout i (by omega)]
      have : a ≠ i := by omega
      simp [List.getElem?_set, this]

theorem preparedImpulse_congr [LinearOrderedField α] [FloorRing α] (prim : Primitives α)
    (st : SampleStore α) (u : Fin 16) (d1 d2 : EffectData α) (samplerate : Int) (i : Nat)
    (hnp : d1.numpartitions = d2.numpartitions) (hh : d1.hopsize = d2.hopsize) :
    preparedImpulse prim st u d1 samplerate i = preparedImpulse prim st u d2 samplerate i := by
  unfold preparedImpulse
  rw [hnp, hh]

/-- C2 (defect in the code). Slot 0 holds `[1, 0, 0, 0]` and the engine is prepared for one
channel and blocks of two samples; then `[0, 0, 1, 0]` of the same shape is uploaded and the
preparation runs again. The second run keeps the buffers (`keepsBuffers` holds), its normalised
impulse is `[0, 0, 1, 0]`, and partition 0 comes out as the transform of the frame
`[0, 0, 1, 1]` (the old transform with two real parts overwritten), not as the transform of
the padded block `[0, 0, 0, 0]`, which is zero. -/
theorem irUpload_thread_stale_partition :
    keepsBuffers preparedUnit.2
      ((ConvolutionReverb_UploadSample preparedUnit.1 0 [0, 0, 1, 0] 4 1 48000 "ir").2.samples
        0) 2 = true ∧
    secondRun.map (fun r => preparedImpulse primRat r.1 0 r.2 48000 0) = some [0, 0, 1, 0] ∧
    secondRun.map (fun r => (r.2.channels.getD []).map (fun c => c.h.getD 0 []))
      = some [[⟨2, 0⟩, ⟨-1, 1⟩, ⟨0, 0⟩, ⟨-1, -1⟩]] ∧
    primRat.Forward (realFrame (paddedBlock [0, 0, 1, 0] 2 0 4))
      = [⟨0, 0⟩, ⟨0, 0⟩, ⟨0, 0⟩, ⟨0, 0⟩] := by
  decide!

end Partitions

/-! ## Theorems: the preparation check -/

section PreparationCheck

variable {α : Type}

/-- A preparation run that does not keep the buffers ends with the requested sizes. -/
theorem irUpload_thread_reset_fields [LinearOrderedField α] [FloorRing α] (fuel : Nat)
    (prim : Primitives α) (st st1 : SampleStore α) (data data1 : EffectData α)
    (numchannels blocksize samplerate : Int)
    (hu : 0 ≤ truncInt data.p ∧ truncInt data.p < 16)
    (hreset : keepsBuffers data (st.samples ⟨(truncInt data.p).toNat, by omega⟩) blocksize
      = false)
    (hrun : irUpload_thread fuel prim st data numchannels blocksize samplerate
      = some (st1, data1)) :
    data1.numchannels = numchannels ∧ data1.hopsize = blocksize ∧
      data1.fftsize = 2 * data1.hopsize ∧ data1.lastparams = data.p ∧ data1.p = data.p ∧
      data1.channels.isSome = true := by
  unfold irUpload_thread at hrun
  rw [dif_pos hu] at hrun
  simp only [hreset, Bool.false_eq_true, if_false] at hrun
  unfold ResetData at hrun
  cases hnp : numpartitionsLoop blocksize
      (reallength α (st.samples ⟨(truncInt data.p).toNat, by omega⟩) samplerate) fuel 0 with
  | none => rw [hnp] at hrun; simp at hrun
  | some np =>
    rw [hnp] at hrun
    simp only [Option.getD_some] at hrun
    split at hrun
    · exact absurd hrun (by simp)
    · rename_i r hr
      simp only [Option.isSome_some, if_true, Option.some.injEq, Prod.mk.injEq] at hrun
      obtain ⟨_, hd⟩ := hrun
      subst hd
      refine ⟨rfl, rfl, ?_, rfl, rfl, rfl⟩
      simp only
      ring

/-- A changed hop size, source rate or source frame count always rebuilds. -/
theorem keepsBuffers_false_of_change (data : EffectData α) (s : IRSample) (blocksize : Int)
    (h : data.hopsize ≠ blocksize ∨ data.samplerate_in ≠ s.samplerate ∨
      data.numsamples_in ≠ s.numsamples) :
    keepsBuffers data s blocksize = false := by
  unfold keepsBuffers
  rcases h with h | h | h <;> simp [h]

/-- C11 (defect in the code). The test that decides whether the engine is rebuilt compares
the channel count of the source slot with the engine's channel count; the requested target
channel count takes no part in it. A one-channel engine prepared from a mono slot at hop size
2 passes the test after a same-shape upload, so a preparation run requesting two channels
leaves the engine with one channel and one channel state. -/
theorem irUpload_thread_ignores_requested_channels :
    keepsBuffers preparedUnit.2
      ((ConvolutionReverb_UploadSample preparedUnit.1 0 [0, 0, 1, 0] 4 1 48000 "ir").2.samples
        0) 2 = true ∧
    preparedUnit.2.numchannels = 1 ∧
    stereoRequestRun.map (fun r => (r.2.numchannels, (r.2.channels.getD []).length))
      = some (1, 1) := by
  decide!

/-- C12 (defect in the code). The record of the slot last prepared is written by `ResetData`
alone. When the selected slot changes to a slot of the same shape, the preparation run keeps
the buffers and leaves the record on the old slot: after the first completed check the selected
slot is 1 and the recorded one is still 0, and a second check with nothing changed prepares
again, adding once more into the kept impulse partitions. -/
theorem SetupImpulse_repeats_after_slot_change :
    slotOneFirst.map (fun r => (truncInt r.2.p, truncInt r.2.lastparams)) = some (1, 0) ∧
    slotOneFirst.map (fun r => (r.2.channels.getD []).map (fun c => c.h.getD 1 []))
      = some [[⟨1, 0⟩, ⟨1, 0⟩, ⟨1, 0⟩, ⟨1, 0⟩]] ∧
    slotOneSecond.map (fun r => (r.2.channels.getD []).map (fun c => c.h.getD 1 []))
      = some [[⟨3, 0⟩, ⟨0, 1⟩, ⟨1, 0⟩, ⟨0, -1⟩]] := by
  decide!

/-- C13 (defect in the code). A preparation run on a selected slot without frames assigns the
dummy record through the reference into the slot table: slot 5, uploaded with no frames under
the name "hall", comes out with 256 frames, the dummy array as its data, an empty name and the
allocated flag cleared, and its name query answers "Not set" instead of "hall". -/
theorem SetupImpulse_overwrites_empty_slot :
    GetIRSample storeNoFrames 5 = some
      { data := none, numsamples := 0, numchannels := 1, samplerate := 48000,
        updatecount := 1, allocated := 1, impulse_upload_only := true, name := "hall" } ∧
    noFramesRun.map (fun r => GetIRSample r.1 5) = some (some
      { data := some dummydataAddr, numsamples := 256, numchannels := 1, samplerate := 48000,
        updatecount := 0, allocated := 0, impulse_upload_only := false, name := "" }) ∧
    ConvolutionReverb_GetSampleName storeNoFrames 5 = some "hall" ∧
    noFramesRun.map (fun r => ConvolutionReverb_GetSampleName r.1 5)
      = some (some "Not set") := by
  decide!

theorem prepareChannels_store [LinearOrderedField α] [FloorRing α] (prim : Primitives α)
    (u : Fin 16) (data : EffectData α) (numchannels samplerate : Int) :
    ∀ (is : List Nat) (st : SampleStore α) (chans : List (Channel α))
      (r : SampleStore α × List (Channel α)),
      prepareChannels prim u data numchannels samplerate is (st, chans) = some r →
      r.1 = st ∨ r.1 = substituteDummy st u numchannels samplerate := by
  intro is
  induction is with
  | nil =>
    intro st chans r h
    simp only [prepareChannels, Option.some.injEq] at h
    left; rw [← h]
  | cons i rest ih =>
    intro st chans r h
    simp only [prepareChannels] at h
    split at h
    · exact absurd h (by simp)
    · rename_i c hc
      have := ih _ _ r h
      rw [prepareChannel_store, substituteDummy_idem] at this
      right
      rcases this with h1 | h1 <;> exact h1

theorem substituteDummy_of_frames [Zero α] [One α] (st : SampleStore α) (u : Fin 16)
    (numchannels samplerate : Int) (h : (st.samples u).numsamples ≠ 0) :
    substituteDummy st u numchannels samplerate = st := by
  unfold substituteDummy
  rw [if_neg h]

theorem substituteDummy_updatecount [Zero α] [One α] (st : SampleStore α) (u : Fin 16)
    (numchannels samplerate : Int) (h : (st.samples u).updatecount = 0) :
    ((substituteDummy st u numchannels samplerate).samples u).updatecount = 0 := by
  unfold substituteDummy
  by_cases h0 : (st.samples u).numsamples = 0
  · rw [if_pos h0]
    simp only [Function.update_same, dummysample]
  · rw [if_neg h0]
    exact h

/-- The store left by a completed `irUpload_thread` is the store it started from, with the
dummy substituted or not. -/
theorem irUpload_thread_store [LinearOrderedField α] [FloorRing α] (fuel : Nat)
    (prim : Primitives α) (st st1 : SampleStore α) (data data1 : EffectData α)
    (numchannels blocksize samplerate : Int)
    (hu : 0 ≤ truncInt data.p ∧ truncInt data.p < 16)
    (hrun : irUpload_thread fuel prim st data numchannels blocksize samplerate
      = some (st1, data1)) :
    st1 = st ∨ st1 = substituteDummy st ⟨(truncInt data.p).toNat, by omega⟩ numchannels
      samplerate := by
  unfold irUpload_thread at hrun
  rw [dif_pos hu] at hrun
  simp only at hrun
  split at hrun
  · exact absurd hrun (by simp)
  · rename_i d1 hd1
    split at hrun
    · exact absurd hrun (by simp)
    · rename_i r hr
      simp only [Option.some.injEq, Prod.mk.injEq] at hrun
      rw [← hrun.1]
      exact prepareChannels_store prim _ d1 numchannels samplerate _ _ _ r hr

/-- A preparation check on a selected slot that holds frames changes no slot but for the
update-pending flag of the selected slot, and no sample array. -/
theorem SetupImpulse_keeps_slots [LinearOrderedField α] [FloorRing α] (fuel : Nat)
    (prim : Primitives α) (st st1 : SampleStore α) (data data1 : EffectData α)
    (numchannels blocksize samplerate : Int)
    (hu : 0 ≤ truncInt data.p ∧ truncInt data.p < 16)
    (hframes : (st.samples ⟨(truncInt data.p).toNat, by omega⟩).numsamples ≠ 0)
    (hrun : SetupImpulse fuel prim st data numchannels blocksize samplerate
      = some (st1, data1)) :
    st1.heap = st.heap ∧
    ∀ j : Fin 16, st1.samples j = st.samples j ∨
      (j = ⟨(truncInt data.p).toNat, by omega⟩ ∧
        st1.samples j = { (st.samples j) with updatecount := 0 }) := by
  unfold SetupImpulse at hrun
  rw [dif_pos hu] at hrun
  simp only at hrun
  split at hrun
  · simp only [Option.some.injEq, Prod.mk.injEq] at hrun
    rw [← hrun.1]
    exact ⟨rfl, fun j => Or.inl rfl⟩
  · have hst := irUpload_thread_store fuel prim _ st1 data data1 numchannels blocksize
      samplerate hu hrun
    rw [substituteDummy_of_frames _ _ _ _
      (by simp only [Function.update_same]; exact hframes), or_self] at hst
    rw [hst]
    refine ⟨rfl, fun j => ?_⟩
    by_cases hj : j = ⟨(truncInt data.p).toNat, by omega⟩
    · right
      refine ⟨hj, ?_⟩
      subst hj
      simp only [Function.update_same]
    · left
      simp only [Function.update_noteq hj]

/-- After a preparation check that returned at once or rebuilt the engine, nothing is pending:
any further check returns at once. -/
theorem SetupImpulse_settles [LinearOrderedField α] [FloorRing α] (fuel : Nat)
    (prim : Primitives α) (st st1 : SampleStore α) (data data1 : EffectData α)
    (numchannels blocksize samplerate : Int)
    (hu : 0 ≤ truncInt data.p ∧ truncInt data.p < 16)
    (hcase : Steady st data ∨
      keepsBuffers data (st.samples ⟨(truncInt data.p).toNat, by omega⟩) blocksize = false)
    (hrun : SetupImpulse fuel prim st data numchannels blocksize samplerate
      = some (st1, data1)) :
    Steady st1 data1 := by
  by_cases hsteady : Steady st data
  · rw [SetupImpulse_steady fuel prim st data _ _ _ hsteady] at hrun
    simp only [Option.some.injEq, Prod.mk.injEq] at hrun
    rw [← hrun.1, ← hrun.2]
    exact hsteady
  · have hreset : keepsBuffers data (st.samples ⟨(truncInt data.p).toNat, by omega⟩)
        blocksize = false := by
      rcases hcase with h | h
      · exact absurd h hsteady
      · exact h
    unfold SetupImpulse at hrun
    rw [dif_pos hu] at hrun
    simp only at hrun
    split at hrun
    · rename_i hc
      exfalso
      apply hsteady
      refine ⟨st.samples ⟨(truncInt data.p).toNat, by omega⟩, ?_, hc.1, hc.2.1, hc.2.2⟩
      unfold GetIRSample
      rw [dif_pos hu]
    · obtain ⟨_, _, _, hlp, hp, hch⟩ := irUpload_thread_reset_fields fuel prim _ st1 data
        data1 numchannels blocksize samplerate hu
        (by rw [← hreset]; simp only [Function.update_same, keepsBuffers]) hrun
      have hst := irUpload_thread_store fuel prim _ st1 data data1 numchannels blocksize
        samplerate hu hrun
      have hu1 : 0 ≤ truncInt data1.p ∧ truncInt data1.p < 16 := by rw [hp]; exact hu
      refine ⟨st1.samples ⟨(truncInt data.p).toNat, by omega⟩, ?_, by rw [hlp, hp], ?_, hch⟩
      · unfold GetIRSample
        rw [dif_pos hu1]
        simp only [hp]
      · rcases hst with h | h
        · rw [h]
          simp only [Function.update_same]
        · rw [h]
          apply substituteDummy_updatecount
          simp only [Function.update_same]

end PreparationCheck

/-! ## Theorems: the envelope query -/

section Envelope

variable {α : Type}

theorem peakHold_length [LinearOrderedField α] :
    ∀ (l : List α) (p : α), (peakHold l p).length = l.length := by
  intro l
  induction l with
  | nil => intro p; rfl
  | cons v rest ih => intro p; simp only [peakHold, List.length_cons, ih]

theorem peakSumLoop_length [LinearOrderedField α] :
    ∀ (l : List α) (s p : α), (peakSumLoop l s p).length = l.length := by
  intro l
  induction l with
  | nil => intro s p; rfl
  | cons v rest ih => intro s p; simp only [peakSumLoop, List.length_cons, ih]

/-- The peak-detection loop stores the running sums of the peak-hold values. -/
theorem peakSumLoop_getD [LinearOrderedField α] :
    ∀ (l : List α) (s p : α) (n : Nat), n < l.length →
      (peakSumLoop l s p).getD n 0 = s + ((peakHold l p).take (n + 1)).sum := by
  intro l
  induction l with
  | nil => intro s p n h; exact absurd h (by simp)
  | cons v rest ih =>
    intro s p n h
    cases n with
    | zero =>
      simp only [peakSumLoop, peakHold, List.getD_cons_zero, List.take_succ_cons,
        List.take_zero, List.sum_cons, List.sum_nil, add_zero]
    | succ m =>
      have hm : m < rest.length := by simpa using h
      simp only [peakSumLoop, peakHold, List.getD_cons_succ, List.take_succ_cons,
        List.sum_cons]
      rw [ih _ _ m hm]
      ring

theorem peakSumLoop_getLastD [LinearOrderedField α] :
    ∀ (l : List α) (s p : α),
      (peakSumLoop l s p).getLastD s = s + (peakHold l p).sum := by
  intro l
  induction l with
  | nil => intro s p; simp [peakSumLoop, peakHold]
  | cons v rest ih =>
    intro s p
    simp only [peakSumLoop, peakHold, List.getLastD_cons, List.sum_cons]
    rw [ih]
    ring

theorem detrendLoop_length [Ring α] :
    ∀ (l : List α) (s dc : α), (detrendLoop l s dc).length = l.length := by
  intro l
  induction l with
  | nil => intro s dc; rfl
  | cons v rest ih => intro s dc; simp only [detrendLoop, List.length_cons, ih]

/-- The de-trending loop takes `sum - n * dc` from entry `n`. -/
theorem detrendLoop_getD [Ring α] :
    ∀ (l : List α) (s dc : α) (n : Nat), n < l.length →
      (detrendLoop l s dc).getD n 0 = l.getD n 0 - (s - (n : α) * dc) := by
  intro l
  induction l with
  | nil => intro s dc n h; exact absurd h (by simp)
  | cons v rest ih =>
    intro s dc n h
    cases n with
    | zero => simp only [detrendLoop, List.getD_cons_zero, Nat.cast_zero, zero_mul, sub_zero]
    | succ m =>
      have hm : m < rest.length := by simpa using h
      simp only [detrendLoop, List.getD_cons_succ]
      rw [ih _ _ m hm]
      push_cast
      noncomm_ring

/-- The stored curve: entry `n` is the sum of the peak-hold values up to `n` less `n + 0` times
their mean over `impulsesamples`. -/
theorem envelopeCurve_getD [LinearOrderedField α] (impulse : List α) (impulsesamples : Int)
    (n : Nat) (h : n < impulse.length) :
    (envelopeCurve impulse impulsesamples).getD n 0
      = ((peakHold impulse 0).take (n + 1)).sum
        - (n : α) * ((peakHold impulse 0).sum / (impulsesamples : α)) := by
  unfold envelopeCurve
  simp only
  rw [detrendLoop_getD _ _ _ n (by rw [peakSumLoop_length]; exact h),
    peakSumLoop_getD _ _ _ n h, peakSumLoop_getLastD]
  ring

theorem envelopeCurve_length [LinearOrderedField α] (impulse : List α) (impulsesamples : Int) :
    (envelopeCurve impulse impulsesamples).length = impulse.length := by
  unfold envelopeCurve
  simp only
  rw [detrendLoop_length, peakSumLoop_length]

/-- At unit scale the interpolated curve value at output index `n` is the stored entry `n`. -/
theorem envelope_next_unit [LinearOrderedField α] [FloorRing α] (src : List α) (n : Nat) :
    readAt src (FastFloor ((n : α) * 1))
      + (readAt src (FastFloor ((n : α) * 1) + 1) - readAt src (FastFloor ((n : α) * 1)))
        * ((n : α) * 1 - ((FastFloor ((n : α) * 1) : Int) : α))
      = readAt src (n : Int) := by
  have hf : FastFloor ((n : α) * 1) = (n : Int) := by
    unfold FastFloor
    rw [mul_one]
    exact Int.floor_natCast n
  rw [hf]
  push_cast
  ring

/-- The reconstruction loop at unit scale over the indices `a, ..., a + k - 1`: entry `a` is
the stored entry less `prev_val`, every later entry is the difference of two neighbouring
stored entries, and the other entries of the buffer are left alone. -/
theorem envelopeLoop_unit [LinearOrderedField α] [FloorRing α] (src : List α) :
    ∀ (k a : Nat) (buffer : List α) (prev : α), a + k ≤ buffer.length →
      (envelopeLoop src 1 1 (List.range' a k) (buffer, prev)).1.length = buffer.length ∧
      (∀ n, n < a ∨ a + k ≤ n →
        (envelopeLoop src 1 1 (List.range' a k) (buffer, prev)).1.getD n 0
          = buffer.getD n 0) ∧
      (∀ n, a ≤ n → n < a + k →
        (envelopeLoop src 1 1 (List.range' a k) (buffer, prev)).1.getD n 0
          = readAt src (n : Int)
            - (if n = a then prev else readAt src ((n : Int) - 1))) := by
  intro k
  induction k with
  | zero =>
    intro a buffer prev _
    refine ⟨rfl, fun n _ => rfl, fun n h1 h2 => ?_⟩
    omega
  | succ k ih =>
    intro a buffer prev hlen
    simp only [List.range', envelopeLoop]
    rw [envelope_next_unit]
    obtain ⟨h1, h2, h3⟩ := ih (a + 1)
      (buffer.set a ((readAt src (a : Int) - prev) * 1)) (readAt src (a : Int))
      (by rw [List.length_set]; omega)
    refine ⟨by rw [h1, List.length_set], fun n hn => ?_, fun n hn1 hn2 => ?_⟩
    · rw [h2 n (by omega)]
      exact getD_set_other _ _ _ _ _ (by omega)
    · by_cases hna : n = a
      · subst hna
        rw [h2 n (by omega), getD_set_same _ _ _ _ (by omega), if_pos rfl, mul_one]
      · rw [h3 n (by omega) (by omega), if_neg hna]
        by_cases hn : n = a + 1
        · rw [if_pos hn, hn]
          push_cast
          rw [add_sub_cancel_right]
        · rw [if_neg hn]

/-- C17 (as the code has it). Reconstructing the envelope at the stored resolution, for a
channel whose stored curve was made from an impulse of `L >= 3` samples and a request of
`L - 2` samples, completes and yields at every output index `1 <= n < L - 2` the peak-hold
value at sample `n` less the mean of the peak-hold values over the `L` samples: the
de-trending of the stored curve is not undone. -/
theorem GetFloatBufferCallback_stored_resolution [LinearOrderedField α] [FloorRing α]
    (fuel : Nat) (prim : Primitives α) (st : SampleStore α) (data : EffectData α)
    (name : String) (buffer impulse : List α) (c : Channel α) (i : Nat)
    (hsteady : Steady st data)
    (hname : name.data.take 7 = "Impulse".data)
    (hsel : channelSelector name = (i : Int))
    (hi : (i : Int) < data.numchannels)
    (hc : (data.channels.getD []).get? i = some c)
    (hcurve : c.impulse = envelopeCurve impulse (data.numpartitions * data.hopsize))
    (hlen : (impulse.length : Int) = data.numpartitions * data.hopsize)
    (hL : 3 ≤ impulse.length)
    (hbuf : buffer.length = impulse.length - 2) :
    ∃ out, GetFloatBufferCallback fuel prim st data name buffer ((impulse.length : Int) - 2)
        = some (st, data, out) ∧
      out.length = impulse.length - 2 ∧
      ∀ n, 1 ≤ n → n < impulse.length - 2 →
        out.getD n 0 = (peakHold impulse 0).getD n 0
          - (peakHold impulse 0).sum / (impulse.length : α) := by
  have hscale : (((data.hopsize * data.numpartitions - 2 : Int) : α)
      / (((impulse.length : Int) - 2 : Int) : α)) = 1 := by
    rw [mul_comm, ← hlen]
    apply div_self
    have h3 : (3 : Int) ≤ (impulse.length : Int) := by exact_mod_cast hL
    have : ((impulse.length : Int) - 2 : Int) ≠ 0 := by omega
    exact_mod_cast this
  have htoNat : ((impulse.length : Int) - 2).toNat = impulse.length - 2 := by omega
  obtain ⟨h1, _, h3⟩ := envelopeLoop_unit c.impulse (impulse.length - 2) 0 buffer 0
    (by omega)
  refine ⟨(envelopeLoop c.impulse 1 1 (List.range' 0 (impulse.length - 2)) (buffer, 0)).1,
    ?_, by rw [h1, hbuf], fun n hn1 hn2 => ?_⟩
  · unfold GetFloatBufferCallback
    rw [if_pos hname, SetupImpulse_steady fuel prim st data _ _ _ hsteady]
    simp only
    rw [if_neg (by rw [hsel]; omega), if_neg (by rw [hsel]; omega), hsel, Int.toNat_ofNat,
      hc]
    simp only
    rw [hscale, htoNat, div_one, List.range_eq_range']
  · rw [h3 n (by omega) (by omega), if_neg (by omega), hcurve]
    have hr1 : readAt (envelopeCurve impulse (data.numpartitions * data.hopsize)) (n : Int)
        = (envelopeCurve impulse (data.numpartitions * data.hopsize)).getD n 0 := by
      unfold readAt
      rw [if_pos (by omega), Int.toNat_ofNat]
    have hr2 : readAt (envelopeCurve impulse (data.numpartitions * data.hopsize))
        ((n : Int) - 1)
        = (envelopeCurve impulse (data.numpartitions * data.hopsize)).getD (n - 1) 0 := by
      unfold readAt
      rw [if_pos (by omega)]
      congr 1
      omega
    rw [hr1, hr2, envelopeCurve_getD _ _ n (by omega),
      envelopeCurve_getD _ _ (n - 1) (by omega), ← hlen]
    have hn : n - 1 + 1 = n := by omega
    rw [hn, List.sum_take_succ _ n (by rw [peakHold_length]; omega)]
    have hg : (peakHold impulse 0).getD n 0
        = (peakHold impulse 0).get ⟨n, by rw [peakHold_length]; omega⟩ := by
      simp [List.getD, List.getElem?_eq_getElem, peakHold_length, show n < impulse.length by omega]
    have hcast : ((n - 1 : Nat) : α) = (n : α) - 1 := by
      rw [Nat.cast_sub hn1, Nat.cast_one]
    rw [hg, hcast]
    simp only [List.get_eq_getElem, Int.cast_natCast]
    ring

theorem GetFloatBufferCallback_stored_resolution_witness :
    Steady preparedUnit.1 preparedUnit.2 ∧
    preparedImpulse primRat preparedUnit.1 0 preparedUnit.2 48000 0 = [1, 0, 0, 0] ∧
    ∃ out, GetFloatBufferCallback 100 primRat preparedUnit.1 preparedUnit.2 "Impulse0" [7, 7]
        (([(1 : ℚ), 0, 0, 0].length : Int) - 2) = some (preparedUnit.1, preparedUnit.2, out) ∧
      out.length = [(1 : ℚ), 0, 0, 0].length - 2 ∧
      ∀ n, 1 ≤ n → n < [(1 : ℚ), 0, 0, 0].length - 2 →
        out.getD n 0 = (peakHold [(1 : ℚ), 0, 0, 0] 0).getD n 0
          - (peakHold [(1 : ℚ), 0, 0, 0] 0).sum / ([(1 : ℚ), 0, 0, 0].length : ℚ) :=
  ⟨⟨preparedUnit.1.samples 0, by decide!, by decide!, by decide!, by decide!⟩,
    by decide!,
    GetFloatBufferCallback_stored_resolution 100 primRat preparedUnit.1 preparedUnit.2
      "Impulse0" [7, 7] [1, 0, 0, 0]
      ((preparedUnit.2.channels.getD []).getD 0 (Channel.fresh 0 0 0)) 0
      ⟨preparedUnit.1.samples 0, by decide!, by decide!, by decide!, by decide!⟩
      (by decide) (by decide) (by decide!) (by decide!) (by decide!) (by decide!)
      (by decide) (by decide)⟩

/-- C17 (counterexample). The engine prepared from the impulse `[1, 0, 0, 0]` stores a curve
of `L = 4` samples; the query at the stored resolution, `L - 2 = 2` samples, puts
`196009980399 / 40000000000000` at output index 1, while the peak-hold value at sample 1 is
`0.99 * 1 + 1e-9 = 990000001 / 1000000000`. -/
theorem GetFloatBufferCallback_not_peak_hold :
    preparedImpulse primRat preparedUnit.1 0 preparedUnit.2 48000 0 = [1, 0, 0, 0] ∧
    (preparedUnit.2.channels.getD []).map (fun c => c.impulse)
      = [envelopeCurve [1, 0, 0, 0] 4] ∧
    (GetFloatBufferCallback 100 primRat preparedUnit.1 preparedUnit.2 "Impulse0" [7, 7] 2).map
      (fun r => r.2.2.getD 1 0) = some (196009980399 / 40000000000000) ∧
    (peakHold [(1 : ℚ), 0, 0, 0] 0).getD 1 0 = 990000001 / 1000000000 ∧
    (196009980399 / 40000000000000 : ℚ) ≠ 990000001 / 1000000000 := by
  decide!

end Envelope

/-! ## Theorems: the engine predicate -/

section EngineState

variable {α : Type}

end EngineState

/-! ## Theorems: the channel loop of the block processor -/

section ChannelLoop

variable {α : Type}

/-- C15 (counterexample). A zeroed engine, slot 0 holding the mono impulse `[1, 0, 0, 0]`, blocks
of two frames. With one input channel and two output channels the call allocates two channel
states, runs the channel loop once and leaves the samples of output channel 1 as they were
(7 here). With two input channels and one output channel the check allocates one channel state
and the loop addresses `channels[1]`, outside the array. -/
theorem ProcessCallback_channel_count_mismatch :
    (ProcessCallback 100 primRat storeUnit (EffectData.zero 0) 48000 [1, 0] [7, 7, 7, 7]
      2 1 2).map (fun r => (r.2.2, (r.2.1.channels.getD []).length))
      = some ([1, 7, 0, 7], 2) ∧
    (SetupImpulse 100 primRat storeUnit (EffectData.zero 0) 1 2 48000).map
      (fun r => (r.2.channels.getD []).length) = some 1 ∧
    (ProcessCallback 100 primRat storeUnit (EffectData.zero 0) 48000 [1, 0, 0, 0] [7, 7]
      2 2 1).isNone = true := by
  decide!

/-- C15 (as the code has it). After a completed preparation check that leaves hop size `h`, a
block with `N >= 1` input channels, `N` at most the number `M` of output channels and at most
the number of allocated channel states, is processed to the end; the samples `n * M + i` of the
output block with `i < N` are assigned from channel `i`, every other sample is left as it was,
and for `N = M` every one of the `h * M` samples is assigned. -/
theorem ProcessCallback_assigns_output [LinearOrderedField α] [FloorRing α] (fuel : Nat)
    (prim : Primitives α) (st st1 : SampleStore α) (data data1 : EffectData α)
    (samplerate length : Int) (inbuffer outbuffer : List α) (h N M : Nat)
    (hsetup : SetupImpulse fuel prim st data (M : Int) length samplerate = some (st1, data1))
    (hh : data1.hopsize = (h : Int)) (hN : 1 ≤ N) (hNM : N ≤ M)
    (hch : N ≤ (data1.channels.getD []).length) (hout : outbuffer.length = h * M) :
    ∃ d out, ProcessCallback fuel prim st data samplerate inbuffer outbuffer length (N : Int)
        (M : Int) = some (st1, d, out) ∧
      out.length = h * M ∧
      (∀ i n, i < N → n < h → ∃ c, (data1.channels.getD []).get? i = some c ∧
        out.getD (n * M + i) 0
          = ((processChannel prim data1 inbuffer (N : Int) i c).y.getD n ⟨0, 0⟩).re) ∧
      (∀ q, (∀ i n, i < N → n < h → q ≠ n * M + i) → out.getD q 0 = outbuffer.getD q 0) ∧
      (N = M → ∀ q, q < h * M → ∃ c, (data1.channels.getD []).get? (q % M) = some c ∧
        out.getD q 0
          = ((processChannel prim data1 inbuffer (N : Int) (q % M) c).y.getD (q / M)
              ⟨0, 0⟩).re) := by
  obtain ⟨b1, hrun, _, hl2, hin, hwo, _, hmiss⟩ := processChannels_run prim data1 inbuffer N M h
    hh N 0
    { channels := data1.channels.getD [], tmpoutput := data1.tmpoutput,
      outbuffer := outbuffer, writeoffset := none }
    (by simpa using hch) (by simpa using hNM) hout
  obtain ⟨j, cj, _, _, _, hw⟩ := hwo hN
  rw [← List.range_eq_range'] at hrun
  have hassigned : ∀ i n, i < N → n < h → ∃ c, (data1.channels.getD []).get? i = some c ∧
      b1.outbuffer.getD (n * M + i) 0
        = ((processChannel prim data1 inbuffer (N : Int) i c).y.getD n ⟨0, 0⟩).re := by
    intro i n hi hn
    have hi1 : i < (data1.channels.getD []).length := by omega
    refine ⟨(data1.channels.getD [])[i], by simp [List.getElem?_eq_getElem hi1], ?_⟩
    exact (hin i _ (by omega) (by omega) (by simp [List.getElem?_eq_getElem hi1])).2 n hn
  refine ⟨{ data1 with
      channels := if data1.channels.isSome then some b1.channels else none
      tmpoutput := b1.tmpoutput
      bufferindex :=
        if data1.bufferindex - 1 < 0 then data1.numpartitions - 1 else data1.bufferindex - 1
      writeoffset := (processChannel prim data1 inbuffer (N : Int) j cj).writeoffset },
    b1.outbuffer, ?_, by rw [hl2]; exact hout, hassigned, ?_, ?_⟩
  · unfold ProcessCallback
    rw [hsetup]
    simp only
    unfold processBlock
    rw [Int.toNat_ofNat, hrun]
    simp only [hw]
  · intro q hq
    exact hmiss q (fun i n _ h2 hn => hq i n (by omega) hn)
  · intro hEq q hq
    have hM : 0 < M := by omega
    have hn : q / M < h := by
      rw [Nat.div_lt_iff_lt_mul hM]
      exact hq
    obtain ⟨c, hc, hval⟩ := hassigned (q % M) (q / M) (by rw [hEq]; exact Nat.mod_lt _ hM) hn
    refine ⟨c, hc, ?_⟩
    rw [← hval]
    congr 1
    rw [mul_comm]
    exact (Nat.div_add_mod q M).symm

theorem ProcessCallback_assigns_output_witness :
    SetupImpulse 100 primRat preparedUnit.1 preparedUnit.2 ((1 : Nat) : Int) 2 48000
      = some (preparedUnit.1, preparedUnit.2) ∧
    ∃ d out, ProcessCallback 100 primRat preparedUnit.1 preparedUnit.2 48000 [1, 0] [7, 7] 2
        ((1 : Nat) : Int) ((1 : Nat) : Int) = some (preparedUnit.1, d, out) ∧
      out.length = 2 * 1 ∧
      (∀ i n, i < 1 → n < 2 → ∃ c, (preparedUnit.2.channels.getD []).get? i = some c ∧
        out.getD (n * 1 + i) 0
          = ((processChannel primRat preparedUnit.2 [1, 0] ((1 : Nat) : Int) i c).y.getD n
              ⟨0, 0⟩).re) ∧
      (∀ q, (∀ i n, i < 1 → n < 2 → q ≠ n * 1 + i) → out.getD q 0 = [(7 : ℚ), 7].getD q 0) ∧
      (1 = 1 → ∀ q, q < 2 * 1 → ∃ c, (preparedUnit.2.channels.getD []).get? (q % 1) = some c ∧
        out.getD q 0
          = ((processChannel primRat preparedUnit.2 [1, 0] ((1 : Nat) : Int) (q % 1) c).y.getD
              (q / 1) ⟨0, 0⟩).re) :=
  have hsetup : SetupImpulse 100 primRat preparedUnit.1 preparedUnit.2 ((1 : Nat) : Int) 2
      48000 = some (preparedUnit.1, preparedUnit.2) :=
    SetupImpulse_steady 100 primRat preparedUnit.1 preparedUnit.2 _ _ _
      ⟨preparedUnit.1.samples 0, by decide!, by decide!, by decide!, by decide!⟩
  ⟨hsetup,
    ProcessCallback_assigns_output 100 primRat preparedUnit.1 preparedUnit.1 preparedUnit.2
      preparedUnit.2 48000 2 [1, 0] [7, 7] 2 1 1 hsetup (by decide!) (by decide) (by decide)
      (by decide!) (by decide)⟩

end ChannelLoop

/-! ## Theorems: circular partition addressing -/

section Addressing

variable {α : Type}

/-- The input side of one pass of the channel loop, for any transform: the ring buffer takes
the new block, the partition at the partition index takes the transform of the frame made of
the new block and the block before it, and the write offset advances by one hop. -/
theorem processChannel_ring [Ring α] (prim : Primitives α) (e b w N i : Nat)
    (data : EffectData α) (c : Channel α) (inbuffer : List α)
    (hhop : data.hopsize = ((2 ^ e : Nat) : Int))
    (hF : data.fftsize = ((2 ^ (e + 1) : Nat) : Int))
    (hb : data.bufferindex = (b : Int))
    (hw : data.writeoffset = (w : Int))
    (o prev : List α) (ho : o.length = 2 ^ e) (hprev : prev.length = 2 ^ e)
    (hring : (w = 0 ∧ c.s = o ++ prev) ∨ (w = 2 ^ e ∧ c.s = prev ++ o)) :
    (processChannel prim data inbuffer (N : Int) i c).channel.s
        = (if w = 0 then chanBlock inbuffer N i (2 ^ e) ++ prev
           else prev ++ chanBlock inbuffer N i (2 ^ e)) ∧
    (processChannel prim data inbuffer (N : Int) i c).channel.x
        = c.x.set b (prim.Forward (realFrame (chanBlock inbuffer N i (2 ^ e) ++ prev))) ∧
    (processChannel prim data inbuffer (N : Int) i c).writeoffset
        = (((w + 2 ^ e) % 2 ^ (e + 1) : Nat) : Int) := by
  have h2 : 2 ^ (e + 1) = 2 * 2 ^ e := by rw [pow_succ]; ring
  have hpos : 0 < 2 ^ e := Nat.two_pow_pos e
  have hcur : (chanBlock inbuffer N i (2 ^ e)).length = 2 ^ e := chanBlock_length _ _ _ _
  have hfed : feedInput inbuffer (N : Int) i (data.fftsize - 1)
      (List.range data.hopsize.toNat) (c.s, data.writeoffset)
      = ((if w = 0 then chanBlock inbuffer N i (2 ^ e) ++ prev
          else prev ++ chanBlock inbuffer N i (2 ^ e)),
         (((w + 2 ^ e) % 2 ^ (e + 1) : Nat) : Int)) := by
    rw [hF, hhop, hw, Int.toNat_ofNat, List.range_eq_range']
    rcases hring with ⟨hw0, hs⟩ | ⟨hwh, hs⟩
    · subst hw0
      rw [hs]
      have key := feedInput_stretch e inbuffer (N : Int) i (2 ^ e) 0 [] o prev ho
        (by simp; omega) (by simp)
      simp only [List.nil_append, List.length_nil, Nat.zero_add] at key
      refine Eq.trans key ?_
      simp [chanBlock, List.range_eq_range']
    · subst hwh
      rw [hs]
      have key := feedInput_stretch e inbuffer (N : Int) i (2 ^ e) 0 prev o [] ho
        (by rw [hprev]; omega) (by rw [hprev]; omega)
      simp only [List.append_nil, hprev] at key
      refine Eq.trans key ?_
      simp [chanBlock, List.range_eq_range', Nat.ne_of_gt hpos]
  have hwlt : w < 2 ^ (e + 1) := by
    rcases hring with ⟨hw0, _⟩ | ⟨hwh, _⟩ <;> omega
  have hframe : readFrame (if w = 0 then chanBlock inbuffer N i (2 ^ e) ++ prev
          else prev ++ chanBlock inbuffer N i (2 ^ e)) (data.fftsize - 1)
        data.fftsize.toNat data.writeoffset
      = (realFrame (chanBlock inbuffer N i (2 ^ e) ++ prev), (w : Int)) := by
    rw [hF, hw, Int.toNat_ofNat, readFrame_spec e _ _ _ hwlt]
    refine Prod.ext ?_ ?_
    · simp only
      rcases hring with ⟨hw0, _⟩ | ⟨hwh, _⟩
      · subst hw0
        simp only [if_true]
        exact frame_from_zero _ _ (by simp [hcur, hprev]; omega)
      · subst hwh
        simp only [Nat.ne_of_gt hpos, if_false]
        rw [h2]
        exact frame_from_half (2 ^ e) prev _ hprev hcur
    · simp only
      rw [Nat.add_mod_right, Nat.mod_eq_of_lt hwlt]
  refine ⟨?_, ?_, ?_⟩
  · simp only [processChannel, hfed]
  · simp only [processChannel, hfed, hframe, hb, Int.toNat_ofNat]
  · simp only [processChannel, hfed, hframe]
    rw [hF, hhop]
    exact land_mask_add e w (2 ^ e)

theorem mod_shift_ne (P b k : Nat) (hb : b < P) (hk1 : 1 ≤ k) (hk : k < P) :
    b ≠ (k + b) % P := by
  intro heq
  have hle : k + b < P ∨ k + b ≥ P := by omega
  rcases hle with hlt | hge
  · rw [Nat.mod_eq_of_lt hlt] at heq
    omega
  · have : (k + b) % P = k + b - P := by
      rw [Nat.mod_eq_sub_mod hge]
      exact Nat.mod_eq_of_lt (by omega)
    omega

/-- One pass of the channel loop on a channel in the state `RingInv`: at the
multiply-accumulate step every input partition `(k + b) mod P`, `k < P`, holds what
`partitionAt` says for block `T`, and the channel is left in the state `RingInv` for block
`T + 1`. -/
theorem ring_step [Ring α] (prim : Primitives α) (e P N i T b w : Nat)
    (blocks : List (List α)) (data : EffectData α) (c : Channel α)
    (hhop : data.hopsize = ((2 ^ e : Nat) : Int))
    (hF : data.fftsize = ((2 ^ (e + 1) : Nat) : Int))
    (hb : data.bufferindex = (b : Int)) (hbP : b < P)
    (hw : data.writeoffset = (w : Int))
    (hinv : RingInv prim e P blocks N i T b w c) :
    (∀ k, k < P →
      (processChannel prim data (blocks.getD T []) (N : Int) i c).channel.x.getD
        ((k + b) % P) [] = partitionAt prim blocks N i (2 ^ e) T k) ∧
    RingInv prim e P blocks N i (T + 1) ((b + P - 1) % P) ((w + 2 ^ e) % 2 ^ (e + 1))
      (processChannel prim data (blocks.getD T []) (N : Int) i c).channel ∧
    (processChannel prim data (blocks.getD T []) (N : Int) i c).writeoffset
      = (((w + 2 ^ e) % 2 ^ (e + 1) : Nat) : Int) := by
  have h2 : 2 ^ (e + 1) = 2 * 2 ^ e := by rw [pow_succ]; ring
  have hpos : 0 < 2 ^ e := Nat.two_pow_pos e
  obtain ⟨hxlen, hX, o, ho, hring⟩ := hinv
  have hprev := blockAt_length blocks N i (2 ^ e) ((T : Int) - 1)
  have hcur := blockAt_current blocks N i (2 ^ e) T
  obtain ⟨hs, hxs, hwo⟩ := processChannel_ring prim e b w N i data c (blocks.getD T [])
    hhop hF hb hw o (blockAt blocks N i (2 ^ e) ((T : Int) - 1)) ho hprev hring
  have hmac : ∀ k, k < P →
      (processChannel prim data (blocks.getD T []) (N : Int) i c).channel.x.getD
        ((k + b) % P) [] = partitionAt prim blocks N i (2 ^ e) T k := by
    intro k hk
    rw [hxs]
    by_cases hk0 : k = 0
    · subst hk0
      rw [Nat.zero_add, Nat.mod_eq_of_lt hbP, getD_set_same _ _ _ _ (by rw [hxlen]; exact hbP)]
      unfold partitionAt
      rw [if_pos (Nat.zero_le _)]
      simp only [frameAt, Nat.cast_zero, sub_zero, hcur]
    · rw [getD_set_other _ _ _ _ _ (mod_shift_ne P b k hbP (by omega) hk)]
      exact hX k (by omega) hk
  refine ⟨hmac, ⟨?_, ?_, ?_⟩, hwo⟩
  · rw [hxs, List.length_set]; exact hxlen
  · intro k hk1 hk
    have hidx : (k + (b + P - 1) % P) % P = (k - 1 + b) % P := by
      rw [Nat.add_mod_mod]
      have : k + (b + P - 1) = (k - 1 + b) + P := by omega
      rw [this, Nat.add_mod_right]
    rw [hidx, hmac (k - 1) (by omega)]
    unfold partitionAt
    by_cases hkT : k ≤ T + 1
    · rw [if_pos (by omega), if_pos hkT]
      have e1 : ((T : Int) - ((k - 1 : Nat) : Int)) = (((T + 1 : Nat) : Int) - (k : Int)) := by
        omega
      rw [e1]
    · rw [if_neg (by omega), if_neg hkT]
  · have e1 : (((T + 1 : Nat) : Int) - 1) = (T : Int) := by push_cast; ring
    rw [e1, hcur, hs]
    rcases hring with ⟨hw0, _⟩ | ⟨hwh, _⟩
    · subst hw0
      refine ⟨blockAt blocks N i (2 ^ e) ((T : Int) - 1), hprev, Or.inr ⟨?_, ?_⟩⟩
      · rw [Nat.zero_add]; exact Nat.mod_eq_of_lt (by omega)
      · simp
    · subst hwh
      refine ⟨blockAt blocks N i (2 ^ e) ((T : Int) - 1), hprev, Or.inl ⟨?_, ?_⟩⟩
      · rw [h2]
        have : 2 ^ e + 2 ^ e = 2 * 2 ^ e := by ring
        rw [this, Nat.mod_self]
      · simp [Nat.ne_of_gt hpos]

theorem processBlock_ring_step [Ring α] (prim : Primitives α) (e P N M T : Nat)
    (blocks : List (List α)) (data : EffectData α) (outbuffer : List α)
    (hN : 1 ≤ N) (hNM : N ≤ M) (hout : outbuffer.length = 2 ^ e * M)
    (hinv : EngineRingInv prim e P blocks N T data) :
    ∃ data1 out, processBlock prim data (blocks.getD T []) outbuffer (N : Int) (M : Int)
        = some (data1, out) ∧
      EngineRingInv prim e P blocks N (T + 1) data1 ∧
      data1.p = data.p ∧ data1.lastparams = data.lastparams := by
  obtain ⟨hhop, hF, hP, hsome, hNc, b, w, hb, hbP, hbT, hw, hchan⟩ := hinv
  obtain ⟨b', hrun, hl1, hl2, hin, hwo, hout', _⟩ :=
    processChannels_run prim data (blocks.getD T []) N M (2 ^ e) hhop N 0
      { channels := data.channels.getD [], tmpoutput := data.tmpoutput,
        outbuffer := outbuffer, writeoffset := none }
      (by simpa using hNc) (by omega) hout
  simp only [Nat.zero_add] at hin hwo hout'
  obtain ⟨j, cj, _, hjN, hjc, hjw⟩ := hwo hN
  have hstepj := ring_step prim e P N j T b w blocks data cj hhop hF hb hbP hw
    (hchan j cj hjN hjc)
  have hNn : (N : Int).toNat = N := Int.toNat_ofNat _
  refine ⟨{ data with
      channels := if data.channels.isSome then some b'.channels else none
      tmpoutput := b'.tmpoutput
      bufferindex := if data.bufferindex - 1 < 0 then data.numpartitions - 1
        else data.bufferindex - 1
      writeoffset := (processChannel prim data (blocks.getD T []) (N : Int) j cj).writeoffset },
    b'.outbuffer, ?_, ?_, rfl, rfl⟩
  · unfold processBlock
    rw [hNn, List.range_eq_range', hrun]
    simp only [hjw]
  · refine ⟨hhop, hF, hP, ?_, ?_, (b + P - 1) % P, (w + 2 ^ e) % 2 ^ (e + 1), ?_, ?_, ?_, ?_, ?_⟩
    · simp only [hsome, if_true, Option.isSome_some]
    · simp only [hsome, if_true, Option.getD_some]
      rw [hl1]; exact hNc
    · simp only [hb, hP]
      by_cases hb0 : b = 0
      · subst hb0
        have : ((0 : Nat) : Int) - 1 < 0 := by simp
        rw [if_pos this]
        have : (0 + P - 1) % P = P - 1 := by
          rw [Nat.zero_add]; exact Nat.mod_eq_of_lt (by omega)
        rw [this]
        omega
      · have : ¬ ((b : Int) - 1 < 0) := by omega
        rw [if_neg this]
        have : (b + P - 1) % P = b - 1 := by
          have : b + P - 1 = (b - 1) + P := by omega
          rw [this, Nat.add_mod_right]
          exact Nat.mod_eq_of_lt (by omega)
        rw [this]
        omega
    · exact Nat.mod_lt _ (by omega)
    · rw [Nat.mod_add_mod]
      have : b + P - 1 + (T + 1) = (b + T) + P := by omega
      rw [this, Nat.add_mod_right]
      exact hbT
    · simp only
      exact hstepj.2.2
    · intro i c hi hc
      simp only [hsome, if_true, Option.getD_some] at hc
      have hi' : i < (data.channels.getD []).length := by omega
      obtain ⟨c0, hc0⟩ : ∃ c0, (data.channels.getD []).get? i = some c0 :=
        ⟨(data.channels.getD [])[i], by simp [List.getElem?_eq_getElem hi']⟩
      have hci := (hin i c0 (by omega) hi hc0).1
      rw [hci] at hc
      rw [← Option.some.inj hc]
      exact (ring_step prim e P N i T b w blocks data c0 hhop hF hb hbP hw
        (hchan i c0 hi hc0)).2.1

theorem ProcessCallback_ring_step [LinearOrderedField α] [FloorRing α] (fuel : Nat)
    (prim : Primitives α) (e P N M T : Nat) (blocks : List (List α))
    (st : SampleStore α) (data : EffectData α)
    (samplerate length : Int) (hN : 1 ≤ N) (hNM : N ≤ M)
    (hlen : length = ((2 ^ e : Nat) : Int))
    (hinv : EngineRingInv prim e P blocks N T data) (hst : Steady st data) :
    ∃ data1 out, ProcessCallback fuel prim st data samplerate (blocks.getD T [])
        (List.replicate (length * (M : Int)).toNat 0) length (N : Int) (M : Int)
        = some (st, data1, out) ∧
      EngineRingInv prim e P blocks N (T + 1) data1 ∧ Steady st data1 := by
  have hout : (List.replicate (length * (M : Int)).toNat (0 : α)).length = 2 ^ e * M := by
    rw [List.length_replicate, hlen]
    have : (((2 ^ e : Nat) : Int) * (M : Int)) = ((2 ^ e * M : Nat) : Int) := by push_cast; rfl
    rw [this]; exact Int.toNat_ofNat _
  obtain ⟨data1, out, hpb, hinv1, hp, hlp⟩ :=
    processBlock_ring_step prim e P N M T blocks data _ hN hNM hout hinv
  refine ⟨data1, out, ?_, hinv1, ?_⟩
  · unfold ProcessCallback
    rw [SetupImpulse_steady fuel prim st data _ _ _ hst]
    simp only [hpb]
  · obtain ⟨s, hget, hlast, hupd, _⟩ := hst
    exact ⟨s, by rw [hp]; exact hget, by rw [hp, hlp]; exact hlast, hupd, hinv1.2.2.2.1⟩

/-- Running the blocks `T, ..., T + k - 1` from a state with the input side in order completes
and leaves the input side in order for block `T + k`. -/
theorem runBlocks_ring [LinearOrderedField α] [FloorRing α] (fuel : Nat)
    (prim : Primitives α) (e P N M : Nat) (blocks : List (List α)) (st : SampleStore α)
    (samplerate length : Int) (hN : 1 ≤ N) (hNM : N ≤ M)
    (hlen : length = ((2 ^ e : Nat) : Int)) :
    ∀ (k T : Nat) (data : EffectData α), T + k ≤ blocks.length →
      EngineRingInv prim e P blocks N T data → Steady st data →
      ∃ data1 outs, runBlocks fuel prim samplerate length (N : Int) (M : Int)
          ((blocks.drop T).take k) (st, data) = some (st, data1, outs) ∧
        EngineRingInv prim e P blocks N (T + k) data1 ∧ Steady st data1 := by
  intro k
  induction k with
  | zero =>
    intro T data _ hinv hst
    exact ⟨data, [], by simp [runBlocks], hinv, hst⟩
  | succ k ih =>
    intro T data hT hinv hst
    have hTlt : T < blocks.length := by omega
    have hdrop : blocks.drop T = blocks.getD T [] :: blocks.drop (T + 1) := by
      rw [List.drop_eq_getElem_cons hTlt]
      simp [List.getD, List.getElem?_eq_getElem hTlt]
    obtain ⟨data1, out, hpc, hinv1, hst1⟩ :=
      ProcessCallback_ring_step fuel prim e P N M T blocks st data samplerate length hN hNM
        hlen hinv hst
    obtain ⟨data2, outs, hrun, hinv2, hst2⟩ := ih (T + 1) data1 (by omega) hinv1 hst1
    refine ⟨data2, out :: outs, ?_, ?_, hst2⟩
    · rw [hdrop, List.take_succ_cons]
      simp only [runBlocks, hpc, hrun]
    · have e1 : T + 1 + k = T + (k + 1) := by omega
      rw [← e1]
      exact hinv2

theorem EngineRingInv_of_Rebuilt [Ring α] (prim : Primitives α) (e P N : Nat)
    (g : Nat → List α) (blocks : List (List α))
    (data : EffectData α) (hP : 1 ≤ P) (hNc : N ≤ (data.channels.getD []).length)
    (hre : Rebuilt prim data (2 ^ e) P g) :
    EngineRingInv prim e P blocks N 0 data := by
  have h2 : 2 ^ (e + 1) = 2 * 2 ^ e := by rw [pow_succ]; ring
  obtain ⟨hhop, hF, hPn, hb, hw, hsome, hs, hxz, _⟩ := hre
  refine ⟨hhop, ?_, hPn, hsome, hNc, 0, 0, by simpa using hb, by omega, by simp,
    by simpa using hw, ?_⟩
  · rw [hF, h2]; push_cast; rfl
  · intro i c hi hc
    have hcs := get?_of_map_eq _ _ _ hs i c hc
    have hcx := get?_of_map_eq _ _ _ hxz i c hc
    simp only at hcs hcx
    refine ⟨by rw [hcx]; simp, ?_, List.replicate (2 ^ e) 0, by simp, Or.inl ⟨rfl, ?_⟩⟩
    · intro k hk1 hk
      rw [hcx, Nat.add_zero, Nat.mod_eq_of_lt hk]
      unfold partitionAt
      rw [if_neg (by omega)]
      simp [List.getD, List.getElem?_replicate, hk]
    · rw [hcs]
      unfold blockAt
      rw [if_pos (by omega)]
      simp [two_mul]

/-- With every block after the first silent, the input is zero from the second block on. -/
theorem inputAt_silent [Zero α] (blocks : List (List α)) (N i h : Nat) (q : Int)
    (hh : 0 < h) (hq : (h : Int) ≤ q)
    (hsil : ∀ j (r : Int), 1 ≤ j → readAt (blocks.getD j []) r = 0) :
    inputAt blocks N i h q = 0 := by
  unfold inputAt
  rw [if_neg (by omega)]
  apply hsil
  have h1 : (1 : Int) ≤ q / (h : Int) :=
    Int.le_ediv_of_mul_le (by exact_mod_cast hh) (by omega)
  omega

/-- C18. From a freshly rebuilt engine with `P` partitions, hop size `2 ^ e` and any transform,
the blocks before block `t` are processed to the end, and at the multiply-accumulate step of
block `t` the input partition `x[(k + partitionIndex) mod P]` of every channel holds, for every
`k < P`, the forward transform of the frame formed at block `t - k` when `k <= t` and zeros
when `k > t` (`partitionAt`). With an exact transform and every block after the first silent,
the samples of every output block from block `P + 1` on are zero. -/
theorem ProcessCallback_circular_addressing [LinearOrderedField α] [FloorRing α] (fuel : Nat)
    (prim : Primitives α) (e P N M : Nat) (g : Nat → List α) (blocks : List (List α))
    (st : SampleStore α) (data : EffectData α) (samplerate : Int)
    (hre : Rebuilt prim data (2 ^ e) P g) (hst : Steady st data) (hP : 1 ≤ P) (hN : 1 ≤ N)
    (hNM : N ≤ M) (hNc : N ≤ (data.channels.getD []).length) :
    (∀ t, t < blocks.length →
      ∃ data1 outs, ∃ b : Nat,
        runBlocks fuel prim samplerate ((2 ^ e : Nat) : Int) (N : Int) (M : Int)
          (blocks.take t) (st, data) = some (st, data1, outs) ∧
        data1.bufferindex = (b : Int) ∧ b < P ∧
        ∀ i c, i < N → (data1.channels.getD []).get? i = some c → ∀ k, k < P →
          (processChannel prim data1 (blocks.getD t []) (N : Int) i c).channel.x.getD
            ((k + b) % P) [] = partitionAt prim blocks N i (2 ^ e) t k) ∧
    (ExactTransform prim (2 * 2 ^ e) →
      (∀ j (r : Int), 1 ≤ j → readAt (blocks.getD j []) r = 0) →
      ∃ data1 outs, runBlocks fuel prim samplerate ((2 ^ e : Nat) : Int) (N : Int) (M : Int)
          blocks (st, data) = some (st, data1, outs) ∧
        outs.length = blocks.length ∧
        ∀ t i n, P + 1 ≤ t → t < blocks.length → i < N → n < 2 ^ e →
          (outs.getD t []).getD (n * M + i) 0 = 0) := by
  have h2 : 2 ^ (e + 1) = 2 * 2 ^ e := by rw [pow_succ]; ring
  have hpos : 0 < 2 ^ e := Nat.two_pow_pos e
  refine ⟨fun t ht => ?_, fun hx hsil => ?_⟩
  · have hinv := EngineRingInv_of_Rebuilt prim e P N g blocks data hP hNc hre
    obtain ⟨data1, outs, hrun, hinv1, _⟩ :=
      runBlocks_ring fuel prim e P N M blocks st samplerate _ hN hNM rfl t 0 data (by omega)
        hinv hst
    rw [Nat.zero_add] at hinv1
    obtain ⟨hhop, hF, _, _, _, b, w, hb, hbP, _, hw, hchan⟩ := hinv1
    refine ⟨data1, outs, b, hrun, hb, hbP, fun i c hi hc k hk => ?_⟩
    exact (ring_step prim e P N i t b w blocks data1 c hhop hF hb hbP hw
      (hchan i c hi hc)).1 k hk
  · have hx' : ExactTransform prim (2 ^ (e + 1)) := by rw [h2]; exact hx
    have hinv := EngineInv_of_Rebuilt prim e P N g blocks hx' data hP hNc hre
    obtain ⟨data1, outs, hrun, hl, hy⟩ :=
      runBlocks_from fuel prim e P N M g blocks hx' st samplerate _ hN hNM rfl
        blocks.length 0 data (by omega) hinv hst
    refine ⟨data1, outs, by simpa using hrun, hl, fun t i n htP ht hi hn => ?_⟩
    rw [hy t i n ht hi hn]
    apply Finset.sum_eq_zero
    intro m hm
    rw [Finset.mem_range] at hm
    have hle : (P + 1) * 2 ^ e ≤ t * 2 ^ e := Nat.mul_le_mul_right _ htP
    rw [Nat.succ_mul] at hle
    have hq : ((2 ^ e : Nat) : Int)
        ≤ ((0 + t : Nat) : Int) * ((2 ^ e : Nat) : Int) + (n : Int) - (m : Int) := by
      have : (((t * 2 ^ e : Nat)) : Int) = (t : Int) * ((2 ^ e : Nat) : Int) := by push_cast; rfl
      rw [Nat.zero_add, ← this]
      omega
    rw [inputAt_silent blocks N i (2 ^ e) _ hpos hq hsil, mul_zero]

theorem ProcessCallback_circular_addressing_witness :
    Rebuilt primRat preparedFlat.2 (2 ^ 1) 2 (fun _ => [1 / 2, 1 / 2, 1 / 2, 1 / 2]) ∧
    Steady preparedFlat.1 preparedFlat.2 ∧
    (runBlocks 100 primRat 48000 2 1 1 [[1, 0], [0, 0], [0, 0], [0, 0]]
      (preparedFlat.1, preparedFlat.2)).map (fun r => r.2.2)
      = some [[1 / 2, 1 / 2], [1 / 2, 1 / 2], [0, 0], [0, 0]] ∧
    ((∀ t, t < [[(1 : ℚ), 0], [0, 0], [0, 0], [0, 0]].length →
      ∃ data1 outs, ∃ b : Nat,
        runBlocks 100 primRat 48000 ((2 ^ 1 : Nat) : Int) ((1 : Nat) : Int) ((1 : Nat) : Int)
          ([[(1 : ℚ), 0], [0, 0], [0, 0], [0, 0]].take t) (preparedFlat.1, preparedFlat.2)
          = some (preparedFlat.1, data1, outs) ∧
        data1.bufferindex = (b : Int) ∧ b < 2 ∧
        ∀ i c, i < 1 → (data1.channels.getD []).get? i = some c → ∀ k, k < 2 →
          (processChannel primRat data1 ([[(1 : ℚ), 0], [0, 0], [0, 0], [0, 0]].getD t [])
            ((1 : Nat) : Int) i c).channel.x.getD ((k + b) % 2) []
            = partitionAt primRat [[1, 0], [0, 0], [0, 0], [0, 0]] 1 i (2 ^ 1) t k) ∧
    (ExactTransform primRat (2 * 2 ^ 1) →
      (∀ j (r : Int), 1 ≤ j →
        readAt ([[(1 : ℚ), 0], [0, 0], [0, 0], [0, 0]].getD j []) r = 0) →
      ∃ data1 outs, runBlocks 100 primRat 48000 ((2 ^ 1 : Nat) : Int) ((1 : Nat) : Int)
          ((1 : Nat) : Int) [[1, 0], [0, 0], [0, 0], [0, 0]] (preparedFlat.1, preparedFlat.2)
          = some (preparedFlat.1, data1, outs) ∧
        outs.length = [[(1 : ℚ), 0], [0, 0], [0, 0], [0, 0]].length ∧
        ∀ t i n, 2 + 1 ≤ t → t < [[(1 : ℚ), 0], [0, 0], [0, 0], [0, 0]].length → i < 1 →
          n < 2 ^ 1 → (outs.getD t []).getD (n * 1 + i) 0 = 0)) :=
  ⟨by unfold Rebuilt; decide!,
    ⟨preparedFlat.1.samples 0, by decide!, by decide!, by decide!, by decide!⟩,
    by decide!,
    ProcessCallback_circular_addressing 100 primRat 1 2 1 1
      (fun _ => [1 / 2, 1 / 2, 1 / 2, 1 / 2]) [[1, 0], [0, 0], [0, 0], [0, 0]]
      preparedFlat.1 preparedFlat.2 48000 (by unfold Rebuilt; decide!)
      ⟨preparedFlat.1.samples 0, by decide!, by decide!, by decide!, by decide!⟩
      (by decide) (by decide) (by decide) (by decide!)⟩

end Addressing

/-! ## Theorems: the cells read by the resampling loop and the placeholder impulse -/

section Resampling

variable {α : Type}

/-- The value stored by the resampling loop is made of the two cells `resampleReads` names. -/
theorem resampleAt_reads [LinearOrderedField α] [FloorRing α] (s : IRSample) (buf : List α)
    (samplerate channel n : Int) :
    resampleAt s buf samplerate channel n
      = readAt buf (resampleReads α s samplerate channel n).1
        + (readAt buf (resampleReads α s samplerate channel n).2
            - readAt buf (resampleReads α s samplerate channel n).1)
          * ((n : α) * ((s.samplerate : α) / (samplerate : α))
              - ((ipos1 s ((n : α) * ((s.samplerate : α) / (samplerate : α))) : Int) : α)) :=
  rfl

/-- The channel loop of the preparation completes on an engine with at least one channel,
each allocated, and leaves the store with the dummy substituted. -/
theorem prepareChannels_completes [LinearOrderedField α] [FloorRing α] (prim : Primitives α)
    (u : Fin 16) (d : EffectData α) (st : SampleStore α) (numchannels samplerate : Int)
    (h1 : 1 ≤ d.numchannels) (hlen : d.numchannels.toNat ≤ (d.channels.getD []).length) :
    ∃ r, prepareChannels prim u d numchannels samplerate (List.range d.numchannels.toNat)
        (st, d.channels.getD []) = some r ∧
      r.1 = substituteDummy st u numchannels samplerate := by
  obtain ⟨r, hr, hst, _⟩ := prepareChannels_run prim u d numchannels samplerate
    d.numchannels.toNat 0 st (d.channels.getD []) (by omega)
  rw [← List.range_eq_range'] at hr
  refine ⟨r, hr, ?_⟩
  rw [hst, if_neg (by omega)]

end Resampling

/-! ## Theorems: the placeholder impulse of a slot without frames -/

section Placeholder

variable {α : Type}

/-- A count returned by the partition-count loop is the starting count or the first one whose
product with the hop size reaches the length. -/
theorem numpartitionsLoop_minimal (h L : Int) :
    ∀ (fuel : Nat) (np r : Int), numpartitionsLoop h L fuel np = some r →
      L ≤ r * h ∧ (r = np ∨ (r - 1) * h < L) := by
  intro fuel
  induction fuel with
  | zero => intro np r hr; simp [numpartitionsLoop] at hr
  | succ fuel ih =>
    intro np r hr
    unfold numpartitionsLoop at hr
    by_cases hc : np * h < L
    · rw [if_pos hc] at hr
      obtain ⟨h1, h2⟩ := ih _ _ hr
      refine ⟨h1, Or.inr ?_⟩
      rcases h2 with h2 | h2
      · rw [h2]
        simpa using hc
      · exact h2
    · rw [if_neg hc] at hr
      simp only [Option.some.injEq] at hr
      subst hr
      exact ⟨by omega, Or.inl rfl⟩

theorem prepareChannels_length [LinearOrderedField α] [FloorRing α] (prim : Primitives α)
    (u : Fin 16) (data : EffectData α) (numchannels samplerate : Int) :
    ∀ (is : List Nat) (st : SampleStore α) (chans : List (Channel α))
      (r : SampleStore α × List (Channel α)),
      prepareChannels prim u data numchannels samplerate is (st, chans) = some r →
      r.2.length = chans.length := by
  intro is
  induction is with
  | nil =>
    intro st chans r h
    simp only [prepareChannels, Option.some.injEq] at h
    rw [← h]
  | cons i rest ih =>
    intro st chans r h
    simp only [prepareChannels] at h
    split at h
    · exact absurd h (by simp)
    · rw [ih _ _ r h, List.length_set]

theorem processChannels_length [Ring α] (prim : Primitives α) (data : EffectData α)
    (inb : List α) (inchannels outchannels : Int) :
    ∀ (is : List Nat) (b b1 : BlockState α),
      processChannels prim data inb inchannels outchannels is b = some b1 →
      b1.channels.length = b.channels.length := by
  intro is
  induction is with
  | nil =>
    intro b b1 h
    simp only [processChannels, Option.some.injEq] at h
    rw [← h]
  | cons i rest ih =>
    intro b b1 h
    simp only [processChannels] at h
    split at h
    · exact absurd h (by simp)
    · rw [ih _ b1 h]
      simp only [List.length_set]

theorem EngineSized_zero [Zero α] (p : α) : EngineSized (EffectData.zero p) := by
  intro h
  simp [EffectData.zero] at h

/-- A completed `ResetData` leaves a sized engine. -/
theorem EngineSized_ResetData [LinearOrderedField α] [FloorRing α] (fuel : Nat)
    (data d : EffectData α) (s : IRSample) (numchannels blocksize samplerate : Int)
    (hrun : ResetData fuel data s numchannels blocksize samplerate = some d) :
    EngineSized d := by
  unfold ResetData at hrun
  split at hrun
  · exact absurd hrun (by simp)
  · rename_i np hnp
    simp only [Option.some.injEq] at hrun
    subst hrun
    intro hb
    simp only at hb
    refine ⟨rfl, by simp, fun h0 => ?_⟩
    simp only at h0 ⊢
    have hL : reallength α s samplerate = 256 := by
      unfold reallength
      rw [if_pos h0]
    rw [hL] at hnp
    obtain ⟨h1, h2⟩ := numpartitionsLoop_minimal _ _ _ _ _ hnp
    refine ⟨h1, ?_⟩
    rcases h2 with h2 | h2
    · rw [h2] at h1
      omega
    · exact h2

/-- A completed preparation run leaves a sized engine. -/
theorem EngineSized_irUpload_thread [LinearOrderedField α] [FloorRing α] (fuel : Nat)
    (prim : Primitives α) (st st1 : SampleStore α) (data data1 : EffectData α)
    (numchannels blocksize samplerate : Int) (hsized : EngineSized data)
    (hrun : irUpload_thread fuel prim st data numchannels blocksize samplerate
      = some (st1, data1)) :
    EngineSized data1 := by
  unfold irUpload_thread at hrun
  split at hrun
  · rename_i hu
    simp only at hrun
    split at hrun
    · exact absurd hrun (by simp)
    · rename_i d hd
      have hd1 : EngineSized d := by
        split at hd
        · simp only [Option.some.injEq] at hd
          rw [← hd]
          exact hsized
        · exact EngineSized_ResetData fuel data d _ numchannels blocksize samplerate hd
      split at hrun
      · exact absurd hrun (by simp)
      · rename_i r hr
        have hlen := prepareChannels_length prim _ d numchannels samplerate _ _ _ r hr
        simp only [Option.some.injEq, Prod.mk.injEq] at hrun
        rw [← hrun.2]
        intro hb
        obtain ⟨h1, h2, h3⟩ := hd1 hb
        refine ⟨?_, ?_, h3⟩
        · simp only [h1, if_true, Option.isSome_some]
        · simp only [h1, if_true, Option.getD_some]
          rw [hlen]
          exact h2
  · exact absurd hrun (by simp)

/-- A completed preparation check leaves a sized engine. -/
theorem EngineSized_SetupImpulse [LinearOrderedField α] [FloorRing α] (fuel : Nat)
    (prim : Primitives α) (st st1 : SampleStore α) (data data1 : EffectData α)
    (numchannels blocksize samplerate : Int) (hsized : EngineSized data)
    (hrun : SetupImpulse fuel prim st data numchannels blocksize samplerate
      = some (st1, data1)) :
    EngineSized data1 := by
  unfold SetupImpulse at hrun
  split at hrun
  · simp only at hrun
    split at hrun
    · simp only [Option.some.injEq, Prod.mk.injEq] at hrun
      rw [← hrun.2]
      exact hsized
    · exact EngineSized_irUpload_thread fuel prim _ st1 data data1 numchannels blocksize
        samplerate hsized hrun
  · exact absurd hrun (by simp)

/-- The block body leaves a sized engine. -/
theorem EngineSized_processBlock [Ring α] (prim : Primitives α) (data d : EffectData α)
    (inbuffer outbuffer out : List α) (inchannels outchannels : Int)
    (hsized : EngineSized data)
    (hrun : processBlock prim data inbuffer outbuffer inchannels outchannels = some (d, out)) :
    EngineSized d := by
  unfold processBlock at hrun
  split at hrun
  · exact absurd hrun (by simp)
  · rename_i b hb
    have hlen := processChannels_length prim data inbuffer inchannels outchannels _ _ b hb
    simp only at hlen
    split at hrun
    · exact absurd hrun (by simp)
    · simp only [Option.some.injEq, Prod.mk.injEq] at hrun
      rw [← hrun.1]
      intro hh
      obtain ⟨h1, h2, h3⟩ := hsized hh
      refine ⟨?_, ?_, h3⟩
      · simp only [h1, if_true, Option.isSome_some]
      · simp only [h1, if_true, Option.getD_some]
        rw [hlen]
        exact h2

/-- Every call of `ProcessCallback` leaves a sized engine. -/
theorem EngineSized_ProcessCallback [LinearOrderedField α] [FloorRing α] (fuel : Nat)
    (prim : Primitives α) (st st1 : SampleStore α) (data d : EffectData α) (samplerate : Int)
    (inbuffer outbuffer out : List α) (length inchannels outchannels : Int)
    (hsized : EngineSized data)
    (hrun : ProcessCallback fuel prim st data samplerate inbuffer outbuffer length inchannels
      outchannels = some (st1, d, out)) :
    EngineSized d := by
  unfold ProcessCallback at hrun
  split at hrun
  · exact absurd hrun (by simp)
  · rename_i st2 data2 hsetup
    have h2 := EngineSized_SetupImpulse fuel prim st st2 data data2 _ _ _ hsized hsetup
    split at hrun
    · exact absurd hrun (by simp)
    · rename_i d2 out2 hpb
      simp only [Option.some.injEq, Prod.mk.injEq] at hrun
      rw [← hrun.2.1]
      exact EngineSized_processBlock prim data2 d2 inbuffer outbuffer out2 _ _ h2 hpb

/-- Setting the parameter leaves a sized engine. -/
theorem EngineSized_SetFloatParameterCallback (data d : EffectData α) (index : Int) (value : α)
    (hsized : EngineSized data)
    (hrun : SetFloatParameterCallback data index value = some d) :
    EngineSized d := by
  unfold SetFloatParameterCallback at hrun
  split at hrun
  · exact absurd hrun (by simp)
  · simp only [Option.some.injEq] at hrun
    rw [← hrun]
    exact hsized

/-- An envelope query leaves a sized engine. -/
theorem EngineSized_GetFloatBufferCallback [LinearOrderedField α] [FloorRing α] (fuel : Nat)
    (prim : Primitives α) (st st1 : SampleStore α) (data d : EffectData α) (name : String)
    (buffer out : List α) (numsamples : Int) (hsized : EngineSized data)
    (hrun : GetFloatBufferCallback fuel prim st data name buffer numsamples
      = some (st1, d, out)) :
    EngineSized d := by
  unfold GetFloatBufferCallback at hrun
  split at hrun
  · split at hrun
    · exact absurd hrun (by simp)
    · rename_i st2 data2 hsetup
      have h2 := EngineSized_SetupImpulse fuel prim st st2 data data2 _ _ _ hsized hsetup
      split at hrun
      · simp only [Option.some.injEq, Prod.mk.injEq] at hrun
        rw [← hrun.2.1]; exact h2
      · split at hrun
        · exact absurd hrun (by simp)
        · split at hrun
          · exact absurd hrun (by simp)
          · simp only [Option.some.injEq, Prod.mk.injEq] at hrun
            rw [← hrun.2.1]; exact h2
  · simp only [Option.some.injEq, Prod.mk.injEq] at hrun
    rw [← hrun.2.1]; exact hsized

/-- Scenario B of the specification on the four-point transform: slot 5 selected with no
frames, one channel, blocks of two samples; the first block `[1, 0]` and a silent block are
processed and give the placeholder's first samples. -/
theorem placeholder_scenario :
    (runBlocks 300 primRat 48000 2 1 1 [[1, 0], [0, 0]]
      (storeNoFrames, EffectData.zero 5)).map (fun r => r.2.2) = some [[1, 0], [0, 0]] := by
  decide!

end Placeholder

end ConvolutionReverb
